import Mathlib

/-!
# Pocket Core relay servicing: a verification development

Shallow embedding of `x/pocketcore/types/service.go` (relay validation, relay
execution, request hashing, relay responses, sorting of JSON responses) together with the
collaborators it reads, and theorems settling the specification's claims about them.

Conventions of the embedding:

* Go `string` values are Lean `String`s (the relay reaches the node through the JSON
  decoder, which only produces valid UTF-8); `[]byte` values are lists of naturals below 256.
  Where a Go string that is not valid UTF-8 matters (the payload data written by
  `json.Marshal`), the string is given by its bytes (`Relay.MarshalOfData`).
* `int64` values are integers; where Go arithmetic can wrap, the wrap is explicit
  (`wrapInt64`).
* `sdk.Error` results are `Option Error`, `none` standing for `nil`.
* `float64` values are modelled by `Float64` (IEEE-754 binary64, round to nearest even).
* `encoding/json` is modelled by a decoder and an encoder over `JSONValue`; the float
  conversions of `strconv` are a parameter (`NumberCodec`). `net/http` is a parameter
  (`ExecEnv`).
* The header map of an `http.Request` is the list of its entries (`Header`), set through
  `Header.Set` with the key in canonical form.
* The RPC handlers of `app/cmd/rpc/client.go` return the list of the responses they
  write; the functions they call are parameters (`QuerySteps`, `RawTxSteps`).
* `dispatch.Find` takes the entries of the peer list in the order of the iteration over
  the map; `big.Int` values are integers, `uint64` values naturals below `2 ^ 64`.
-/

namespace Pocket

/-! ## Errors -/

/-- The `sdk.Error` values built by the constructors the relay code calls
(`NewEmptyPayloadDataError`, `NewOutOfSyncRequestError`, ...). Errors produced by
collaborators outside `service.go` are carried by `other`. -/
inductive Error where
  | EmptyPayloadData
  | OutOfSyncRequest
  | RequestHash
  | UnsupportedBlockchainNode
  | DuplicateProof
  | OverService
  | Internal (msg : String)
  | EmptyResponse
  | ResponseSignature
  | HTTPStatusCode (code : Int)
  | HTTPExecution (msg : String)
  | other (name : String)
  deriving DecidableEq, Repr

/-! ## Machine integers -/

/-- Two's-complement wrap of an integer into the `int64` range. -/
def wrapInt64 (x : Int) : Int := (x + 2 ^ 63) % 2 ^ 64 - 2 ^ 63

/-- The integer is an `int64` value. -/
def inInt64 (x : Int) : Prop := -(2 ^ 63) ≤ x ∧ x < 2 ^ 63

instance (x : Int) : Decidable (inInt64 x) := by unfold inInt64; infer_instance

/-! ## Payload and relay metadata -/

/-- The `Payload` struct: `Headers` is a Go map, `none` standing for the nil map
and `some l` for a map with the entries `l` (distinct keys). -/
structure Payload where
  Data : String
  Method : String
  Path : String
  Headers : Option (List (String × String))
  deriving DecidableEq, Repr

/-- `Payload.Validate`: validity check for the payload object. -/
def Payload.Validate (p : Payload) : Option Error :=
  if p.Data = "" ∧ p.Path = "" then some Error.EmptyPayloadData else none

/-- The `RelayMeta` struct. -/
structure RelayMeta where
  BlockHeight : Int
  deriving DecidableEq, Repr

/-- The part of `sdk.Ctx` read by the relay code: the current block height. -/
structure Ctx where
  BlockHeight : Int
  deriving DecidableEq, Repr

/-- `RelayMeta.Validate`: the block height must lie within the allowance around the
current height. `globalClientBlockAllowance` is the package variable set by
`InitClientBlockAllowance`; the additions are `int64` additions. -/
def RelayMeta.Validate (m : RelayMeta) (ctx : Ctx) (globalClientBlockAllowance : Int) :
    Option Error :=
  if wrapInt64 (ctx.BlockHeight + globalClientBlockAllowance) < m.BlockHeight
      ∨ wrapInt64 (ctx.BlockHeight - globalClientBlockAllowance) > m.BlockHeight then
    some Error.OutOfSyncRequest
  else none

/-! ## Byte strings, hexadecimal and JSON encodings -/

/-- UTF-8 encoding of one character: the bytes a Go string holds for it. -/
def utf8EncodeChar (c : Char) : List Nat :=
  let n := c.toNat
  if n < 0x80 then [n]
  else if n < 0x800 then [0xC0 + n / 64, 0x80 + n % 64]
  else if n < 0x10000 then [0xE0 + n / 4096, 0x80 + n / 64 % 64, 0x80 + n % 64]
  else [0xF0 + n / 262144, 0x80 + n / 4096 % 64, 0x80 + n / 64 % 64, 0x80 + n % 64]

/-- The bytes of a string (`[]byte(s)`). -/
def utf8Bytes (s : String) : List Nat := s.data.flatMap utf8EncodeChar

/-- Lower-case hexadecimal digit of a value below 16. -/
def hexDigit (n : Nat) : Char :=
  if n < 10 then Char.ofNat (48 + n) else Char.ofNat (87 + n)

/-- `hex.EncodeToString`: two lower-case digits per byte. -/
def hexEncode (bs : List Nat) : String :=
  String.mk (bs.flatMap fun b => [hexDigit (b / 16), hexDigit (b % 16)])

/-- Value of a hexadecimal digit, either case, as accepted by `hex.DecodeString`. -/
def hexVal (c : Char) : Option Nat :=
  let n := c.toNat
  if 48 ≤ n ∧ n ≤ 57 then some (n - 48)
  else if 97 ≤ n ∧ n ≤ 102 then some (n - 87)
  else if 65 ≤ n ∧ n ≤ 70 then some (n - 55)
  else none

/-- Decoding of a list of hexadecimal digits, two per byte. -/
def hexDecodeChars : List Char → Option (List Nat)
  | [] => some []
  | [_] => none
  | a :: b :: rest =>
    match hexVal a, hexVal b, hexDecodeChars rest with
    | some x, some y, some t => some ((x * 16 + y) :: t)
    | _, _, _ => none

/-- `hex.DecodeString`: fails (`none`) on an odd length or a character that is not a
hexadecimal digit. -/
def hexDecode (s : String) : Option (List Nat) := hexDecodeChars s.data

/-- Escaping of one character inside a JSON string by `encoding/json` with HTML
escaping on (the default of `json.Marshal`): quote and backslash get a backslash, line
feed, carriage return and tab their short forms, other control characters and
`<`, `>`, `&` the six-character unicode form, as do U+2028 and U+2029 (the encoder of the
Go releases contemporary with the package, which has no short form for backspace and form
feed). -/
def jsonEscapeChar (c : Char) : List Char :=
  let n := c.toNat
  if n = 34 then [Char.ofNat 92, Char.ofNat 34]
  else if n = 92 then [Char.ofNat 92, Char.ofNat 92]
  else if n = 10 then [Char.ofNat 92, 'n']
  else if n = 13 then [Char.ofNat 92, 'r']
  else if n = 9 then [Char.ofNat 92, 't']
  else if n < 32 ∨ n = 60 ∨ n = 62 ∨ n = 38 then
    [Char.ofNat 92, 'u', '0', '0', hexDigit (n / 16), hexDigit (n % 16)]
  else if n = 0x2028 then [Char.ofNat 92, 'u', '2', '0', '2', '8']
  else if n = 0x2029 then [Char.ofNat 92, 'u', '2', '0', '2', '9']
  else [c]

/-- JSON encoding of a Go string. -/
def jsonString (s : String) : String :=
  "\"" ++ String.mk (s.data.flatMap jsonEscapeChar) ++ "\""

/-- JSON encoding of an `int64`: its decimal digits. -/
def jsonInt (n : Int) : String := toString n

/-- JSON encoding of a `map[string]string`: `null` for the nil map, otherwise an
object with the entries in ascending key order. -/
def jsonStringMap : Option (List (String × String)) → String
  | none => "null"
  | some l =>
    "\x7b" ++ ",".intercalate
      ((l.insertionSort (fun a b => a.1 ≤ b.1)).map
        fun kv => jsonString kv.1 ++ ":" ++ jsonString kv.2) ++ "\x7d"

/-- `Payload.MarshalJSON`: marshals the private `payload` struct, whose `headers`
field has no `omitempty` option. -/
def Payload.MarshalJSON (p : Payload) : String :=
  "\x7b\"data\":" ++ jsonString p.Data ++ ",\"method\":" ++ jsonString p.Method
    ++ ",\"path\":" ++ jsonString p.Path ++ ",\"headers\":" ++ jsonStringMap p.Headers ++ "\x7d"

/-- `Payload.Bytes`: `json.Marshal(p)`, which calls `Payload.MarshalJSON`. -/
def Payload.Bytes (p : Payload) : List Nat := utf8Bytes p.MarshalJSON

/-- JSON encoding of a `RelayMeta`. -/
def RelayMeta.MarshalJSON (m : RelayMeta) : String :=
  "\x7b\"block_height\":" ++ jsonInt m.BlockHeight ++ "\x7d"

/-! ## Tokens, proofs and relays -/

/-- The application authority token. The declaration is not in `service.go`; the
fields are those the tests of `service.go` set. -/
structure AAT where
  Version : String
  ApplicationPublicKey : String
  ClientPublicKey : String
  ApplicationSignature : String
  deriving DecidableEq, Repr

/-- The relay proof. The declaration is not in `service.go`; the fields are those
`Relay.Validate` and the tests of `service.go` use. -/
structure RelayProof where
  RequestHash : String
  Entropy : Int
  SessionBlockHeight : Int
  ServicerPubKey : String
  Blockchain : String
  Token : AAT
  Signature : String
  deriving DecidableEq, Repr

/-- The session header, as built by `Relay.Validate`. -/
structure SessionHeader where
  ApplicationPubKey : String
  Chain : String
  SessionBlockHeight : Int
  deriving DecidableEq, Repr

/-- The `Relay` struct. -/
structure Relay where
  Payload : Payload
  Meta : RelayMeta
  Proof : RelayProof
  deriving DecidableEq, Repr

/-- The HTTP method a payload without method is given. -/
def DEFAULTHTTPMETHOD : String := "POST"

/-- `Relay.RequestHash`: the JSON encoding of the anonymous struct holding the payload
and the meta of the relay. The function returns the marshalled bytes themselves. -/
def Relay.RequestHash (r : Relay) : List Nat :=
  utf8Bytes ("\x7b\"payload\":" ++ r.Payload.MarshalJSON ++ ",\"meta\":"
    ++ r.Meta.MarshalJSON ++ "\x7d")

/-- `Relay.RequestHashString`: the hex string of `RequestHash`. -/
def Relay.RequestHashString (r : Relay) : String := hexEncode r.RequestHash

/-- Modelled from the spec: the digest size of the cryptographic hash `Hash` (its
definition is in a file of the package that is not available); the spec types a hash
as 32 bytes. -/
def HashLength : Nat := 32

/-! ## Floating point -/

/-- Rounding of a rational to the nearest integer, ties to the even one. -/
def roundHalfEven (q : ℚ) : Int :=
  let f := ⌊q⌋
  let r := q - f
  if r < 1 / 2 then f else if 1 / 2 < r then f + 1 else if f % 2 = 0 then f else f + 1

/-- The values of Go's `float64` (IEEE-754 binary64). The two zeros are identified:
every divisor in this development is the conversion of an integer, which is never the
negative zero. -/
inductive Float64 where
  | finite (q : ℚ)
  | posInf
  | negInf
  | nan
  deriving DecidableEq

/-- The largest finite binary64 value. -/
def Float64.maxFinite : ℚ := (2 ^ 53 - 1) * 2 ^ 971

/-- Rounding of a rational to the nearest multiple of the unit in the last place of
the binade of exponent `e`, ties to even. -/
def Float64.roundTo (e : Int) (q : ℚ) : ℚ :=
  (roundHalfEven (q / 2 ^ (e - 52)) : ℚ) * 2 ^ (e - 52)

/-- Rounding of an exact result to binary64, to nearest with ties to even: a 53-bit
significand scaled by the exponent of the value (at least the subnormal exponent), and
an infinity beyond the largest finite value. -/
def Float64.round (q : ℚ) : Float64 :=
  if q = 0 then Float64.finite 0
  else
    let r : ℚ := Float64.roundTo (max (Int.log 2 |q|) (-1022)) q
    if Float64.maxFinite < r then Float64.posInf
    else if r < -Float64.maxFinite then Float64.negInf
    else Float64.finite r

/-- The conversion `float64(n)` of an integer. -/
def Float64.ofInt (n : Int) : Float64 := Float64.round n

/-- The quotient `x / y` of two `float64` values. -/
def Float64.div : Float64 → Float64 → Float64
  | Float64.finite a, Float64.finite b =>
    if b = 0 then
      if 0 < a then Float64.posInf else if a < 0 then Float64.negInf else Float64.nan
    else Float64.round (a / b)
  | Float64.finite _, Float64.posInf => Float64.finite 0
  | Float64.finite _, Float64.negInf => Float64.finite 0
  | Float64.posInf, Float64.finite b => if 0 ≤ b then Float64.posInf else Float64.negInf
  | Float64.negInf, Float64.finite b => if 0 ≤ b then Float64.negInf else Float64.posInf
  | _, _ => Float64.nan

/-- `math.Ceil`: the least integral value not below the argument; infinities and NaN
are returned unchanged. -/
def Float64.ceil : Float64 → Float64
  | Float64.finite q => Float64.finite (⌈q⌉ : Int)
  | x => x

/-- The conversion `int64(x)` of a `float64`: the fraction is discarded (truncation
towards zero). When the truncated value is not an `int64`, or the argument is an infinity or
NaN, the Go specification leaves the result to the implementation: `platform` is that
choice. -/
def Float64.toInt64 (platform : Float64 → Int) : Float64 → Int
  | Float64.finite q =>
    let t : Int := if 0 ≤ q then ⌊q⌋ else ⌈q⌉
    if inInt64 t then t else platform (Float64.finite q)
  | x => platform x

/-! ## Applications, validators, sessions and hosted chains -/

/-- The fields of an application (`appexported.ApplicationI`) that the relay code
reads; `MaxRelays` is the value of `GetMaxRelays().Int64()`. -/
structure Application where
  Address : String
  PublicKey : String
  Jailed : Bool
  Staked : Bool
  Chains : List String
  MaxRelays : Int
  deriving DecidableEq, Repr

/-- The fields of a validator (`nodeexported.ValidatorI`) that the relay code reads;
`PublicKey` is the value of `GetPublicKey().RawString()`. -/
structure Validator where
  Address : String
  PublicKey : String
  Jailed : Bool
  Staked : Bool
  Chains : List String
  ServiceURL : String
  deriving DecidableEq, Repr

/-- The keeper handed to the session deriver: the validators it can enumerate. -/
structure PosKeeper where
  Validators : List Validator
  deriving DecidableEq, Repr

/-- Modelled from the spec: the `Session` type (declared in a file that is not
available): a header, the session key and the ordered nodes of the session. -/
structure Session where
  SessionHeader : SessionHeader
  SessionKey : String
  SessionNodes : List Validator
  deriving DecidableEq, Repr

/-- One hosted chain: its identifier and the URL of its endpoint. -/
structure HostedBlockchain where
  ID : String
  URL : String
  deriving DecidableEq, Repr

/-- The registry of hosted chains: the map `M` from chain identifier to chain, as an
association list. -/
structure HostedBlockchains where
  M : List (String × HostedBlockchain)
  deriving DecidableEq, Repr

/-- Modelled from the spec: `HostedBlockchains.Contains` (defined in a file that is
not available): whether the registry maps the chain identifier. -/
def HostedBlockchains.Contains (hb : HostedBlockchains) (id : String) : Bool :=
  hb.M.any fun e => e.1 == id

/-! ## Proof store -/

/-- Modelled from the spec: the proof store (defined in files that are not
available), two maps keyed by session header: the ordered evidence and the
uniqueness index over (entropy, session block height, servicer public key). -/
structure ProofStore where
  evidence : SessionHeader → List RelayProof
  uniq : SessionHeader → List (Int × Int × String)

/-- The triple a proof is indexed by for uniqueness. -/
def RelayProof.uniqKey (p : RelayProof) : Int × Int × String :=
  (p.Entropy, p.SessionBlockHeight, p.ServicerPubKey)

/-- The session header a proof is stored under, the one `Relay.Validate` builds as
`evidenceHeader`. -/
def RelayProof.evidenceHeader (p : RelayProof) : SessionHeader :=
  { ApplicationPubKey := p.Token.ApplicationPublicKey
    Chain := p.Blockchain
    SessionBlockHeight := p.SessionBlockHeight }

/-- Modelled from the spec: the empty proof store. -/
def ProofStore.empty : ProofStore := { evidence := fun _ => [], uniq := fun _ => [] }

/-- Modelled from the spec: `GetTotalProofs(header, RelayEvidence)`, the operation
`count(header)`: the number of proofs stored under the header. -/
def GetTotalProofs (s : ProofStore) (h : SessionHeader) : Int := ((s.evidence h).length : Int)

/-- Modelled from the spec: `IsUniqueProof`, the operation `is_unique(header, proof)`:
the triple of the proof is not in the uniqueness index of the header. -/
def IsUniqueProof (s : ProofStore) (h : SessionHeader) (p : RelayProof) : Bool :=
  !(s.uniq h).contains p.uniqKey

/-- Modelled from the spec: the operation `insert(header, proof)`: fails with
`DuplicateProof` if the triple is already present, and otherwise appends the proof to the
evidence of the header and records its triple. -/
def ProofStore.insert (s : ProofStore) (h : SessionHeader) (p : RelayProof) :
    Except Error ProofStore :=
  if IsUniqueProof s h p then
    Except.ok
      { evidence := fun k => if k = h then s.evidence h ++ [p] else s.evidence k
        uniq := fun k => if k = h then p.uniqKey :: s.uniq h else s.uniq k }
  else Except.error Error.DuplicateProof

/-- Modelled from the spec: `RelayProof.Store`: inserts the proof under its own
evidence header. -/
def RelayProof.Store (p : RelayProof) (s : ProofStore) : Except Error ProofStore :=
  s.insert p.evidenceHeader p

/-- Modelled from the spec: `GetProof(header, RelayEvidence, index)`: the proof at the
index in the evidence of the header. -/
def GetProof (s : ProofStore) (h : SessionHeader) (index : Nat) : Option RelayProof :=
  (s.evidence h)[index]?

/-! ## Relay validation -/

/-- The collaborators of `Relay.Validate` that are defined outside `service.go`, over
a session cache of state type `Cache`: the package variable holding the allowance, the
platform's conversion of unrepresentable floats, the proof store, and the functions
`RelayProof.ValidateLocal`, `Ctx.PrevCtx`, `GetSession`, `NewSession`, `BlockHash`,
`SetSession` and `Session.Validate`. -/
structure Env (Cache : Type) where
  globalClientBlockAllowance : Int
  platformInt64 : Float64 → Int
  proofs : ProofStore
  ValidateLocal : RelayProof → List String → Int → Int → String → Option Error
  PrevCtx : Ctx → Int → Except String Ctx
  GetSession : Cache → SessionHeader → Option Session × Cache
  NewSession : Ctx → Ctx → PosKeeper → SessionHeader → String → Int → Except Error Session
  BlockHash : Ctx → String
  SetSession : Cache → Session → Cache
  SessionValidate : Session → Validator → Application → Int → Option Error

/-- The outcome of `Relay.Validate`: the returned error (`none` for nil), the relay
behind the receiver pointer and the session cache after the call. -/
structure ValidateResult (Cache : Type) where
  err : Option Error
  relay : Relay
  cache : Cache

/-- The bound of the over-service check of `Relay.Validate`:
`int64(math.Ceil(float64(maxRelays)/float64(len(chains)))/float64(sessionNodeCount))`. -/
def overServiceBound (platform : Float64 → Int) (maxRelays : Int) (numChains : Nat)
    (sessionNodeCount : Int) : Int :=
  Float64.toInt64 platform
    (Float64.div
      (Float64.ceil (Float64.div (Float64.ofInt maxRelays) (Float64.ofInt (numChains : Int))))
      (Float64.ofInt sessionNodeCount))

/-- `Relay.Validate`: checks the validity of a relay request using store data. -/
def Relay.Validate {Cache : Type} (env : Env Cache) (cache : Cache) (r : Relay) (ctx : Ctx)
    (keeper : PosKeeper) (node : Validator) (hb : HostedBlockchains)
    (sessionBlockHeight : Int) (sessionNodeCount : Int) (app : Application) :
    ValidateResult Cache :=
  -- validate payload
  if r.Payload.Validate ≠ none then ⟨some Error.EmptyPayloadData, r, cache⟩
  else
  -- validate the metadata
  match r.Meta.Validate ctx env.globalClientBlockAllowance with
  | some err => ⟨some err, r, cache⟩
  | none =>
  -- validate the relay hash = request hash
  if r.Proof.RequestHash ≠ r.RequestHashString then ⟨some Error.RequestHash, r, cache⟩
  else
  -- ensure the blockchain is supported locally
  if !hb.Contains r.Proof.Blockchain then ⟨some Error.UnsupportedBlockchainNode, r, cache⟩
  else
  let evidenceHeader : SessionHeader :=
    { ApplicationPubKey := r.Proof.Token.ApplicationPublicKey
      Chain := r.Proof.Blockchain
      SessionBlockHeight := r.Proof.SessionBlockHeight }
  -- validate unique relay
  let totalRelays := GetTotalProofs env.proofs evidenceHeader
  if !IsUniqueProof env.proofs evidenceHeader r.Proof then
    ⟨some Error.DuplicateProof, r, cache⟩
  else
  -- validate not over service
  if totalRelays ≥ overServiceBound env.platformInt64 app.MaxRelays app.Chains.length
      sessionNodeCount then
    ⟨some Error.OverService, r, cache⟩
  else
  -- validate the proof
  match env.ValidateLocal r.Proof app.Chains sessionNodeCount sessionBlockHeight
      node.PublicKey with
  | some err => ⟨some err, r, cache⟩
  | none =>
  -- get the session context
  match env.PrevCtx ctx sessionBlockHeight with
  | Except.error er => ⟨some (Error.Internal er), r, cache⟩
  | Except.ok sessionContext =>
  -- generate the header
  let header : SessionHeader :=
    { ApplicationPubKey := app.PublicKey
      Chain := r.Proof.Blockchain
      SessionBlockHeight := sessionBlockHeight }
  -- validate the session; if the payload method is empty, set it to the default
  let validateSession : Session → Cache → ValidateResult Cache := fun session cache2 =>
    match env.SessionValidate session node app sessionNodeCount with
    | some err => ⟨some err, r, cache2⟩
    | none =>
      if r.Payload.Method = "" then
        ⟨none, { r with Payload := { r.Payload with Method := DEFAULTHTTPMETHOD } }, cache2⟩
      else ⟨none, r, cache2⟩
  -- check cache
  match env.GetSession cache header with
  | (some session, cache1) => validateSession session cache1
  | (none, cache1) =>
    -- if not found generate the session
    match env.NewSession sessionContext ctx keeper header (env.BlockHash sessionContext)
        sessionNodeCount with
    | Except.error err => ⟨some err, r, cache1⟩
    | Except.ok session =>
      -- add to cache
      validateSession session (env.SetSession cache1 session)

/-! ## Relay responses -/

/-- The size in bytes of an Ed25519 signature (`crypto.Ed25519SignatureSize`). -/
def Ed25519SignatureSize : Nat := 64

/-- The `RelayResponse` struct. -/
structure RelayResponse where
  Signature : String
  Response : String
  Proof : RelayProof
  deriving DecidableEq, Repr

/-- `RelayResponse.Validate`: the node validates the response after signing. The
length `len(rr.Signature)` is the number of bytes of the string. -/
def RelayResponse.Validate (rr : RelayResponse) : Option Error :=
  -- cannot contain empty response
  if rr.Response = "" then some Error.EmptyResponse
  -- cannot contain empty signature
  else if rr.Signature = "" ∨ (utf8Bytes rr.Signature).length = Ed25519SignatureSize then
    some Error.ResponseSignature
  else none

/-- The private `relayResponse` struct marshalled by `RelayResponse.Hash`, with its
JSON keys `signature`, `payload` and `Proof`. -/
structure relayResponse where
  Signature : String
  Response : String
  Proof : String
  deriving DecidableEq, Repr

/-- JSON encoding of a `relayResponse`. -/
def relayResponse.MarshalJSON (x : relayResponse) : String :=
  "\x7b\"signature\":" ++ jsonString x.Signature ++ ",\"payload\":" ++ jsonString x.Response
    ++ ",\"Proof\":" ++ jsonString x.Proof ++ "\x7d"

/-- `RelayResponse.Hash`: the hash of the JSON encoding of the response with an empty
signature and the proof replaced by its hash string. `Hash` (the package's hash
function) and `proofHashString` (`RelayProof.HashString`) are defined in files that are not
available and are taken as parameters. -/
def RelayResponse.Hash (Hash : List Nat → List Nat) (proofHashString : RelayProof → String)
    (rr : RelayResponse) : List Nat :=
  Hash (utf8Bytes (relayResponse.MarshalJSON
    { Signature := "", Response := rr.Response, Proof := proofHashString rr.Proof }))

/-- `RelayResponse.HashString`: the hex string of the hash. -/
def RelayResponse.HashString (Hash : List Nat → List Nat)
    (proofHashString : RelayProof → String) (rr : RelayResponse) : String :=
  hexEncode (rr.Hash Hash proofHashString)

/-- The later checks of `Relay.Validate` (proof validation, session derivation and
session validation, all defined outside `service.go`) never answer with the error `e`. -/
def Env.laterChecksNeverAnswer {Cache : Type} (env : Env Cache) (e : Error) : Prop :=
  (∀ p chains n h k, env.ValidateLocal p chains n h k ≠ some e)
  ∧ (∀ c1 c2 k h b n, env.NewSession c1 c2 k h b n ≠ Except.error e)
  ∧ (∀ s v a n, env.SessionValidate s v a n ≠ some e)

/-! ## The scenario of the package tests -/

namespace Scenario

/-- The chain identifier `hex.EncodeToString([]byte{01})`. -/
def ethereum : String := "01"

/-- The chain identifier `hex.EncodeToString([]byte{02})`. -/
def bitcoin : String := "02"

/-- The payload of `TestRelay_Validate`. -/
def payload : Payload :=
  { Data := "\x7b\"jsonrpc\":\"2.0\",\"method\":\"web3_clientVersion\",\"params\":[],\"id\":67\x7d"
    Method := ""
    Path := ""
    Headers := none }

/-- The token of the test relay, with fixed strings in place of the random keys. -/
def token : AAT :=
  { Version := "0.0.1"
    ApplicationPublicKey := "a1"
    ClientPublicKey := "c1"
    ApplicationSignature := "" }

/-- The test relay before its request hash is set, with the given entropy. -/
def unhashedRelay (entropy : Int) : Relay :=
  { Payload := payload
    Meta := { BlockHeight := 1 }
    Proof :=
      { RequestHash := ""
        Entropy := entropy
        SessionBlockHeight := 1
        ServicerPubKey := "b1"
        Blockchain := ethereum
        Token := token
        Signature := "" } }

/-- The valid relay of the test: `Proof.RequestHash` is set to `RequestHashString()`. -/
def relay (entropy : Int) : Relay :=
  { unhashedRelay entropy with
    Proof :=
      { (unhashedRelay entropy).Proof with
        RequestHash := (unhashedRelay entropy).RequestHashString } }

/-- The relay of the test case "payload empty". -/
def emptyPayloadRelay : Relay :=
  { relay 1 with Payload := { payload with Data := "" } }

/-- The serving node of the test. -/
def selfNode : Validator :=
  { Address := "b1", PublicKey := "b1", Jailed := false, Staked := true,
    Chains := [ethereum, bitcoin], ServiceURL := "https://www.google.com:443" }

/-- Another staked validator serving both chains. -/
def otherNode (name : String) : Validator :=
  { Address := name, PublicKey := name, Jailed := false, Staked := true,
    Chains := [ethereum, bitcoin], ServiceURL := "https://www.google.com:443" }

/-- The keeper of the test: four other validators and the serving node. -/
def keeper : PosKeeper :=
  { Validators := [otherNode "b2", otherNode "b3", otherNode "b4", otherNode "b5", selfNode] }

/-- The hosted chains of the test: the node hosts `ethereum`. -/
def hb : HostedBlockchains :=
  { M := [(ethereum, { ID := ethereum, URL := "https://www.google.com:443" })] }

/-- The hosted chains of the test case "unsupported blockchain". -/
def hbNotSupported : HostedBlockchains :=
  { M := [(bitcoin, { ID := bitcoin, URL := "https://www.google.com:443" })] }

/-- The application of the test, staked for `ethereum`, with the given relay allowance. -/
def app (maxRelays : Int) : Application :=
  { Address := "a1", PublicKey := "a1", Jailed := false, Staked := true,
    Chains := [ethereum], MaxRelays := maxRelays }

/-- The evidence header of the test relays. -/
def header : SessionHeader :=
  { ApplicationPubKey := "a1", Chain := ethereum, SessionBlockHeight := 1 }

/-- A proof store holding, under the header of the test relays, the proofs of the test
relays with the given entropies. -/
def store (entropies : List Int) : ProofStore :=
  { evidence := fun h => if h = header then entropies.map fun e => (relay e).Proof else []
    uniq := fun h => if h = header then entropies.map fun e => (relay e).Proof.uniqKey else [] }

/-- The current context of the test: block height 1. -/
def ctx : Ctx := { BlockHeight := 1 }

/-- Collaborators for the scenario, over a session cache kept as a list: allowance 5,
the conversion of the amd64 platform, a proof validator and a session validator that
accept, a previous context that is always available, and a session deriver that takes the
first validators of the keeper and fails when there are too few. -/
def env (proofs : ProofStore) : Env (List Session) :=
  { globalClientBlockAllowance := 5
    platformInt64 := fun _ => -(2 ^ 63)
    proofs := proofs
    ValidateLocal := fun _ _ _ _ _ => none
    PrevCtx := fun _ h => Except.ok { BlockHeight := h }
    GetSession := fun c h => (c.find? fun s => s.SessionHeader = h, c)
    NewSession := fun _ _ k h b n =>
      if (k.Validators.length : Int) < n then Except.error (Error.other "InsufficientNodes")
      else Except.ok { SessionHeader := h, SessionKey := b, SessionNodes := k.Validators.take n.toNat }
    BlockHash := fun _ => "00"
    SetSession := fun c s => s :: c
    SessionValidate := fun _ _ _ _ => none }

/-- A relay response signed with a two-character signature. -/
def shortSignatureResponse : RelayResponse :=
  { Signature := "ab", Response := "foo", Proof := (relay 1).Proof }

end Scenario

/-! ## JSON texts as `encoding/json` decodes and encodes them -/

/-- The conversions between number literals and `float64` values that `encoding/json`
delegates to `strconv`: `parse` is `strconv.ParseFloat(literal, 64)` (`none` for a range
error) and `format` is the text the encoder writes for a float. `F` stands for the
`float64` values. -/
structure NumberCodec (F : Type) where
  parse : List Char → Option F
  format : F → List Char

/-- The values `json.Unmarshal` stores in an `interface{}`: nil, `bool`, `float64`,
`string`, `[]interface{}` and `map[string]interface{}`. A map is an association list
with distinct keys; its order is immaterial. -/
inductive JSONValue (F : Type) where
  | null
  | bool (b : Bool)
  | number (f : F)
  | string (s : String)
  | array (l : List (JSONValue F))
  | object (l : List (String × JSONValue F))

/-- The quotation mark. -/
def quoteChar : Char := Char.ofNat 34

/-- The backslash. -/
def backslashChar : Char := Char.ofNat 92

/-- The opening brace. -/
def lbraceChar : Char := Char.ofNat 123

/-- The closing brace. -/
def rbraceChar : Char := Char.ofNat 125

/-- The white space of JSON: space, tab, carriage return and line feed. -/
def isSpace (c : Char) : Bool :=
  c = Char.ofNat 32 || c = Char.ofNat 9 || c = Char.ofNat 13 || c = Char.ofNat 10

/-- Skips leading white space. -/
def skipSpace (cs : List Char) : List Char := cs.dropWhile isSpace

/-- A decimal digit. -/
def isDigit (c : Char) : Bool := decide (48 ≤ c.toNat) && decide (c.toNat ≤ 57)

/-- The longest prefix of digits, and what follows it. -/
def takeDigits (cs : List Char) : List Char × List Char := cs.span isDigit

/-- The integer part of a number literal: `0`, or a non-zero digit followed by
digits. -/
def lexInt : List Char → Option (List Char × List Char)
  | [] => none
  | c :: t =>
    if c = '0' then some ([c], t)
    else if isDigit c then some (c :: (takeDigits t).1, (takeDigits t).2)
    else none

/-- The optional fraction of a number literal: a point followed by at least one digit. -/
def lexFrac : List Char → Option (List Char × List Char)
  | [] => some ([], [])
  | c :: t =>
    if c = '.' then
      if (takeDigits t).1 = [] then none else some (c :: (takeDigits t).1, (takeDigits t).2)
    else some ([], c :: t)

/-- The digits of an exponent, after its optional sign: at least one digit. -/
def lexExpDigits (cs : List Char) : Option (List Char × List Char) :=
  if (takeDigits cs).1 = [] then none else some ((takeDigits cs).1, (takeDigits cs).2)

/-- The optional exponent of a number literal: `e` or `E`, an optional sign and at
least one digit. -/
def lexExp : List Char → Option (List Char × List Char)
  | [] => some ([], [])
  | c :: t =>
    if c = 'e' ∨ c = 'E' then
      match t with
      | [] => none
      | s :: t2 =>
        if s = '+' ∨ s = '-' then
          match lexExpDigits t2 with
          | some (ds, r) => some (c :: s :: ds, r)
          | none => none
        else
          match lexExpDigits (s :: t2) with
          | some (ds, r) => some (c :: ds, r)
          | none => none
    else some ([], c :: t)

/-- A number literal without sign, and what follows it. -/
def lexUnsigned (cs : List Char) : Option (List Char × List Char) :=
  match lexInt cs with
  | none => none
  | some (i, r1) =>
    match lexFrac r1 with
    | none => none
    | some (f, r2) =>
      match lexExp r2 with
      | none => none
      | some (e, r3) => some (i ++ f ++ e, r3)

/-- The number literal at the head of a text, by the grammar of the JSON scanner, and
what follows it. -/
def lexNumber : List Char → Option (List Char × List Char)
  | [] => none
  | c :: t =>
    if c = '-' then
      match lexUnsigned t with
      | some (l, r) => some (c :: l, r)
      | none => none
    else lexUnsigned (c :: t)

/-- The value of four hexadecimal digits (`getu4`). -/
def hex4 (a b c d : Char) : Option Nat :=
  match hexVal a, hexVal b, hexVal c, hexVal d with
  | some x, some y, some z, some w => some (((x * 16 + y) * 16 + z) * 16 + w)
  | _, _, _, _ => none

/-- The replacement character U+FFFD. -/
def replacementChar : Char := Char.ofNat 0xFFFD

/-- Whether a code unit is a UTF-16 surrogate (`utf16.IsSurrogate`). -/
def isSurrogate (r : Nat) : Bool := decide (0xD800 ≤ r) && decide (r < 0xE000)

/-- The character of a surrogate pair, when the pair is valid (`utf16.DecodeRune`). -/
def decodeSurrogates (r1 r2 : Nat) : Option Char :=
  if 0xD800 ≤ r1 ∧ r1 < 0xDC00 ∧ 0xDC00 ≤ r2 ∧ r2 < 0xE000 then
    some (Char.ofNat ((r1 - 0xD800) * 1024 + (r2 - 0xDC00) + 0x10000))
  else none

/-- The second half of a surrogate pair at the head of a text: the decoded character
and what follows the escape, when the text starts with a `\u` escape completing `r1`. -/
def lexLowSurrogate (r1 : Nat) : List Char → Option (Char × List Char)
  | b :: u :: x1 :: x2 :: x3 :: x4 :: rest =>
    if b = backslashChar ∧ u = 'u' then
      match hex4 x1 x2 x3 x4 with
      | some r2 =>
        match decodeSurrogates r1 r2 with
        | some c => some (c, rest)
        | none => none
      | none => none
    else none
  | _ => none

/-- The character of a one-letter escape of a JSON string. -/
def simpleEscape (c : Char) : Option Char :=
  if c = quoteChar then some quoteChar
  else if c = backslashChar then some backslashChar
  else if c = '/' then some '/'
  else if c = 'b' then some (Char.ofNat 8)
  else if c = 'f' then some (Char.ofNat 12)
  else if c = 'n' then some (Char.ofNat 10)
  else if c = 'r' then some (Char.ofNat 13)
  else if c = 't' then some (Char.ofNat 9)
  else none

/-- The character of a `\u` escape whose four digits are at the head of the text, and
what follows the escape: a surrogate followed by the escape of its second half gives the
character of the pair, and a surrogate alone gives U+FFFD. -/
def decodeUnicode : List Char → Option (Char × List Char)
  | x1 :: x2 :: x3 :: x4 :: rest =>
    match hex4 x1 x2 x3 x4 with
    | none => none
    | some r =>
      if isSurrogate r then
        match lexLowSurrogate r rest with
        | some (ch, rest2) => some (ch, rest2)
        | none => some (replacementChar, rest)
      else some (Char.ofNat r, rest)
  | _ => none

/-- The character of the escape that follows a backslash, and what follows the
escape. -/
def decodeEscape : List Char → Option (Char × List Char)
  | [] => none
  | e :: rest =>
    if e = 'u' then decodeUnicode rest
    else
      match simpleEscape e with
      | some ch => some (ch, rest)
      | none => none

/-- The contents of a JSON string whose opening quote has been read, unquoted as the
decoder does, and what follows the closing quote. Control characters must be escaped. The
first argument bounds the number of characters of the string; the length of the text is
enough. -/
def decodeString : Nat → List Char → Option (List Char × List Char)
  | 0, _ => none
  | _ + 1, [] => none
  | fuel + 1, c :: cs =>
    if c = quoteChar then some ([], cs)
    else if c = backslashChar then
      (decodeEscape cs).bind fun e =>
        (decodeString fuel e.2).map fun p => (e.1 :: p.1, p.2)
    else if c.toNat < 32 then none
    else (decodeString fuel cs).map fun p => (c :: p.1, p.2)

/-- What follows a literal name at the head of a text. -/
def dropLiteral : List Char → List Char → Option (List Char)
  | [], cs => some cs
  | _ :: _, [] => none
  | a :: l, c :: cs => if a = c then dropLiteral l cs else none

mutual
/-- The JSON value at the head of a text and what follows it: strings unquoted, numbers
read by the codec, the members of an object in the order of the text. The first argument
bounds the number of nested calls. -/
def parseValue {F : Type} (codec : NumberCodec F) :
    Nat → List Char → Option (JSONValue F × List Char)
  | 0, _ => none
  | fuel + 1, cs =>
    match skipSpace cs with
    | [] => none
    | c :: rest =>
      if c = quoteChar then
        match decodeString rest.length rest with
        | some (s, r) => some (JSONValue.string (String.mk s), r)
        | none => none
      else if c = '[' then
        match skipSpace rest with
        | [] => none
        | c2 :: r2 =>
          if c2 = ']' then some (JSONValue.array [], r2)
          else
            match parseValue codec fuel (c2 :: r2) with
            | none => none
            | some (v, r3) =>
              match parseArrayTail codec fuel r3 with
              | none => none
              | some (l, r4) => some (JSONValue.array (v :: l), r4)
      else if c = lbraceChar then
        match skipSpace rest with
        | [] => none
        | c2 :: r2 =>
          if c2 = rbraceChar then some (JSONValue.object [], r2)
          else
            match parseMember codec fuel (c2 :: r2) with
            | none => none
            | some (m, r3) =>
              match parseObjectTail codec fuel r3 with
              | none => none
              | some (l, r4) => some (JSONValue.object (m :: l), r4)
      else if c = 't' then
        match dropLiteral ['r', 'u', 'e'] rest with
        | some r => some (JSONValue.bool true, r)
        | none => none
      else if c = 'f' then
        match dropLiteral ['a', 'l', 's', 'e'] rest with
        | some r => some (JSONValue.bool false, r)
        | none => none
      else if c = 'n' then
        match dropLiteral ['u', 'l', 'l'] rest with
        | some r => some (JSONValue.null, r)
        | none => none
      else
        match lexNumber (c :: rest) with
        | none => none
        | some (lit, r) =>
          match codec.parse lit with
          | some f => some (JSONValue.number f, r)
          | none => none
/-- The remaining elements of an array, after an element: a comma and an element,
repeatedly, up to the closing bracket. -/
def parseArrayTail {F : Type} (codec : NumberCodec F) :
    Nat → List Char → Option (List (JSONValue F) × List Char)
  | 0, _ => none
  | fuel + 1, cs =>
    match skipSpace cs with
    | [] => none
    | c :: rest =>
      if c = ',' then
        match parseValue codec fuel rest with
        | none => none
        | some (v, r1) =>
          match parseArrayTail codec fuel r1 with
          | none => none
          | some (l, r2) => some (v :: l, r2)
      else if c = ']' then some ([], rest)
      else none
/-- One member of an object: a string key, a colon and a value. -/
def parseMember {F : Type} (codec : NumberCodec F) :
    Nat → List Char → Option ((String × JSONValue F) × List Char)
  | 0, _ => none
  | fuel + 1, cs =>
    match skipSpace cs with
    | [] => none
    | c :: rest =>
      if c = quoteChar then
        match decodeString rest.length rest with
        | none => none
        | some (k, r1) =>
          match skipSpace r1 with
          | [] => none
          | c2 :: r2 =>
            if c2 = ':' then
              match parseValue codec fuel r2 with
              | none => none
              | some (v, r3) => some ((String.mk k, v), r3)
            else none
      else none
/-- The remaining members of an object, after a member: a comma and a member,
repeatedly, up to the closing brace. -/
def parseObjectTail {F : Type} (codec : NumberCodec F) :
    Nat → List Char → Option (List (String × JSONValue F) × List Char)
  | 0, _ => none
  | fuel + 1, cs =>
    match skipSpace cs with
    | [] => none
    | c :: rest =>
      if c = ',' then
        match parseMember codec fuel rest with
        | none => none
        | some (m, r1) =>
          match parseObjectTail codec fuel r1 with
          | none => none
          | some (l, r2) => some (m :: l, r2)
      else if c = rbraceChar then some ([], rest)
      else none
end

/-- A number kept as the text of its literal, as the decoder keeps it until the type
of the target is known (and as `json.Number` holds it): a text that the scanner reads as
one number literal. -/
def NumberLiteral : Type := { cs : List Char // lexNumber cs = some (cs, []) }

/-- The number codec that keeps every number as its literal. -/
def numberLiteralCodec : NumberCodec NumberLiteral where
  parse := fun cs => if h : lexNumber cs = some (cs, []) then some ⟨cs, h⟩ else none
  format := fun f => f.1

/-- A bound on the nested calls that decoding a text of the given length can need. -/
def parseFuel (n : Nat) : Nat := 2 * n + 2

/-- The one JSON value of a text, with optional white space around it; `none` when
the text is not valid JSON or holds a number that the codec rejects. -/
def parseJSON {F : Type} (codec : NumberCodec F) (text : List Char) : Option (JSONValue F) :=
  match parseValue codec (parseFuel text.length) text with
  | none => none
  | some (v, r) => if skipSpace r = [] then some v else none

/-- Go's map assignment applied to the members of an object in the order of the
text: a later member replaces an earlier one with the same key. -/
def lastWins {α : Type} : List (String × α) → List (String × α)
  | [] => []
  | e :: t => if t.any (fun x => x.1 = e.1) then lastWins t else e :: lastWins t

mutual
/-- The value as an `interface{}` holds it: every object is a Go map, in which a key
that the text repeats keeps its last value. -/
def JSONValue.toInterface {F : Type} : JSONValue F → JSONValue F
  | JSONValue.array l => JSONValue.array (JSONValue.toInterfaceList l)
  | JSONValue.object l => JSONValue.object (lastWins (JSONValue.toInterfaceMembers l))
  | v => v
/-- The elements of an array as `interface{}` values. -/
def JSONValue.toInterfaceList {F : Type} : List (JSONValue F) → List (JSONValue F)
  | [] => []
  | v :: t => JSONValue.toInterface v :: JSONValue.toInterfaceList t
/-- The members of an object, each value as an `interface{}` value. -/
def JSONValue.toInterfaceMembers {F : Type} :
    List (String × JSONValue F) → List (String × JSONValue F)
  | [] => []
  | (k, v) :: t => (k, JSONValue.toInterface v) :: JSONValue.toInterfaceMembers t
end

/-- The text decoded into an `interface{}`; `none` when the text is not valid JSON or
holds a number out of range. -/
def decodeInterface {F : Type} (codec : NumberCodec F) (text : List Char) :
    Option (JSONValue F) :=
  (parseJSON codec text).map JSONValue.toInterface

mutual
/-- The value with the members of every object in ascending key order, the order in
which `json.Marshal` writes a map. -/
def JSONValue.sortKeys {F : Type} : JSONValue F → JSONValue F
  | JSONValue.array l => JSONValue.array (JSONValue.sortKeysList l)
  | JSONValue.object l =>
    JSONValue.object ((JSONValue.sortKeysMembers l).insertionSort (fun a b => a.1 ≤ b.1))
  | v => v
/-- The elements of an array with the members of every object in ascending key order. -/
def JSONValue.sortKeysList {F : Type} : List (JSONValue F) → List (JSONValue F)
  | [] => []
  | v :: t => JSONValue.sortKeys v :: JSONValue.sortKeysList t
/-- The members of an object, each value with the members of every object in
ascending key order. -/
def JSONValue.sortKeysMembers {F : Type} :
    List (String × JSONValue F) → List (String × JSONValue F)
  | [] => []
  | (k, v) :: t => (k, JSONValue.sortKeys v) :: JSONValue.sortKeysMembers t
end

mutual
/-- The compact JSON text of a value, members in the order of the lists. -/
def JSONValue.print {F : Type} (codec : NumberCodec F) : JSONValue F → List Char
  | JSONValue.null => ['n', 'u', 'l', 'l']
  | JSONValue.bool true => ['t', 'r', 'u', 'e']
  | JSONValue.bool false => ['f', 'a', 'l', 's', 'e']
  | JSONValue.number f => codec.format f
  | JSONValue.string s => quoteChar :: (s.data.flatMap jsonEscapeChar ++ [quoteChar])
  | JSONValue.array [] => ['[', ']']
  | JSONValue.array (v :: t) =>
    '[' :: (JSONValue.print codec v ++ JSONValue.printArrayTail codec t)
  | JSONValue.object [] => [lbraceChar, rbraceChar]
  | JSONValue.object ((k, v) :: t) =>
    lbraceChar :: quoteChar :: (k.data.flatMap jsonEscapeChar ++ quoteChar :: ':' ::
      (JSONValue.print codec v ++ JSONValue.printObjectTail codec t))
/-- The text of the remaining elements of an array and its closing bracket. -/
def JSONValue.printArrayTail {F : Type} (codec : NumberCodec F) :
    List (JSONValue F) → List Char
  | [] => [']']
  | v :: t => ',' :: (JSONValue.print codec v ++ JSONValue.printArrayTail codec t)
/-- The text of the remaining members of an object and its closing brace. -/
def JSONValue.printObjectTail {F : Type} (codec : NumberCodec F) :
    List (String × JSONValue F) → List Char
  | [] => [rbraceChar]
  | (k, v) :: t =>
    ',' :: quoteChar :: (k.data.flatMap jsonEscapeChar ++ quoteChar :: ':' ::
      (JSONValue.print codec v ++ JSONValue.printObjectTail codec t))
end

/-- `json.Marshal` of a decoded value: compact text, the keys of every map in
ascending order. -/
def JSONValue.Marshal {F : Type} (codec : NumberCodec F) (v : JSONValue F) : List Char :=
  JSONValue.print codec v.sortKeys

/-- `json.Unmarshal` of a text into a `map[string]interface{}` variable that is nil:
`none` when an error is returned (invalid JSON, a number out of range, or a value that is
not an object), `some none` when the map stays nil (the text is `null`), and the decoded
members otherwise. -/
def unmarshalMap {F : Type} (codec : NumberCodec F) (text : String) :
    Option (Option (List (String × JSONValue F))) :=
  match decodeInterface codec text.data with
  | some (JSONValue.object l) => some (some l)
  | some JSONValue.null => some none
  | _ => none

/-- `sortJSONResponse`: sorts json from a relay response. The response is returned
as it is when it cannot be unmarshalled into a map; `json.Marshal` of what was unmarshalled
cannot fail. -/
def sortJSONResponse {F : Type} (codec : NumberCodec F) (response : String) : String :=
  match unmarshalMap codec response with
  | none => response
  | some none => "null"
  | some (some l) => String.mk (JSONValue.Marshal codec (JSONValue.object l))

/-! ## Upstream execution -/

/-- `strings.Trim(s, "/")`: the string without its leading and trailing slashes. -/
def trimSlashes (s : String) : String :=
  String.mk ((s.data.dropWhile (fun c => c = '/')).rdropWhile (fun c => c = '/'))

/-- The string without its trailing slashes, the `strip_trailing_slash` of the
specification. -/
def stripTrailingSlash (s : String) : String :=
  String.mk (s.data.rdropWhile (fun c => c = '/'))

/-- The string without its leading slashes, the `strip_leading_slash` of the
specification. -/
def stripLeadingSlash (s : String) : String :=
  String.mk (s.data.dropWhile (fun c => c = '/'))

/-- The URL of the specification for a hosted-chain URL `u` and a payload path `p`:
`strip_trailing_slash(u) + "/" + strip_leading_slash(p)`. -/
def specURL (u p : String) : String := stripTrailingSlash u ++ "/" ++ stripLeadingSlash p

/-- The values of Go's `error` interface that `executeHTTPRequest` returns: an error
of `net/http` (building the request, or the transport), or an `sdk.Error`. -/
inductive GoError where
  | std (msg : String)
  | sdk (e : Error)
  deriving DecidableEq, Repr

/-- `validHeaderFieldByte` of `net/textproto`: the characters of a token of RFC 7230,
that is the digits, the letters and the marks
``! # $ % & ' * + - . ^ _ ` | ~``. -/
def validHeaderFieldByte (c : Char) : Bool :=
  let n := c.toNat
  (48 ≤ n ∧ n ≤ 57) ∨ (65 ≤ n ∧ n ≤ 90) ∨ (97 ≤ n ∧ n ≤ 122)
    ∨ n ∈ [33, 35, 36, 37, 38, 39, 42, 43, 45, 46, 94, 95, 96, 124, 126]

/-- The rewriting loop of `canonicalMIMEHeaderKey` of `net/textproto`: a letter is made
upper case at the start and after a dash, and lower case elsewhere; `upper` tells whether
the character before was a dash (or there was none). -/
def canonicalMIMEHeaderKey : Bool → List Char → List Char
  | _, [] => []
  | upper, c :: rest =>
    let c2 :=
      if upper = true ∧ 97 ≤ c.toNat ∧ c.toNat ≤ 122 then Char.ofNat (c.toNat - 32)
      else if upper = false ∧ 65 ≤ c.toNat ∧ c.toNat ≤ 90 then Char.ofNat (c.toNat + 32)
      else c
    c2 :: canonicalMIMEHeaderKey (c2 = '-') rest

/-- `textproto.CanonicalMIMEHeaderKey`: the canonical form of a header key, the key
itself when it holds a character that is not valid in a header field name. -/
def CanonicalMIMEHeaderKey (s : String) : String :=
  if s.data.all validHeaderFieldByte then String.mk (canonicalMIMEHeaderKey true s.data)
  else s

/-- The type `http.Header`, a `map[string][]string`, as the list of its entries; no key
is listed twice. -/
abbrev Header : Type := List (String × List String)

/-- `Header.Set(key, value)`: the assignment
`h[CanonicalMIMEHeaderKey(key)] = []string{value}`, which replaces the values that the
canonical key had. -/
def Header.Set (h : Header) (key value : String) : Header :=
  h.filter (fun e => e.1 ≠ CanonicalMIMEHeaderKey key) ++ [(CanonicalMIMEHeaderKey key, [value])]

/-- The request handed to the HTTP client: the method (`GET` when none is given), the
URL, the body, and the header map after the calls `req.Header.Set(k, v)`. -/
structure HTTPRequest where
  Method : String
  URL : String
  Body : String
  Header : Header
  deriving DecidableEq, Repr

/-- The response of the upstream: its status code and the body that `ioutil.ReadAll`
returns. -/
structure HTTPResponse where
  StatusCode : Int
  Body : String
  deriving DecidableEq, Repr

/-- The collaborators of `Relay.Execute` and `executeHTTPRequest` outside
`service.go`: the error of `http.NewRequest` for a method and a URL (`none` when the request
is built), the HTTP client, the package variable set by `InitJSONSorting`, the number
conversions of the JSON codec, `HostedBlockchains.GetChainURL`, and the text `Error()` of
an `sdk.Error`. -/
structure ExecEnv (F : Type) where
  NewRequestError : String → String → Option String
  Do : HTTPRequest → Except String HTTPResponse
  globalSortJSONResponses : Bool
  codec : NumberCodec F
  GetChainURL : HostedBlockchains → String → Except Error String
  sdkErrorText : Error → String

/-- The outcome of `executeHTTPRequest`: the returned string and error, and the
request that was handed to the HTTP client, if one was. -/
structure HTTPOutcome where
  res : String
  err : Option GoError
  sent : Option HTTPRequest
  deriving DecidableEq, Repr

/-- `executeHTTPRequest`: takes in the raw json string and forwards it to the RPC
endpoint. The header map is given by its entries in the order the `range` loop visits
them. -/
def executeHTTPRequest {F : Type} (env : ExecEnv F) (payload url method : String)
    (headers : Option (List (String × String))) : HTTPOutcome :=
  -- generate an http request
  match env.NewRequestError method url with
  | some err => ⟨"", some (GoError.std err), none⟩
  | none =>
    -- add headers if needed
    let req : HTTPRequest :=
      { Method := if method = "" then "GET" else method
        URL := url
        Body := payload
        Header :=
          if (headers.getD []).length = 0 then
            Header.Set [] "Content-Type" "application/json"
          else (headers.getD []).foldl (fun h e => Header.Set h e.1 e.2) [] }
    -- execute the request
    match env.Do req with
    | Except.error err => ⟨"", some (GoError.std err), some req⟩
    | Except.ok resp =>
      -- ensure code is 200
      if resp.StatusCode ≠ 200 then
        ⟨"", some (GoError.sdk (Error.HTTPStatusCode resp.StatusCode)), some req⟩
      else
        -- read all bz
        if env.globalSortJSONResponses then
          ⟨sortJSONResponse env.codec resp.Body, none, some req⟩
        else ⟨resp.Body, none, some req⟩

/-- The text `er.Error()` of an error returned by `executeHTTPRequest`. -/
def GoError.text {F : Type} (env : ExecEnv F) : GoError → String
  | GoError.std msg => msg
  | GoError.sdk e => env.sdkErrorText e

/-- The outcome of `Relay.Execute`: the returned string and error, and the request
that was handed to the HTTP client, if one was. -/
structure ExecuteOutcome where
  res : String
  err : Option Error
  sent : Option HTTPRequest
  deriving DecidableEq, Repr

/-- `Relay.Execute`: attempts to do a request on the non-native blockchain specified.
`NewHTTPExecutionError(ModuleName, er)` is the error `HTTPExecution` carrying the text of
`er`. -/
def Relay.Execute {F : Type} (env : ExecEnv F) (r : Relay)
    (hostedBlockchains : HostedBlockchains) : ExecuteOutcome :=
  -- retrieve the hosted blockchain url requested
  match env.GetChainURL hostedBlockchains r.Proof.Blockchain with
  | Except.error err => ⟨"", some err, none⟩
  | Except.ok url =>
    let url := trimSlashes url ++ "/" ++ trimSlashes r.Payload.Path
    -- do basic http request on the relay
    let out := executeHTTPRequest env r.Payload.Data url r.Payload.Method r.Payload.Headers
    match out.err with
    | some er => ⟨out.res, some (Error.HTTPExecution (er.text env)), out.sent⟩
    | none => ⟨out.res, none, out.sent⟩

namespace Scenario

/-- Modelled from the spec: the registry lookup `GetChainURL` used in the scenario:
the URL of the chain in the map, and `UnsupportedBlockchain` when the chain is not hosted. -/
def getChainURL (hb : HostedBlockchains) (id : String) : Except Error String :=
  match hb.M.find? (fun e => e.1 = id) with
  | some e => Except.ok e.2.URL
  | none => Except.error Error.UnsupportedBlockchainNode

/-- Collaborators for the execution scenario: every request can be built, the upstream
answers every request with the given status code and body, and responses are not sorted. -/
def execEnv (status : Int) (body : String) : ExecEnv NumberLiteral :=
  { NewRequestError := fun _ _ => none
    Do := fun _ => Except.ok { StatusCode := status, Body := body }
    globalSortJSONResponses := false
    codec := numberLiteralCodec
    GetChainURL := getChainURL
    sdkErrorText := fun _ => "error" }

/-- The hosted chains of `TestRelay_Execute`. -/
def hbExecute : HostedBlockchains :=
  { M := [(ethereum, { ID := ethereum, URL := "https://server.com/relay/" })] }

/-- The relay of `TestRelay_Execute`, with the given payload path. -/
def executeRelay (path : String) : Relay :=
  { relay 1 with
    Payload := { Data := "foo", Method := "POST", Path := path, Headers := none } }

end Scenario

/-- What can follow a value in the compact text of the encoder: nothing, a comma, a
closing bracket or a closing brace. -/
def Boundary (rest : List Char) : Prop :=
  rest = [] ∨ ∃ c t, rest = c :: t ∧ (c = ',' ∨ c = ']' ∨ c = rbraceChar)

/-- The property of `strconv` that the JSON codec relies on: the text written for a
float is a number literal of JSON that ends where the text ends, and parsing it gives the
float back. -/
def NumberCodec.Lawful {F : Type} (codec : NumberCodec F) : Prop :=
  ∀ f rest, Boundary rest →
    lexNumber (codec.format f ++ rest) = some (codec.format f, rest)
    ∧ codec.parse (codec.format f) = some f

mutual
/-- Every object of the value has distinct keys, as every Go map has. -/
def JSONValue.KeysDistinct {F : Type} : JSONValue F → Prop
  | JSONValue.array l => JSONValue.KeysDistinctList l
  | JSONValue.object l => (l.map Prod.fst).Nodup ∧ JSONValue.KeysDistinctMembers l
  | _ => True
/-- Every object of the elements has distinct keys. -/
def JSONValue.KeysDistinctList {F : Type} : List (JSONValue F) → Prop
  | [] => True
  | v :: t => JSONValue.KeysDistinct v ∧ JSONValue.KeysDistinctList t
/-- Every object of the values of the members has distinct keys. -/
def JSONValue.KeysDistinctMembers {F : Type} : List (String × JSONValue F) → Prop
  | [] => True
  | (_, v) :: t => JSONValue.KeysDistinct v ∧ JSONValue.KeysDistinctMembers t
end

/-- The relation of the specification between two decoded values: the same value, with
the members of its objects listed in a different order, at any nesting level. -/
inductive JSONValue.Reordered {F : Type} : JSONValue F → JSONValue F → Prop
  | refl (v : JSONValue F) : JSONValue.Reordered v v
  | array_cons {v w : JSONValue F} {l m : List (JSONValue F)} :
    JSONValue.Reordered v w →
    JSONValue.Reordered (JSONValue.array l) (JSONValue.array m) →
    JSONValue.Reordered (JSONValue.array (v :: l)) (JSONValue.array (w :: m))
  | object_cons {k : String} {v w : JSONValue F} {l m : List (String × JSONValue F)} :
    JSONValue.Reordered v w →
    JSONValue.Reordered (JSONValue.object l) (JSONValue.object m) →
    JSONValue.Reordered (JSONValue.object ((k, v) :: l)) (JSONValue.object ((k, w) :: m))
  | object_perm {l m : List (String × JSONValue F)} :
    l.Perm m → JSONValue.Reordered (JSONValue.object l) (JSONValue.object m)
  | trans {u v w : JSONValue F} :
    JSONValue.Reordered u v → JSONValue.Reordered v w → JSONValue.Reordered u w

mutual
/-- The members of every object of the value are listed in ascending order of their
keys, no key twice. -/
def JSONValue.KeysAscending {F : Type} : JSONValue F → Prop
  | JSONValue.array l => JSONValue.KeysAscendingList l
  | JSONValue.object l =>
    l.Pairwise (fun a b => a.1 < b.1) ∧ JSONValue.KeysAscendingMembers l
  | _ => True
/-- The members of every object of the elements are listed in ascending order. -/
def JSONValue.KeysAscendingList {F : Type} : List (JSONValue F) → Prop
  | [] => True
  | v :: t => JSONValue.KeysAscending v ∧ JSONValue.KeysAscendingList t
/-- The members of every object of the values of the members are listed in ascending
order. -/
def JSONValue.KeysAscendingMembers {F : Type} : List (String × JSONValue F) → Prop
  | [] => True
  | (_, v) :: t => JSONValue.KeysAscending v ∧ JSONValue.KeysAscendingMembers t
end

/-! ## The JSON codec of a relay -/

/-- The number literal that `json.Marshal` writes for an `int64`: its decimal digits
(`jsonInt`). The second branch is never taken (`intLiteral_val`). -/
def intLiteral (n : Int) : NumberLiteral :=
  if h : lexNumber (jsonInt n).data = some ((jsonInt n).data, []) then ⟨(jsonInt n).data, h⟩
  else ⟨['0'], rfl⟩

/-- The value of a text of decimal digits. -/
def parseDigits (ds : List Char) : Nat :=
  ds.foldl (fun a c => 10 * a + (c.toNat - 48)) 0

/-- `strconv.ParseInt(s, 10, 64)`: an optional sign followed by decimal digits, at least
one, the value within `int64`; `none` stands for the syntax and the range error. -/
def ParseInt (s : List Char) : Option Int :=
  let ds := if s.head? = some '+' ∨ s.head? = some '-' then s.tail else s
  if ds = [] ∨ ds.all isDigit = false then none
  else if s.head? = some '-' then
    if parseDigits ds ≤ 2 ^ 63 then some (-(parseDigits ds : Int)) else none
  else
    if parseDigits ds < 2 ^ 63 then some (parseDigits ds : Int) else none

/-- The simple case folding under which the decoder matches an object key with the
name of a struct field: upper-case ASCII letters fold to lower case, the Kelvin sign to
`k` and the long s to `s`. -/
def foldKeyChar (c : Char) : Char :=
  if 65 ≤ c.toNat ∧ c.toNat ≤ 90 then Char.ofNat (c.toNat + 32)
  else if c.toNat = 0x212A then 'k'
  else if c.toNat = 0x17F then 's'
  else c

/-- The folded form of an object key. The JSON names of the fields of a relay are in
lower case and differ from each other, so that a key selects the field whose name is the
folded key, if there is one. -/
def foldKey (k : String) : String := String.mk (k.data.map foldKeyChar)

/-- Decoding of a JSON value into a `string` variable: a string is stored, `null`
leaves the variable as it is, any other value is a type error. -/
def decodeStringField (old : String) : JSONValue NumberLiteral → Option String
  | JSONValue.string s => some s
  | JSONValue.null => some old
  | _ => none

/-- Decoding of a JSON value into an `int64` variable: the literal of a number goes
through `strconv.ParseInt`, `null` leaves the variable as it is, any other value is a type
error. -/
def decodeInt64Field (old : Int) : JSONValue NumberLiteral → Option Int
  | JSONValue.number lit => ParseInt lit.1
  | JSONValue.null => some old
  | _ => none

/-- The map assignment `m[k] = v` on the entries of a map. -/
def mapAssign (m : List (String × String)) (k v : String) : List (String × String) :=
  m.filter (fun e => e.1 ≠ k) ++ [(k, v)]

/-- Decoding of the members of an object into a `map[string]string`, in the order of
the text: each value is decoded into a fresh string and assigned to its key. -/
def decodeMapMembers :
    List (String × String) → List (String × JSONValue NumberLiteral) →
      Option (List (String × String))
  | m, [] => some m
  | m, (k, v) :: t =>
    match decodeStringField "" v with
    | some s => decodeMapMembers (mapAssign m k s) t
    | none => none

/-- Decoding of a JSON value into a `map[string]string` variable: an object fills the
map, which is made when it is nil; `null` sets the nil map; any other value is a type
error. -/
def decodeStringMapField (old : Option (List (String × String))) :
    JSONValue NumberLiteral → Option (Option (List (String × String)))
  | JSONValue.object l => (decodeMapMembers (old.getD []) l).map some
  | JSONValue.null => some none
  | _ => none

/-- Decoding of one member of an object into a `Payload`: the member is stored in
the field that its key names, and skipped when there is no such field. -/
def Payload.decodeMember (p : Payload) (k : String) (v : JSONValue NumberLiteral) :
    Option Payload :=
  if foldKey k = "data" then (decodeStringField p.Data v).map fun s => { p with Data := s }
  else if foldKey k = "method" then
    (decodeStringField p.Method v).map fun s => { p with Method := s }
  else if foldKey k = "path" then
    (decodeStringField p.Path v).map fun s => { p with Path := s }
  else if foldKey k = "headers" then
    (decodeStringMapField p.Headers v).map fun h => { p with Headers := h }
  else some p

/-- Decoding of the members of an object into a `Payload`, in the order of the text. -/
def Payload.decodeMembers :
    Payload → List (String × JSONValue NumberLiteral) → Option Payload
  | p, [] => some p
  | p, (k, v) :: t =>
    match p.decodeMember k v with
    | some q => Payload.decodeMembers q t
    | none => none

/-- Decoding of a JSON value into a `Payload` variable (the type has no
`UnmarshalJSON`): an object fills the fields, `null` leaves the variable as it is, any
other value is a type error. -/
def Payload.decode (old : Payload) : JSONValue NumberLiteral → Option Payload
  | JSONValue.object l => Payload.decodeMembers old l
  | JSONValue.null => some old
  | _ => none

/-- Decoding of one member of an object into a `RelayMeta`. -/
def RelayMeta.decodeMember (m : RelayMeta) (k : String) (v : JSONValue NumberLiteral) :
    Option RelayMeta :=
  if foldKey k = "block_height" then
    (decodeInt64Field m.BlockHeight v).map fun n => { BlockHeight := n }
  else some m

/-- Decoding of the members of an object into a `RelayMeta`, in the order of the
text. -/
def RelayMeta.decodeMembers :
    RelayMeta → List (String × JSONValue NumberLiteral) → Option RelayMeta
  | m, [] => some m
  | m, (k, v) :: t =>
    match m.decodeMember k v with
    | some q => RelayMeta.decodeMembers q t
    | none => none

/-- Decoding of a JSON value into a `RelayMeta` variable. -/
def RelayMeta.decode (old : RelayMeta) : JSONValue NumberLiteral → Option RelayMeta
  | JSONValue.object l => RelayMeta.decodeMembers old l
  | JSONValue.null => some old
  | _ => none

/-- The JSON codec of `RelayProof`, whose declaration is not in `service.go`: the value
whose compact text `json.Marshal` writes for a proof, and the decoding of a JSON value into
a proof variable with the given content. -/
structure ProofCodec where
  encode : RelayProof → JSONValue NumberLiteral
  decode : RelayProof → JSONValue NumberLiteral → Option RelayProof

/-- `json.Marshal` of a `Relay`: the fields `payload`, `meta` and `proof` in the order
of the declaration, the payload written by `Payload.MarshalJSON`. -/
def Relay.Marshal (pc : ProofCodec) (r : Relay) : String :=
  "\x7b\"payload\":" ++ r.Payload.MarshalJSON ++ ",\"meta\":" ++ r.Meta.MarshalJSON
    ++ ",\"proof\":" ++ String.mk (JSONValue.print numberLiteralCodec (pc.encode r.Proof))
    ++ "\x7d"

/-- Decoding of one member of an object into a `Relay`. -/
def Relay.decodeMember (pc : ProofCodec) (r : Relay) (k : String)
    (v : JSONValue NumberLiteral) : Option Relay :=
  if foldKey k = "payload" then (Payload.decode r.Payload v).map fun p => { r with Payload := p }
  else if foldKey k = "meta" then (RelayMeta.decode r.Meta v).map fun m => { r with Meta := m }
  else if foldKey k = "proof" then (pc.decode r.Proof v).map fun p => { r with Proof := p }
  else some r

/-- Decoding of the members of an object into a `Relay`, in the order of the text. -/
def Relay.decodeMembers (pc : ProofCodec) :
    Relay → List (String × JSONValue NumberLiteral) → Option Relay
  | r, [] => some r
  | r, (k, v) :: t =>
    match Relay.decodeMember pc r k v with
    | some q => Relay.decodeMembers pc q t
    | none => none

/-- The zero value `Relay{}`. -/
def Relay.zero : Relay :=
  { Payload := { Data := "", Method := "", Path := "", Headers := none }
    Meta := { BlockHeight := 0 }
    Proof :=
      { RequestHash := "", Entropy := 0, SessionBlockHeight := 0, ServicerPubKey := "",
        Blockchain := "",
        Token :=
          { Version := "", ApplicationPublicKey := "", ClientPublicKey := "",
            ApplicationSignature := "" },
        Signature := "" } }

/-- `json.Unmarshal` of a text into a `Relay` variable holding `Relay{}`: `none` when
an error is returned (invalid JSON, or a value of the wrong type for a field), and the
relay after the call otherwise. -/
def Relay.Unmarshal (pc : ProofCodec) (text : String) : Option Relay :=
  match parseJSON numberLiteralCodec text.data with
  | some (JSONValue.object l) => Relay.decodeMembers pc Relay.zero l
  | some JSONValue.null => some Relay.zero
  | _ => none

/-- The value that `Payload.MarshalJSON` writes for a header map. -/
def headersValue : Option (List (String × String)) → JSONValue NumberLiteral
  | none => JSONValue.null
  | some l =>
    JSONValue.object ((l.insertionSort (fun a b => a.1 ≤ b.1)).map
      fun kv => (kv.1, JSONValue.string kv.2))

/-- The value whose compact text is `Payload.MarshalJSON`. -/
def Payload.toValue (p : Payload) : JSONValue NumberLiteral :=
  JSONValue.object [("data", JSONValue.string p.Data), ("method", JSONValue.string p.Method),
    ("path", JSONValue.string p.Path), ("headers", headersValue p.Headers)]

/-- The value whose compact text is `RelayMeta.MarshalJSON`. -/
def RelayMeta.toValue (m : RelayMeta) : JSONValue NumberLiteral :=
  JSONValue.object [("block_height", JSONValue.number (intLiteral m.BlockHeight))]

/-- The value whose compact text is `Relay.Marshal`. -/
def Relay.toValue (pc : ProofCodec) (r : Relay) : JSONValue NumberLiteral :=
  JSONValue.object [("payload", r.Payload.toValue), ("meta", r.Meta.toValue),
    ("proof", pc.encode r.Proof)]

namespace Scenario

/-- The relay of `TestRelay_Validate` with two headers, listed out of order. -/
def relayWithHeaders : Relay :=
  { relay 1 with
    Payload :=
      { payload with Headers := some [("Content-Type", "text/plain"), ("Accept", "*/*")] } }

end Scenario

/-! ## Relay validation with the proof store as state -/

/-- The two functions through which `Relay.Validate` reaches the proof store, over a
store of state type `S`, each returning the store after the call. -/
structure StoreAccess (S : Type) where
  GetTotalProofs : S → SessionHeader → Int × S
  IsUniqueProof : S → SessionHeader → RelayProof → Bool × S

/-- The access to the store of the specification: both functions are queries. -/
def ProofStore.access : StoreAccess ProofStore where
  GetTotalProofs := fun s h => (GetTotalProofs s h, s)
  IsUniqueProof := fun s h p => (IsUniqueProof s h p, s)

/-- `Relay.Validate` with the proof store passed as state: the function reaches the
store by one call of `GetTotalProofs` followed by one call of `IsUniqueProof`, and by no
other call; the result is the outcome of the call and the store after it. The collaborators
of `env` have no access to the store (the field `proofs` of `env` is not read). -/
def Relay.ValidateOnStore {Cache S : Type} (env : Env Cache) (acc : StoreAccess S) (s : S)
    (cache : Cache) (r : Relay) (ctx : Ctx) (keeper : PosKeeper) (node : Validator)
    (hb : HostedBlockchains) (sessionBlockHeight : Int) (sessionNodeCount : Int)
    (app : Application) : ValidateResult Cache × S :=
  -- validate payload
  if r.Payload.Validate ≠ none then (⟨some Error.EmptyPayloadData, r, cache⟩, s)
  else
  -- validate the metadata
  match r.Meta.Validate ctx env.globalClientBlockAllowance with
  | some err => (⟨some err, r, cache⟩, s)
  | none =>
  -- validate the relay hash = request hash
  if r.Proof.RequestHash ≠ r.RequestHashString then (⟨some Error.RequestHash, r, cache⟩, s)
  else
  -- ensure the blockchain is supported locally
  if !hb.Contains r.Proof.Blockchain then (⟨some Error.UnsupportedBlockchainNode, r, cache⟩, s)
  else
  let evidenceHeader : SessionHeader :=
    { ApplicationPubKey := r.Proof.Token.ApplicationPublicKey
      Chain := r.Proof.Blockchain
      SessionBlockHeight := r.Proof.SessionBlockHeight }
  -- validate unique relay
  let total := acc.GetTotalProofs s evidenceHeader
  let unique := acc.IsUniqueProof total.2 evidenceHeader r.Proof
  if !unique.1 then (⟨some Error.DuplicateProof, r, cache⟩, unique.2)
  else
  -- validate not over service
  if total.1 ≥ overServiceBound env.platformInt64 app.MaxRelays app.Chains.length
      sessionNodeCount then
    (⟨some Error.OverService, r, cache⟩, unique.2)
  else
  -- validate the proof
  match env.ValidateLocal r.Proof app.Chains sessionNodeCount sessionBlockHeight
      node.PublicKey with
  | some err => (⟨some err, r, cache⟩, unique.2)
  | none =>
  -- get the session context
  match env.PrevCtx ctx sessionBlockHeight with
  | Except.error er => (⟨some (Error.Internal er), r, cache⟩, unique.2)
  | Except.ok sessionContext =>
  -- generate the header
  let header : SessionHeader :=
    { ApplicationPubKey := app.PublicKey
      Chain := r.Proof.Blockchain
      SessionBlockHeight := sessionBlockHeight }
  -- validate the session; if the payload method is empty, set it to the default
  let validateSession : Session → Cache → ValidateResult Cache := fun session cache2 =>
    match env.SessionValidate session node app sessionNodeCount with
    | some err => ⟨some err, r, cache2⟩
    | none =>
      if r.Payload.Method = "" then
        ⟨none, { r with Payload := { r.Payload with Method := DEFAULTHTTPMETHOD } }, cache2⟩
      else ⟨none, r, cache2⟩
  -- check cache
  match env.GetSession cache header with
  | (some session, cache1) => (validateSession session cache1, unique.2)
  | (none, cache1) =>
    -- if not found generate the session
    match env.NewSession sessionContext ctx keeper header (env.BlockHash sessionContext)
        sessionNodeCount with
    | Except.error err => (⟨some err, r, cache1⟩, unique.2)
    | Except.ok session =>
      -- add to cache
      (validateSession session (env.SetSession cache1 session), unique.2)

/-- Modelled from the spec: the invariant of the proof store that ties its two maps:
under every header the uniqueness index holds the triples of the stored proofs. -/
def ProofStore.Consistent (s : ProofStore) : Prop :=
  ∀ h k, k ∈ s.uniq h ↔ k ∈ (s.evidence h).map RelayProof.uniqKey

namespace Scenario

/-- A staked validator that serves `bitcoin` only. -/
def bitcoinNode (name : String) : Validator :=
  { Address := name, PublicKey := name, Jailed := false, Staked := true,
    Chains := [bitcoin], ServiceURL := "https://www.google.com:443" }

/-- The keeper of the test case "not enough service nodes": four validators that
serve `bitcoin` only and the serving node. -/
def noEthereumKeeper : PosKeeper :=
  { Validators := [bitcoinNode "b2", bitcoinNode "b3", bitcoinNode "b4", bitcoinNode "b5",
      selfNode] }

/-- Modelled from the spec: the candidate pool of the session deriver (step 2): the
validators that are staked, not jailed, and serve the chain. -/
def candidatePool (k : PosKeeper) (chain : String) : List Validator :=
  k.Validators.filter fun v => v.Staked && !v.Jailed && v.Chains.contains chain

/-- Modelled from the spec: the session deriver as far as its failure goes (steps 2
and 3): it fails with `InsufficientNodes` when the candidate pool has fewer than `n`
validators, and otherwise returns `n` nodes of the pool. -/
def newSession (k : PosKeeper) (h : SessionHeader) (b : String) (n : Int) :
    Except Error Session :=
  if ((candidatePool k h.Chain).length : Int) < n then
    Except.error (Error.other "InsufficientNodes")
  else
    Except.ok
      { SessionHeader := h, SessionKey := b,
        SessionNodes := (candidatePool k h.Chain).take n.toNat }

/-- The collaborators of the scenario with the session deriver that looks at the
chains of the validators. -/
def envDeriving (proofs : ProofStore) : Env (List Session) :=
  { env proofs with NewSession := fun _ _ k h b n => newSession k h b n }

/-- The proof stored by `TestRelay_HandleProof`, with fixed strings in place of the
random keys. -/
def handledProof : RelayProof :=
  { RequestHash :=
      Relay.RequestHashString
        { Payload := { Data := "foo", Method := "POST", Path := "", Headers := none }
          Meta := { BlockHeight := 0 }
          Proof :=
            { RequestHash := "", Entropy := 1, SessionBlockHeight := 1, ServicerPubKey := "b1",
              Blockchain := ethereum, Token := token, Signature := "" } }
    Entropy := 1
    SessionBlockHeight := 1
    ServicerPubKey := "b1"
    Blockchain := ethereum
    Token := token
    Signature := "" }

/-- A relay response whose signature has 64 characters. -/
def longSignatureResponse : RelayResponse :=
  { Signature := String.mk (List.replicate 64 'a'), Response := "foo", Proof := (relay 1).Proof }

end Scenario

/-! ## The RPC handlers of `app/cmd/rpc/client.go` -/

/-- The part of an `http.Request` that the handlers read themselves: the path of the
URL and the host (the body is read by `PopModel`). -/
structure Request where
  Body : String
  URLPath : String
  Host : String
  deriving DecidableEq, Repr

/-- One response written by a handler: `WriteErrorResponse(w, code, msg)`,
`WriteJSONResponse(w, data, path, host)` or `WriteResponse(w, data, path, host)`. -/
inductive ResponseWrite where
  | error (code : Int) (msg : String)
  | json (data path host : String)
  | plain (data path host : String)
  deriving DecidableEq, Repr

/-- The functions called by a handler that decodes a model, queries the application
and marshals the result, all defined outside `client.go`: `cors`, `PopModel` into the model
of the handler (the populated model, or the text of its error), the query of the
application (`app.QueryDispatch`, `app.QueryRelay` or `app.QueryChallenge`), `json.Marshal`
of the result, and the text `err.Error()` of a query error. `PopModel` and the query are
taken not to write a response themselves. -/
structure QuerySteps (Model Res : Type) where
  cors : Request → Bool
  PopModel : Request → Except String Model
  Query : Model → Except Error Res
  Marshal : Res → Except String String
  errorText : Error → String

/-- The `sendRawTxParams` struct. -/
structure sendRawTxParams where
  Addr : String
  RawHexBytes : String
  deriving DecidableEq, Repr

/-- The functions called by the handler `SendRawTx`, defined outside `client.go`:
`cors`, `PopModel` into the parameters, the text of the error of `hex.DecodeString`,
`app.SendRawTx`, `app.Codec().MarshalJSON` and the text of a query error. -/
structure RawTxSteps (Res : Type) where
  cors : Request → Bool
  PopModel : Request → Except String sendRawTxParams
  hexErrorText : String → String
  SendRawTx : String → List Nat → Except Error Res
  MarshalJSON : Res → Except String String
  errorText : Error → String

namespace rpc

/-- The handler `Dispatch`: the responses it writes, in order. Nothing is written by
the handler when `cors` answers false. -/
def Dispatch {Res : Type} (env : QuerySteps SessionHeader Res) (r : Request) :
    List ResponseWrite :=
  if !env.cors r then []
  else
    match env.PopModel r with
    | Except.error err => [ResponseWrite.error 400 err]
    | Except.ok d =>
      match env.Query d with
      | Except.error err => [ResponseWrite.error 400 (env.errorText err)]
      | Except.ok res =>
        match env.Marshal res with
        | Except.error err => [ResponseWrite.error 400 err]
        | Except.ok j => [ResponseWrite.json j r.URLPath r.Host]

/-- The handler `Relay`: the responses it writes, in order. -/
def Relay {Res : Type} (env : QuerySteps Pocket.Relay Res) (r : Request) :
    List ResponseWrite :=
  if !env.cors r then []
  else
    match env.PopModel r with
    | Except.error err => [ResponseWrite.error 400 err]
    | Except.ok relay =>
      match env.Query relay with
      | Except.error err => [ResponseWrite.error 400 (env.errorText err)]
      | Except.ok res =>
        match env.Marshal res with
        | Except.error er => [ResponseWrite.error 400 er]
        | Except.ok j => [ResponseWrite.json j r.URLPath r.Host]

/-- The handler `Challenge`: the responses it writes, in order; `Model` is the type
`ChallengeProofInvalidData`, declared outside `client.go`. -/
def Challenge {Model Res : Type} (env : QuerySteps Model Res) (r : Request) :
    List ResponseWrite :=
  if !env.cors r then []
  else
    match env.PopModel r with
    | Except.error err => [ResponseWrite.error 400 err]
    | Except.ok challenge =>
      match env.Query challenge with
      | Except.error err => [ResponseWrite.error 400 (env.errorText err)]
      | Except.ok res =>
        match env.Marshal res with
        | Except.error er => [ResponseWrite.error 400 er]
        | Except.ok j => [ResponseWrite.json j r.URLPath r.Host]

/-- The handler `SendRawTx`: the responses it writes, in order. -/
def SendRawTx {Res : Type} (env : RawTxSteps Res) (r : Request) : List ResponseWrite :=
  if !env.cors r then []
  else
    match env.PopModel r with
    | Except.error err => [ResponseWrite.error 400 err]
    | Except.ok params =>
      match hexDecode params.RawHexBytes with
      | none => [ResponseWrite.error 400 (env.hexErrorText params.RawHexBytes)]
      | some bz =>
        match env.SendRawTx params.Addr bz with
        | Except.error err => [ResponseWrite.error 400 (env.errorText err)]
        | Except.ok res =>
          match env.MarshalJSON res with
          | Except.error er => [ResponseWrite.error 400 er]
          | Except.ok j => [ResponseWrite.plain j r.URLPath r.Host]

end rpc

namespace Scenario

/-- Collaborators of the handler `Relay` in a scenario: every body decodes to the valid
relay of the tests, the query fails with the error of the execution of the relay, and a
result would be marshalled as it is. -/
def failingRelaySteps : QuerySteps Relay String :=
  { cors := fun _ => true
    PopModel := fun _ => Except.ok (relay 1)
    Query := fun _ => Except.error (Error.HTTPExecution "connection refused")
    Marshal := fun res => Except.ok res
    errorText := fun _ => "error" }

/-- Collaborators of the handler `Relay` in a scenario where the query answers. -/
def answeringRelaySteps : QuerySteps Relay String :=
  { failingRelaySteps with Query := fun _ => Except.ok "\x7b\"response\":\"bar\"\x7d" }

/-- A request to the relay endpoint. -/
def relayRequest : Request := { Body := "", URLPath := "/v1/client/relay", Host := "localhost" }

/-- Collaborators of the handler `Dispatch` in a scenario where no body can be decoded. -/
def undecodableDispatchSteps : QuerySteps SessionHeader String :=
  { cors := fun _ => true
    PopModel := fun _ => Except.error "EOF"
    Query := fun _ => Except.error (Error.HTTPExecution "connection refused")
    Marshal := fun res => Except.ok res
    errorText := fun _ => "error" }

/-- Collaborators of the handler `SendRawTx` in a scenario where no body can be decoded. -/
def undecodableRawTxSteps : RawTxSteps String :=
  { cors := fun _ => true
    PopModel := fun _ => Except.error "EOF"
    hexErrorText := fun _ => "encoding/hex: invalid byte"
    SendRawTx := fun _ _ => Except.ok ""
    MarshalJSON := fun res => Except.ok res
    errorText := fun _ => "error" }

end Scenario

/-! ### The legacy dispatcher (`dispatch/dispatch.go`) -/

/-- Value of a non-empty run of hexadecimal digits, most significant first, continuing
from the value `acc` of the digits already read; `none` on any other character. -/
def hexNat : Nat → List Char → Option Nat
  | acc, [] => some acc
  | acc, c :: rest =>
    match hexVal c with
    | some d => hexNat (acc * 16 + d) rest
    | none => none

/-- Number read by `big.Int.SetString(s, 16)`: an optional sign, then one or more
hexadecimal digits up to the end of the text; `none` when the text is not of that form. -/
def parseHexInt (s : String) : Option Int :=
  match s.data with
  | [] => none
  | '-' :: [] => none
  | '+' :: [] => none
  | '-' :: rest => (hexNat 0 rest).map fun n => -(n : Int)
  | '+' :: rest => (hexNat 0 rest).map fun n => (n : Int)
  | rest => (hexNat 0 rest).map fun n => (n : Int)

/-- `new(big.Int).SetString(s, 16)` with the result of the call ignored, as the dispatcher
uses it: the number read, or the value `undefinedInt s` that the library leaves in the
receiver when the text is not a number. -/
def SetString (undefinedInt : String → Int) (s : String) : Int :=
  (parseHexInt s).getD (undefinedInt s)

/-- `big.Int.Uint64` of a number that is not negative: the low 64 bits. -/
def Uint64 (n : Nat) : Nat := n % 2 ^ 64

/-- State of the loop of `Find` over the peers: the map `m` from the 64-bit difference to
a node, and the slice `keys` filled so far. -/
structure FindLoop (Node : Type) where
  /-- The map `m`. -/
  m : Nat → Option Node
  /-- The entries of `keys` written so far. -/
  keys : List Nat

/-- One iteration of the loop of `Find` for the peer `gid` with node `n`:
`difference := |bigSessionKey - id|`, then `m[difference.Uint64()] = n` and
`keys[i] = difference.Uint64()`. -/
def FindLoop.step {Node : Type} (undefinedInt : String → Int) (bigSessionKey : Int)
    (st : FindLoop Node) (peer : String × Node) : FindLoop Node :=
  let id := SetString undefinedInt peer.1
  let difference := (bigSessionKey - id).natAbs
  { m := Function.update st.m (Uint64 difference) (some peer.2)
    keys := st.keys ++ [Uint64 difference] }

/-- `dispatch.Find`: `peerList` holds the entries of the peer list (node ID and node)
in the order in which the loop visits them; `keys` is sorted in ascending order
(`sort.Slice` with `<`, whose result on numbers does not depend on the algorithm), and
position `i` of the result is `m[keys[i]]`, the zero value when the key is absent. -/
def dispatch.Find {Node : Type} [Inhabited Node] (undefinedInt : String → Int)
    (sessionKey : String) (peerList : List (String × Node)) : List Node :=
  let bigSessionKey := SetString undefinedInt sessionKey
  let st := peerList.foldl (FindLoop.step undefinedInt bigSessionKey)
    { m := fun _ => none, keys := [] }
  let keys := st.keys.insertionSort (· ≤ ·)
  keys.map fun k => (st.m k).getD default

/-- Proximity of a node ID to a session key as the documentation of `Find` describes it:
the absolute difference of the two numbers, taken as unbounded integers. -/
def proximity (undefinedInt : String → Int) (sessionKey gid : String) : Nat :=
  (SetString undefinedInt sessionKey - SetString undefinedInt gid).natAbs

/-! ## The JSON codec of a relay proof -/

/-- The JSON names of the fields of `RelayProof` and of `AAT`, whose declarations are
not in `service.go`: for each field the name that its struct tag gives, or the name of the
field when the tag gives none. The fields are taken to be plain (no `omitempty` or `string`
option) and the two types to have no `MarshalJSON` or `UnmarshalJSON` method, like
`RelayMeta`. -/
structure ProofKeys where
  RequestHash : String
  Entropy : String
  SessionBlockHeight : String
  ServicerPubKey : String
  Blockchain : String
  Token : String
  Signature : String
  Version : String
  ApplicationPublicKey : String
  ClientPublicKey : String
  ApplicationSignature : String
  deriving DecidableEq, Repr

/-- The JSON names of the fields of `RelayProof`, in the order of the fields. -/
def ProofKeys.proofNames (keys : ProofKeys) : List String :=
  [keys.RequestHash, keys.Entropy, keys.SessionBlockHeight, keys.ServicerPubKey,
    keys.Blockchain, keys.Token, keys.Signature]

/-- The JSON names of the fields of `AAT`, in the order of the fields. -/
def ProofKeys.tokenNames (keys : ProofKeys) : List String :=
  [keys.Version, keys.ApplicationPublicKey, keys.ClientPublicKey, keys.ApplicationSignature]

/-- The fields of each of the two structs have different JSON names, so that
`encoding/json` writes and reads every one of them. -/
def ProofKeys.Distinct (keys : ProofKeys) : Prop :=
  keys.proofNames.Nodup ∧ keys.tokenNames.Nodup

/-- The field that the decoder selects for an object key, by its position among the
JSON names of the fields of a struct: the field of that very name when there is one,
otherwise the first field whose name is the key up to case folding, and none when there is
no such field either. -/
def fieldIndex (names : List String) (k : String) : Option Nat :=
  if k ∈ names then some (names.indexOf k)
  else if foldKey k ∈ names.map foldKey then some ((names.map foldKey).indexOf (foldKey k))
  else none

/-- Decoding of one member of an object into an `AAT`: the member is stored in the
field that its key selects, and skipped when it selects none. -/
def AAT.decodeMember (keys : ProofKeys) (a : AAT) (k : String)
    (v : JSONValue NumberLiteral) : Option AAT :=
  if fieldIndex keys.tokenNames k = some 0 then
    (decodeStringField a.Version v).map fun s => { a with Version := s }
  else if fieldIndex keys.tokenNames k = some 1 then
    (decodeStringField a.ApplicationPublicKey v).map fun s =>
      { a with ApplicationPublicKey := s }
  else if fieldIndex keys.tokenNames k = some 2 then
    (decodeStringField a.ClientPublicKey v).map fun s => { a with ClientPublicKey := s }
  else if fieldIndex keys.tokenNames k = some 3 then
    (decodeStringField a.ApplicationSignature v).map fun s =>
      { a with ApplicationSignature := s }
  else some a

/-- Decoding of the members of an object into an `AAT`, in the order of the text. -/
def AAT.decodeMembers (keys : ProofKeys) :
    AAT → List (String × JSONValue NumberLiteral) → Option AAT
  | a, [] => some a
  | a, (k, v) :: t =>
    match AAT.decodeMember keys a k v with
    | some q => AAT.decodeMembers keys q t
    | none => none

/-- Decoding of a JSON value into an `AAT` variable: an object fills the fields,
`null` leaves the variable as it is, any other value is a type error. -/
def AAT.decode (keys : ProofKeys) (old : AAT) : JSONValue NumberLiteral → Option AAT
  | JSONValue.object l => AAT.decodeMembers keys old l
  | JSONValue.null => some old
  | _ => none

/-- Decoding of one member of an object into a `RelayProof`. -/
def RelayProof.decodeMember (keys : ProofKeys) (p : RelayProof) (k : String)
    (v : JSONValue NumberLiteral) : Option RelayProof :=
  if fieldIndex keys.proofNames k = some 0 then
    (decodeStringField p.RequestHash v).map fun s => { p with RequestHash := s }
  else if fieldIndex keys.proofNames k = some 1 then
    (decodeInt64Field p.Entropy v).map fun n => { p with Entropy := n }
  else if fieldIndex keys.proofNames k = some 2 then
    (decodeInt64Field p.SessionBlockHeight v).map fun n => { p with SessionBlockHeight := n }
  else if fieldIndex keys.proofNames k = some 3 then
    (decodeStringField p.ServicerPubKey v).map fun s => { p with ServicerPubKey := s }
  else if fieldIndex keys.proofNames k = some 4 then
    (decodeStringField p.Blockchain v).map fun s => { p with Blockchain := s }
  else if fieldIndex keys.proofNames k = some 5 then
    (AAT.decode keys p.Token v).map fun a => { p with Token := a }
  else if fieldIndex keys.proofNames k = some 6 then
    (decodeStringField p.Signature v).map fun s => { p with Signature := s }
  else some p

/-- Decoding of the members of an object into a `RelayProof`, in the order of the
text. -/
def RelayProof.decodeMembers (keys : ProofKeys) :
    RelayProof → List (String × JSONValue NumberLiteral) → Option RelayProof
  | p, [] => some p
  | p, (k, v) :: t =>
    match RelayProof.decodeMember keys p k v with
    | some q => RelayProof.decodeMembers keys q t
    | none => none

/-- Decoding of a JSON value into a `RelayProof` variable. -/
def RelayProof.decode (keys : ProofKeys) (old : RelayProof) :
    JSONValue NumberLiteral → Option RelayProof
  | JSONValue.object l => RelayProof.decodeMembers keys old l
  | JSONValue.null => some old
  | _ => none

/-- The value whose compact text `json.Marshal` writes for an `AAT`: the fields in the
order of the declaration. -/
def AAT.toValue (keys : ProofKeys) (a : AAT) : JSONValue NumberLiteral :=
  JSONValue.object [(keys.Version, JSONValue.string a.Version),
    (keys.ApplicationPublicKey, JSONValue.string a.ApplicationPublicKey),
    (keys.ClientPublicKey, JSONValue.string a.ClientPublicKey),
    (keys.ApplicationSignature, JSONValue.string a.ApplicationSignature)]

/-- The value whose compact text `json.Marshal` writes for a `RelayProof`. -/
def RelayProof.toValue (keys : ProofKeys) (p : RelayProof) : JSONValue NumberLiteral :=
  JSONValue.object [(keys.RequestHash, JSONValue.string p.RequestHash),
    (keys.Entropy, JSONValue.number (intLiteral p.Entropy)),
    (keys.SessionBlockHeight, JSONValue.number (intLiteral p.SessionBlockHeight)),
    (keys.ServicerPubKey, JSONValue.string p.ServicerPubKey),
    (keys.Blockchain, JSONValue.string p.Blockchain),
    (keys.Token, AAT.toValue keys p.Token),
    (keys.Signature, JSONValue.string p.Signature)]

/-- The JSON codec of `RelayProof` that `encoding/json` derives from the declarations
with the given JSON names. -/
def RelayProof.codec (keys : ProofKeys) : ProofCodec :=
  { encode := RelayProof.toValue keys
    decode := RelayProof.decode keys }

namespace Scenario

/-- JSON names for the fields of the proof and of the token in the scenarios: the
names of the data model of the specification. -/
def proofKeys : ProofKeys :=
  { RequestHash := "request_hash"
    Entropy := "entropy"
    SessionBlockHeight := "session_block_height"
    ServicerPubKey := "servicer_public_key"
    Blockchain := "blockchain"
    Token := "token"
    Signature := "signature"
    Version := "version"
    ApplicationPublicKey := "application_public_key"
    ClientPublicKey := "client_public_key"
    ApplicationSignature := "application_signature" }

end Scenario

/-! ## Go strings that do not hold valid UTF-8 -/

/-- Lower bound that `utf8.DecodeRuneInString` puts on the second byte of an encoding
that starts with the byte `b0`. -/
def acceptLo (b0 : Nat) : Nat := if b0 = 0xE0 then 0xA0 else if b0 = 0xF0 then 0x90 else 0x80

/-- Upper bound that `utf8.DecodeRuneInString` puts on the second byte of an encoding
that starts with the byte `b0`. -/
def acceptHi (b0 : Nat) : Nat := if b0 = 0xED then 0x9F else if b0 = 0xF4 then 0x8F else 0xBF

/-- `utf8.DecodeRuneInString` on the bytes of a Go string: the rune that the bytes
start with and the width of its encoding; `(0xFFFD, 1)` (`RuneError` with width 1) when the
bytes do not start with a valid encoding, and `(0xFFFD, 0)` when there are no bytes. -/
def DecodeRuneInString : List Nat → Nat × Nat
  | [] => (0xFFFD, 0)
  | b0 :: rest =>
    if b0 < 0x80 then (b0, 1)
    else if 0xC2 ≤ b0 ∧ b0 ≤ 0xDF then
      match rest with
      | b1 :: _ =>
        if acceptLo b0 ≤ b1 ∧ b1 ≤ acceptHi b0 then (b0 % 32 * 64 + b1 % 64, 2)
        else (0xFFFD, 1)
      | _ => (0xFFFD, 1)
    else if 0xE0 ≤ b0 ∧ b0 ≤ 0xEF then
      match rest with
      | b1 :: b2 :: _ =>
        if acceptLo b0 ≤ b1 ∧ b1 ≤ acceptHi b0 ∧ 0x80 ≤ b2 ∧ b2 ≤ 0xBF then
          (b0 % 16 * 4096 + b1 % 64 * 64 + b2 % 64, 3)
        else (0xFFFD, 1)
      | _ => (0xFFFD, 1)
    else if 0xF0 ≤ b0 ∧ b0 ≤ 0xF4 then
      match rest with
      | b1 :: b2 :: b3 :: _ =>
        if acceptLo b0 ≤ b1 ∧ b1 ≤ acceptHi b0 ∧ 0x80 ≤ b2 ∧ b2 ≤ 0xBF
            ∧ 0x80 ≤ b3 ∧ b3 ≤ 0xBF then
          (b0 % 8 * 262144 + b1 % 64 * 4096 + b2 % 64 * 64 + b3 % 64, 4)
        else (0xFFFD, 1)
      | _ => (0xFFFD, 1)
    else (0xFFFD, 1)

/-- The loop of `encodeState.string` of `encoding/json` (HTML escaping on) over the
bytes of a Go string, which need not be valid UTF-8: `skip` counts the bytes still to pass
over of a rune already written. A byte below `0x80` is escaped as `jsonEscapeChar` tells;
a byte that does not start a valid encoding is written as the escape of U+FFFD (a
backslash and `ufffd`); any other rune is written as `jsonEscapeChar` tells. -/
def encodeStringBytes : Nat → List Nat → List Char
  | _, [] => []
  | skip + 1, _ :: rest => encodeStringBytes skip rest
  | 0, b :: rest =>
    if b < 0x80 then jsonEscapeChar (Char.ofNat b) ++ encodeStringBytes 0 rest
    else if DecodeRuneInString (b :: rest) = (0xFFFD, 1) then
      [Char.ofNat 92, 'u', 'f', 'f', 'f', 'd'] ++ encodeStringBytes 0 rest
    else
      jsonEscapeChar (Char.ofNat (DecodeRuneInString (b :: rest)).1)
        ++ encodeStringBytes ((DecodeRuneInString (b :: rest)).2 - 1) rest

/-- JSON encoding of a Go string given by its bytes. -/
def jsonStringOfBytes (bs : List Nat) : String :=
  "\"" ++ String.mk (encodeStringBytes 0 bs) ++ "\""

/-- `Payload.MarshalJSON` of the payload that has the method, the path and the headers
of `p` and whose data are the bytes `data`. -/
def Payload.MarshalJSONOfData (data : List Nat) (p : Payload) : String :=
  "\x7b\"data\":" ++ jsonStringOfBytes data ++ ",\"method\":" ++ jsonString p.Method
    ++ ",\"path\":" ++ jsonString p.Path ++ ",\"headers\":" ++ jsonStringMap p.Headers ++ "\x7d"

/-- `json.Marshal` of the relay that has the meta and the proof of `r` and the payload
of `r` with the bytes `data` as its data. -/
def Relay.MarshalOfData (pc : ProofCodec) (data : List Nat) (r : Relay) : String :=
  "\x7b\"payload\":" ++ r.Payload.MarshalJSONOfData data ++ ",\"meta\":" ++ r.Meta.MarshalJSON
    ++ ",\"proof\":" ++ String.mk (JSONValue.print numberLiteralCodec (pc.encode r.Proof))
    ++ "\x7d"

/-! ## Helper lemmas -/

theorem wrapInt64_of_inInt64 (x : Int) (hx : inInt64 x) : wrapInt64 x = x := by
  unfold inInt64 at hx
  unfold wrapInt64
  rw [Int.emod_eq_of_lt (by omega) (by omega)]
  omega

/-- Without overflow, `RelayMeta.Validate` accepts exactly the heights of the window
`[h - a, h + a]`. -/
theorem RelayMeta.Validate_eq_none_iff (h a m : Int) (hadd : inInt64 (h + a))
    (hsub : inInt64 (h - a)) :
    RelayMeta.Validate ⟨m⟩ ⟨h⟩ a = none ↔ (h - a ≤ m ∧ m ≤ h + a) := by
  unfold RelayMeta.Validate
  simp only [wrapInt64_of_inInt64 _ hadd, wrapInt64_of_inInt64 _ hsub]
  by_cases hc : h + a < m ∨ h - a > m
  · rw [if_pos hc]
    constructor
    · intro hn; cases hn
    · intro hb; omega
  · rw [if_neg hc]
    constructor
    · intro _; omega
    · intro _; rfl

/-! ### Exactness of the floating-point bound on small operands -/

theorem roundHalfEven_intCast (n : Int) : roundHalfEven (n : ℚ) = n := by
  unfold roundHalfEven
  simp

theorem roundHalfEven_error (q : ℚ) : |(roundHalfEven q : ℚ) - q| ≤ 1 / 2 := by
  unfold roundHalfEven
  have h1 := Int.floor_le q
  have h2 := Int.lt_floor_add_one q
  simp only
  rw [abs_le]
  split_ifs with ha hb hc
  · constructor <;> linarith
  · push_cast; constructor <;> linarith
  · constructor <;> linarith
  · push_cast; constructor <;> linarith

/-- Rounding in the binade of a positive value moves it by at most a relative `2⁻⁵³`. -/
theorem Float64.roundTo_error (q : ℚ) (hq : 0 < q) :
    |Float64.roundTo (Int.log 2 q) q - q| ≤ q / 2 ^ 53 := by
  unfold Float64.roundTo
  set e := Int.log 2 q with he
  have hpos : (0 : ℚ) < 2 ^ (e - 52) := zpow_pos (by norm_num) _
  have hle : ((2 : ℕ) : ℚ) ^ e ≤ q := Int.zpow_log_le_self (by norm_num) hq
  have herr := roundHalfEven_error (q / 2 ^ (e - 52))
  have hmul : |(roundHalfEven (q / 2 ^ (e - 52)) : ℚ) * 2 ^ (e - 52) - q|
      = |(roundHalfEven (q / 2 ^ (e - 52)) : ℚ) - q / 2 ^ (e - 52)| * 2 ^ (e - 52) := by
    rw [← abs_of_pos hpos, ← abs_mul, abs_of_pos hpos]
    congr 1
    field_simp
  rw [hmul]
  have h53 : (2 : ℚ) ^ (e - 52) = 2 ^ e / 2 ^ 52 := by
    rw [zpow_sub₀ (by norm_num)]
    norm_num
  calc |(roundHalfEven (q / 2 ^ (e - 52)) : ℚ) - q / 2 ^ (e - 52)| * 2 ^ (e - 52)
      ≤ 1 / 2 * 2 ^ (e - 52) := mul_le_mul_of_nonneg_right herr hpos.le
    _ = 2 ^ e / 2 ^ 53 := by rw [h53]; ring
    _ ≤ q / 2 ^ 53 := by
        apply div_le_div_of_nonneg_right _ (by positivity)
        simpa using hle

/-- An integer is a multiple of the unit in the last place of every binade up to
exponent 52. -/
theorem Float64.roundTo_intCast (e : Int) (he : e ≤ 52) (n : Int) :
    Float64.roundTo e (n : ℚ) = n := by
  unfold Float64.roundTo
  obtain ⟨k, hk⟩ : ∃ k : ℕ, e - 52 = -(k : ℤ) := ⟨(52 - e).toNat, by omega⟩
  rw [hk, zpow_neg, zpow_natCast, div_inv_eq_mul]
  have h2 : (n : ℚ) * 2 ^ k = ((n * 2 ^ k : ℤ) : ℚ) := by push_cast; ring
  rw [h2, roundHalfEven_intCast]
  push_cast
  field_simp

theorem Float64.maxFinite_ge : (2 : ℚ) ^ 54 ≤ Float64.maxFinite := by
  unfold Float64.maxFinite
  norm_num

/-- Integers from 0 up to `2⁵³` (excluded) convert to `float64` exactly. -/
theorem Float64.ofInt_exact (n : Int) (h0 : 0 ≤ n) (h : n < 2 ^ 53) :
    Float64.ofInt n = Float64.finite n := by
  unfold Float64.ofInt Float64.round
  by_cases hz : (n : ℚ) = 0
  · rw [if_pos hz, hz]
  rw [if_neg hz]
  have hn1 : 1 ≤ n := by
    have : n ≠ 0 := by intro h0'; apply hz; rw [h0']; simp
    omega
  have hnpos : (0 : ℚ) < n := by exact_mod_cast (by omega : (0 : ℤ) < n)
  have hlt : Int.log 2 (n : ℚ) < 53 := by
    rw [← Int.lt_zpow_iff_log_lt (by norm_num) hnpos]
    have h53 : (n : ℚ) < 2 ^ 53 := by exact_mod_cast h
    norm_num
    exact h53
  have hmax : max (Int.log 2 |(n : ℚ)|) (-1022) ≤ 52 := by
    rw [abs_of_pos hnpos]
    exact max_le (by omega) (by norm_num)
  simp only
  rw [Float64.roundTo_intCast _ hmax]
  have hb : (n : ℚ) < 2 ^ 53 := by exact_mod_cast h
  have hm := Float64.maxFinite_ge
  rw [if_neg (by linarith), if_neg (by linarith)]

/-- The rounded quotient of a natural below `2⁵³` by a positive natural below `2⁵³`
is finite and has the floor and the ceiling of the exact quotient. -/
theorem Float64.round_div_floor_ceil (a b : Int) (ha0 : 0 ≤ a) (ha : a < 2 ^ 53)
    (hb : 1 ≤ b) (hb2 : b < 2 ^ 53) :
    ∃ y : ℚ, Float64.round ((a : ℚ) / b) = Float64.finite y ∧ 0 ≤ y
      ∧ ⌊y⌋ = ⌊(a : ℚ) / b⌋ ∧ ⌈y⌉ = ⌈(a : ℚ) / b⌉ := by
  have hbq : (0 : ℚ) < b := by exact_mod_cast (by omega : (0 : ℤ) < b)
  have haq : (a : ℚ) < 2 ^ 53 := by exact_mod_cast ha
  have hb1q : (1 : ℚ) ≤ b := by exact_mod_cast hb
  have hb2q : (b : ℚ) < 2 ^ 53 := by exact_mod_cast hb2
  by_cases haz : a = 0
  · refine ⟨0, ?_, le_refl _, ?_, ?_⟩
    · rw [haz]; simp [Float64.round]
    · rw [haz]; simp
    · rw [haz]; simp
  have ha1 : (1 : ℚ) ≤ a := by exact_mod_cast (by omega : (1 : ℤ) ≤ a)
  set x : ℚ := (a : ℚ) / b with hx
  have hxpos : 0 < x := by positivity
  have hxlt : x < 2 ^ 53 := by
    rw [hx, div_lt_iff₀ hbq]
    nlinarith
  -- the exponent of the quotient is in the normal range
  have hlog : -1022 ≤ Int.log 2 x := by
    rw [← Int.zpow_le_iff_le_log (by norm_num) hxpos]
    have h1 : (2 : ℚ) ^ (-1022 : ℤ) ≤ 2 ^ (-53 : ℤ) :=
      zpow_le_zpow_right₀ (by norm_num) (by norm_num)
    have h2 : (2 : ℚ) ^ (-53 : ℤ) ≤ x := by
      rw [hx, le_div_iff₀ hbq, zpow_neg]
      have h3 : ((2 : ℚ) ^ (53 : ℤ))⁻¹ * b ≤ 1 := by
        rw [inv_mul_le_iff₀ (by positivity)]
        norm_num
        linarith
      linarith
    push_cast
    linarith
  have hmax : max (Int.log 2 |x|) (-1022) = Int.log 2 x := by
    rw [abs_of_pos hxpos]
    exact max_eq_left hlog
  have herr := Float64.roundTo_error x hxpos
  rw [abs_le] at herr
  have hsmall : x / 2 ^ 53 < 1 / b := by
    rw [hx, div_div, div_lt_div_iff₀ (by positivity) hbq]
    nlinarith
  have hround : Float64.round x = Float64.finite (Float64.roundTo (Int.log 2 x) x) := by
    unfold Float64.round
    rw [if_neg hxpos.ne']
    simp only
    rw [hmax]
    have hm := Float64.maxFinite_ge
    have hup : Float64.roundTo (Int.log 2 x) x ≤ 2 ^ 54 := by
      have : x / 2 ^ 53 ≤ x := div_le_self hxpos.le (by norm_num)
      have h54 : (2 : ℚ) ^ 54 = 2 ^ 53 + 2 ^ 53 := by norm_num
      linarith [herr.2]
    have hlo : 0 ≤ Float64.roundTo (Int.log 2 x) x := by
      have : x / 2 ^ 53 ≤ x := div_le_self hxpos.le (by norm_num)
      linarith [herr.1]
    rw [if_neg (by linarith), if_neg (by linarith)]
  refine ⟨Float64.roundTo (Int.log 2 x) x, hround, ?_, ?_⟩
  · have : x / 2 ^ 53 ≤ x := div_le_self hxpos.le (by norm_num)
    linarith [herr.1]
  set y := Float64.roundTo (Int.log 2 x) x with hy
  set k := ⌊x⌋ with hk
  have hk1 : (k : ℚ) ≤ x := Int.floor_le x
  have hk2 : x < k + 1 := Int.lt_floor_add_one x
  have hk0 : 0 ≤ k := Int.floor_nonneg.mpr hxpos.le
  by_cases hint : x = k
  · -- the quotient is an integer, which rounds to itself
    have hlt : Int.log 2 x < 53 := by
      rw [← Int.lt_zpow_iff_log_lt (by norm_num) hxpos]
      norm_num
      exact hxlt
    have hyk : y = k := by
      rw [hy]
      conv_lhs => rw [hint]
      rw [← hint]
      have := Float64.roundTo_intCast (Int.log 2 x) (by omega) k
      rw [← hint] at this
      rw [this]
    rw [hyk]
    constructor
    · simp
    · rw [Int.ceil_intCast]
      symm
      rw [Int.ceil_eq_iff]
      constructor <;> linarith
  · have hxk : (k : ℚ) < x := lt_of_le_of_ne hk1 (Ne.symm hint)
    -- the quotient keeps a margin of `1 / b` from both neighbouring integers
    have hax : (a : ℚ) = x * b := by rw [hx]; field_simp
    have hlow : k * b + 1 ≤ a := by
      have h1 : ((k * b : ℤ) : ℚ) < a := by
        push_cast; rw [hax]; exact mul_lt_mul_of_pos_right hxk hbq
      have h2 := Int.cast_lt.mp h1
      omega
    have hhigh : a + 1 ≤ (k + 1) * b := by
      have h1 : (a : ℚ) < (((k + 1) * b : ℤ) : ℚ) := by
        push_cast; rw [hax]; exact mul_lt_mul_of_pos_right hk2 hbq
      have h2 := Int.cast_lt.mp h1
      omega
    have hlowq : (k : ℚ) + 1 / b ≤ x := by
      rw [hx, le_div_iff₀ hbq]
      have h1 : ((k * b + 1 : ℤ) : ℚ) ≤ a := by exact_mod_cast hlow
      push_cast at h1
      have e1 : ((k : ℚ) + 1 / b) * b = k * b + 1 := by field_simp
      rw [e1]; exact h1
    have hhighq : x + 1 / b ≤ k + 1 := by
      have h1 : ((a + 1 : ℤ) : ℚ) ≤ (((k + 1) * b : ℤ) : ℚ) := by exact_mod_cast hhigh
      push_cast at h1
      have e1 : x + 1 / b = (a + 1) / b := by rw [hx]; field_simp
      rw [e1, div_le_iff₀ hbq]
      exact h1
    have hy1 : (k : ℚ) < y := by linarith [herr.1]
    have hy2 : y < k + 1 := by linarith [herr.2]
    refine ⟨?_, ?_⟩
    · rw [Int.floor_eq_iff]; exact ⟨hy1.le, hy2⟩
    · have hcx : ⌈x⌉ = k + 1 := by
        rw [Int.ceil_eq_iff]; push_cast; constructor <;> linarith
      rw [hcx, Int.ceil_eq_iff]
      push_cast
      constructor <;> linarith

theorem Float64.div_finite (a b : ℚ) (hb : b ≠ 0) :
    Float64.div (Float64.finite a) (Float64.finite b) = Float64.round (a / b) := by
  simp [Float64.div, hb]

/-- On operands below `2⁵³` the floating-point bound of the over-service check is the
integer `⌊⌈maxRelays / numChains⌉ / sessionNodeCount⌋`, whatever the platform. -/
theorem overServiceBound_exact (platform : Float64 → Int) (m : Int) (c : Nat) (N : Int)
    (hm0 : 0 ≤ m) (hm : m < 2 ^ 53) (hc : 1 ≤ c) (hc2 : (c : Int) < 2 ^ 53)
    (hN : 1 ≤ N) (hN2 : N < 2 ^ 53) :
    overServiceBound platform m c N
      = ⌊((⌈(m : ℚ) / ((c : Int) : ℚ)⌉ : Int) : ℚ) / (N : ℚ)⌋ := by
  have hcI : (1 : Int) ≤ (c : Int) := by exact_mod_cast hc
  have hcq : (1 : ℚ) ≤ ((c : Int) : ℚ) := by exact_mod_cast hcI
  have hNq : (1 : ℚ) ≤ (N : ℚ) := by exact_mod_cast hN
  have hmq : (0 : ℚ) ≤ (m : ℚ) := by exact_mod_cast hm0
  unfold overServiceBound
  rw [Float64.ofInt_exact m hm0 hm, Float64.ofInt_exact (c : Int) (by omega) hc2,
    Float64.ofInt_exact N (by omega) hN2]
  obtain ⟨y1, h1, _, _, hceil⟩ := Float64.round_div_floor_ceil m (c : Int) hm0 hm hcI hc2
  have hd1 : Float64.div (Float64.finite (m : ℚ)) (Float64.finite ((c : Int) : ℚ))
      = Float64.finite y1 := by
    rw [Float64.div_finite _ _ (by linarith), h1]
  rw [hd1]
  unfold Float64.ceil
  simp only
  rw [hceil]
  set K : Int := ⌈(m : ℚ) / ((c : Int) : ℚ)⌉ with hK
  have hK0 : 0 ≤ K := Int.ceil_nonneg (by positivity)
  have hKm : K ≤ m := by
    rw [hK, Int.ceil_le]
    exact div_le_self hmq hcq
  obtain ⟨y2, h2, hy0, hfloor, _⟩ :=
    Float64.round_div_floor_ceil K N hK0 (by omega) hN hN2
  have hd2 : Float64.div (Float64.finite (K : ℚ)) (Float64.finite (N : ℚ))
      = Float64.finite y2 := by
    rw [Float64.div_finite _ _ (by linarith), h2]
  rw [hd2]
  unfold Float64.toInt64
  simp only
  rw [if_pos hy0, hfloor]
  have hf0 : 0 ≤ ⌊(K : ℚ) / (N : ℚ)⌋ := Int.floor_nonneg.mpr (by positivity)
  have hfK : ⌊(K : ℚ) / (N : ℚ)⌋ ≤ K := by
    have h3 : (K : ℚ) / (N : ℚ) ≤ K := div_le_self (by exact_mod_cast hK0) hNq
    have h4 : ((⌊(K : ℚ) / (N : ℚ)⌋ : Int) : ℚ) ≤ K := le_trans (Int.floor_le _) h3
    exact_mod_cast h4
  rw [if_pos]
  unfold inInt64
  constructor <;> omega

/-! ### The leading checks of `Relay.Validate` -/

theorem RelayMeta.Validate_ne_none (m : RelayMeta) (ctx : Ctx) (a : Int)
    (h : m.Validate ctx a ≠ none) : m.Validate ctx a = some Error.OutOfSyncRequest := by
  unfold RelayMeta.Validate at h ⊢
  split_ifs with hc
  · rfl
  · rw [if_neg hc] at h
    exact absurd rfl h

/-- The outcome of `Relay.Validate` when one of the four leading checks fails. -/
theorem Relay.Validate_leading {Cache : Type} (env : Env Cache) (cache : Cache) (r : Relay)
    (ctx : Ctx) (keeper : PosKeeper) (node : Validator) (hb : HostedBlockchains)
    (sbh N : Int) (app : Application) :
    (r.Payload.Validate ≠ none →
      Relay.Validate env cache r ctx keeper node hb sbh N app
        = ⟨some Error.EmptyPayloadData, r, cache⟩)
    ∧ (r.Payload.Validate = none →
        r.Meta.Validate ctx env.globalClientBlockAllowance ≠ none →
        Relay.Validate env cache r ctx keeper node hb sbh N app
          = ⟨some Error.OutOfSyncRequest, r, cache⟩)
    ∧ (r.Payload.Validate = none →
        r.Meta.Validate ctx env.globalClientBlockAllowance = none →
        r.Proof.RequestHash ≠ r.RequestHashString →
        Relay.Validate env cache r ctx keeper node hb sbh N app
          = ⟨some Error.RequestHash, r, cache⟩)
    ∧ (r.Payload.Validate = none →
        r.Meta.Validate ctx env.globalClientBlockAllowance = none →
        r.Proof.RequestHash = r.RequestHashString →
        hb.Contains r.Proof.Blockchain = false →
        Relay.Validate env cache r ctx keeper node hb sbh N app
          = ⟨some Error.UnsupportedBlockchainNode, r, cache⟩) := by
  refine ⟨?_, ?_, ?_, ?_⟩
  · intro h1
    unfold Relay.Validate
    rw [if_pos h1]
  · intro h1 h2
    have h2' := RelayMeta.Validate_ne_none _ _ _ h2
    unfold Relay.Validate
    rw [if_neg (not_not.mpr h1)]
    simp only [h2']
  · intro h1 h2 h3
    unfold Relay.Validate
    rw [if_neg (not_not.mpr h1)]
    simp only [h2]
    rw [if_pos h3]
  · intro h1 h2 h3 h4
    unfold Relay.Validate
    rw [if_neg (not_not.mpr h1)]
    simp only [h2]
    rw [if_neg (not_not.mpr h3)]
    simp only [h4]
    rfl

/-- The outcome of `Relay.Validate` at the uniqueness and over-service checks, once
the four leading checks have passed. -/
theorem Relay.Validate_store_checks {Cache : Type} (env : Env Cache) (cache : Cache)
    (r : Relay) (ctx : Ctx) (keeper : PosKeeper) (node : Validator) (hb : HostedBlockchains)
    (sbh N : Int) (app : Application)
    (h1 : r.Payload.Validate = none)
    (h2 : r.Meta.Validate ctx env.globalClientBlockAllowance = none)
    (h3 : r.Proof.RequestHash = r.RequestHashString)
    (h4 : hb.Contains r.Proof.Blockchain = true) :
    (IsUniqueProof env.proofs r.Proof.evidenceHeader r.Proof = false →
      Relay.Validate env cache r ctx keeper node hb sbh N app
        = ⟨some Error.DuplicateProof, r, cache⟩)
    ∧ (IsUniqueProof env.proofs r.Proof.evidenceHeader r.Proof = true →
        GetTotalProofs env.proofs r.Proof.evidenceHeader
          ≥ overServiceBound env.platformInt64 app.MaxRelays app.Chains.length N →
        Relay.Validate env cache r ctx keeper node hb sbh N app
          = ⟨some Error.OverService, r, cache⟩) := by
  refine ⟨?_, ?_⟩
  · intro h5
    unfold RelayProof.evidenceHeader at h5
    unfold Relay.Validate
    rw [if_neg (not_not.mpr h1)]
    simp only [h2]
    rw [if_neg (not_not.mpr h3)]
    simp only [h4, h5]
    rfl
  · intro h5 h6
    unfold RelayProof.evidenceHeader at h5 h6
    unfold Relay.Validate
    rw [if_neg (not_not.mpr h1)]
    simp only [h2]
    rw [if_neg (not_not.mpr h3)]
    simp only [h4, h5]
    simp only [Bool.not_true, Bool.false_eq_true, if_false]
    rw [if_pos h6]

/-- The error returned by `Relay.Validate` once the six store-independent and store
checks have passed: the first error among proof validation, the previous context, the
session derivation (on a cache miss) and the session validation. -/
theorem Relay.Validate_err_later {Cache : Type} (env : Env Cache) (cache : Cache)
    (r : Relay) (ctx : Ctx) (keeper : PosKeeper) (node : Validator) (hb : HostedBlockchains)
    (sbh N : Int) (app : Application)
    (h1 : r.Payload.Validate = none)
    (h2 : r.Meta.Validate ctx env.globalClientBlockAllowance = none)
    (h3 : r.Proof.RequestHash = r.RequestHashString)
    (h4 : hb.Contains r.Proof.Blockchain = true)
    (h5 : IsUniqueProof env.proofs r.Proof.evidenceHeader r.Proof = true)
    (h6 : GetTotalProofs env.proofs r.Proof.evidenceHeader
      < overServiceBound env.platformInt64 app.MaxRelays app.Chains.length N) :
    (Relay.Validate env cache r ctx keeper node hb sbh N app).err =
      match env.ValidateLocal r.Proof app.Chains N sbh node.PublicKey with
      | some e => some e
      | none =>
        match env.PrevCtx ctx sbh with
        | Except.error er => some (Error.Internal er)
        | Except.ok sessionContext =>
          match (env.GetSession cache ⟨app.PublicKey, r.Proof.Blockchain, sbh⟩).1 with
          | some session => env.SessionValidate session node app N
          | none =>
            match env.NewSession sessionContext ctx keeper
                ⟨app.PublicKey, r.Proof.Blockchain, sbh⟩ (env.BlockHash sessionContext) N with
            | Except.error e => some e
            | Except.ok session => env.SessionValidate session node app N := by
  unfold RelayProof.evidenceHeader at h5 h6
  unfold Relay.Validate
  rw [if_neg (not_not.mpr h1)]
  simp only [h2]
  rw [if_neg (not_not.mpr h3)]
  simp only [h4, h5]
  simp only [Bool.not_true, Bool.false_eq_true, if_false]
  rw [if_neg (not_le.mpr h6)]
  cases hvl : env.ValidateLocal r.Proof app.Chains N sbh node.PublicKey with
  | some e => rfl
  | none =>
    cases hpc : env.PrevCtx ctx sbh with
    | error er => rfl
    | ok sessionContext =>
      simp only
      rcases hgs : env.GetSession cache ⟨app.PublicKey, r.Proof.Blockchain, sbh⟩ with ⟨o, c1⟩
      cases o with
      | some session =>
        simp only
        cases hsv : env.SessionValidate session node app N with
        | some e => rfl
        | none =>
          simp only
          split_ifs <;> rfl
      | none =>
        simp only
        cases hns : env.NewSession sessionContext ctx keeper
            ⟨app.PublicKey, r.Proof.Blockchain, sbh⟩ (env.BlockHash sessionContext) N with
        | error e => rfl
        | ok session =>
          simp only
          cases hsv : env.SessionValidate session node app N with
          | some e => rfl
          | none =>
            simp only
            split_ifs <;> rfl

/-! ### The scenario passes the leading checks -/

theorem Scenario.relay_payload_valid (e : Int) : (Scenario.relay e).Payload.Validate = none := by
  show Scenario.payload.Validate = none
  decide

theorem Scenario.relay_meta_valid (e : Int) (proofs : ProofStore) :
    (Scenario.relay e).Meta.Validate Scenario.ctx
      (Scenario.env proofs).globalClientBlockAllowance = none := by
  show RelayMeta.Validate ⟨1⟩ ⟨1⟩ 5 = none
  decide

theorem Scenario.relay_hash_matches (e : Int) :
    (Scenario.relay e).Proof.RequestHash = (Scenario.relay e).RequestHashString := rfl

theorem Scenario.relay_chain_hosted (e : Int) :
    Scenario.hb.Contains (Scenario.relay e).Proof.Blockchain = true := by
  show Scenario.hb.Contains Scenario.ethereum = true
  decide

theorem Scenario.env_later_checks (proofs : ProofStore) :
    (Scenario.env proofs).laterChecksNeverAnswer Error.OverService := by
  refine ⟨?_, ?_, ?_⟩
  · intro p chains n h k hc
    cases hc
  · intro c1 c2 k h b n hc
    simp only [Scenario.env] at hc
    split_ifs at hc
    · cases hc
  · intro s v a n hc
    cases hc

/-! ### Length of the request hash -/

theorem utf8EncodeChar_length_pos (c : Char) : 1 ≤ (utf8EncodeChar c).length := by
  unfold utf8EncodeChar
  simp only
  split_ifs <;> simp

theorem utf8Encode_length_ge (l : List Char) :
    l.length ≤ (l.flatMap utf8EncodeChar).length := by
  induction l with
  | nil => simp
  | cons c cs ih =>
    have h := utf8EncodeChar_length_pos c
    simp only [List.flatMap_cons, List.length_cons, List.length_append]
    omega

theorem utf8Bytes_length_ge (s : String) : s.length ≤ (utf8Bytes s).length :=
  utf8Encode_length_ge s.data

/-- The request hash of every relay has at least the 75 bytes of the fixed JSON keys
and punctuation. -/
theorem Relay.RequestHash_length_ge (r : Relay) : 75 ≤ r.RequestHash.length := by
  refine le_trans ?_ (utf8Bytes_length_ge _)
  simp only [Payload.MarshalJSON, RelayMeta.MarshalJSON, String.length_append]
  have e1 : "\x7b\"payload\":".length = 11 := by decide
  have e2 : "\x7b\"data\":".length = 8 := by decide
  have e3 : ",\"method\":".length = 10 := by decide
  have e4 : ",\"path\":".length = 8 := by decide
  have e5 : ",\"headers\":".length = 11 := by decide
  have e6 : "\x7d".length = 1 := by decide
  have e7 : ",\"meta\":".length = 8 := by decide
  have e8 : "\x7b\"block_height\":".length = 16 := by decide
  rw [e1, e2, e3, e4, e5, e6, e7, e8]
  omega

/-! ### The over-service bound of the scenario -/

theorem Scenario.bound_ten_one_three (platform : Float64 → Int) :
    overServiceBound platform 10 1 3 = 3 := by
  rw [overServiceBound_exact platform 10 1 3 (by norm_num) (by norm_num) (by norm_num)
    (by norm_num) (by norm_num) (by norm_num)]
  norm_num

theorem Scenario.store_count (entropies : List Int) :
    GetTotalProofs (Scenario.store entropies) Scenario.header = entropies.length := by
  simp [GetTotalProofs, Scenario.store]

theorem Scenario.relay_header (e : Int) :
    (Scenario.relay e).Proof.evidenceHeader = Scenario.header := rfl

/-! ### The valid relay of the scenario -/

theorem Scenario.bound_thousand_one_five (platform : Float64 → Int) :
    overServiceBound platform 1000 1 5 = 200 := by
  rw [overServiceBound_exact platform 1000 1 5 (by norm_num) (by norm_num) (by norm_num)
    (by norm_num) (by norm_num) (by norm_num)]
  norm_num

/-- The case "valid relay" of `TestRelay_Validate`: with an empty store, five
validators, session height 1 and five nodes per session the relay is accepted, and its
empty method becomes `POST`. -/
theorem Scenario.valid_relay_accepted :
    (Relay.Validate (Scenario.env ProofStore.empty) [] (Scenario.relay 1) Scenario.ctx
      Scenario.keeper Scenario.selfNode Scenario.hb 1 5 (Scenario.app 1000)).err = none
    ∧ (Relay.Validate (Scenario.env ProofStore.empty) [] (Scenario.relay 1) Scenario.ctx
      Scenario.keeper Scenario.selfNode Scenario.hb 1 5 (Scenario.app 1000)).relay.Payload.Method
        = "POST" := by
  have hbound : ¬ (GetTotalProofs (Scenario.env ProofStore.empty).proofs
      (Scenario.relay 1).Proof.evidenceHeader ≥ overServiceBound
        (Scenario.env ProofStore.empty).platformInt64
        (Scenario.app 1000).MaxRelays (Scenario.app 1000).Chains.length 5) := by
    show ¬ (GetTotalProofs ProofStore.empty (Scenario.relay 1).Proof.evidenceHeader
      ≥ overServiceBound _ 1000 1 5)
    rw [Scenario.bound_thousand_one_five]
    decide
  unfold RelayProof.evidenceHeader at hbound
  unfold Relay.Validate
  rw [if_neg (not_not.mpr (Scenario.relay_payload_valid 1))]
  simp only [Scenario.relay_meta_valid 1 ProofStore.empty]
  rw [if_neg (not_not.mpr (Scenario.relay_hash_matches 1))]
  simp only [Scenario.relay_chain_hosted 1]
  have hu : IsUniqueProof (Scenario.env ProofStore.empty).proofs
      ⟨(Scenario.relay 1).Proof.Token.ApplicationPublicKey, (Scenario.relay 1).Proof.Blockchain,
        (Scenario.relay 1).Proof.SessionBlockHeight⟩ (Scenario.relay 1).Proof = true := by
    decide
  simp only [hu, Bool.not_true, Bool.false_eq_true, if_false]
  rw [if_neg hbound]
  constructor <;> rfl

/-! ### The relay after `Relay.Validate` -/

/-- The relay left behind the receiver pointer by `Relay.Validate`: unchanged when an
error is returned, and with its empty method set to the default when nil is returned. -/
theorem Relay.Validate_relay {Cache : Type} (env : Env Cache) (cache : Cache) (r : Relay)
    (ctx : Ctx) (keeper : PosKeeper) (node : Validator) (hb : HostedBlockchains)
    (sbh N : Int) (app : Application) :
    ((Relay.Validate env cache r ctx keeper node hb sbh N app).err ≠ none →
      (Relay.Validate env cache r ctx keeper node hb sbh N app).relay = r)
    ∧ ((Relay.Validate env cache r ctx keeper node hb sbh N app).err = none →
        r.Payload.Method ≠ "" →
        (Relay.Validate env cache r ctx keeper node hb sbh N app).relay = r)
    ∧ ((Relay.Validate env cache r ctx keeper node hb sbh N app).err = none →
        r.Payload.Method = "" →
        (Relay.Validate env cache r ctx keeper node hb sbh N app).relay
          = { r with Payload := { r.Payload with Method := DEFAULTHTTPMETHOD } }) := by
  unfold Relay.Validate
  simp only
  repeat' split
  all_goals simp_all

/-! ### Trimming slashes -/

theorem rdropWhile_append_rtakeWhile {α : Type} (p : α → Bool) (l : List α) :
    l.rdropWhile p ++ l.rtakeWhile p = l := by
  unfold List.rdropWhile List.rtakeWhile
  rw [← List.reverse_append, List.takeWhile_append_dropWhile, List.reverse_reverse]

/-- What `strings.Trim(s, "/")` removes: `s` is its trimmed form between a prefix and
a suffix made of slashes only. -/
theorem trimSlashes_decompose (s : String) :
    ∃ a b : List Char, (∀ c ∈ a, c = '/') ∧ (∀ c ∈ b, c = '/')
      ∧ s.data = a ++ (trimSlashes s).data ++ b := by
  refine ⟨s.data.takeWhile (fun c => c = '/'),
    (s.data.dropWhile (fun c => c = '/')).rtakeWhile (fun c => c = '/'), ?_, ?_, ?_⟩
  · intro c hc
    simpa using List.mem_takeWhile_imp hc
  · intro c hc
    simpa using List.mem_rtakeWhile_imp hc
  · unfold trimSlashes
    simp only
    rw [List.append_assoc, rdropWhile_append_rtakeWhile, List.takeWhile_append_dropWhile]

/-- The trimmed form neither starts nor ends with a slash. -/
theorem trimSlashes_ends (s : String) :
    (trimSlashes s).data.head? ≠ some '/' ∧ (trimSlashes s).data.getLast? ≠ some '/' := by
  unfold trimSlashes
  simp only
  constructor
  · intro hh
    have hne : s.data.dropWhile (fun c => c = '/') ≠ [] := by
      intro he
      rw [he] at hh
      simp at hh
    have h1 := List.rdropWhile_prefix (fun c => decide (c = '/'))
      (s.data.dropWhile (fun c => c = '/'))
    obtain ⟨t, ht⟩ := h1
    have h2 : (List.dropWhile (fun c => decide (c = '/')) s.data).head? = some '/' := by
      rw [← ht]
      cases hc : List.rdropWhile (fun c => decide (c = '/'))
          (List.dropWhile (fun c => decide (c = '/')) s.data) with
      | nil => rw [hc] at hh; simp at hh
      | cons x xs => rw [hc] at hh; simpa using hh
    have h3 := List.head?_dropWhile_not (fun c => decide (c = '/')) s.data
    rw [h2] at h3
    simp at h3
  · intro hh
    have hne : List.rdropWhile (fun c => decide (c = '/'))
        (List.dropWhile (fun c => decide (c = '/')) s.data) ≠ [] := by
      intro he
      rw [he] at hh
      simp at hh
    have h1 := List.rdropWhile_last_not (fun c => decide (c = '/'))
      (List.dropWhile (fun c => decide (c = '/')) s.data) hne
    rw [List.getLast?_eq_getLast _ hne] at hh
    simp only [Option.some.injEq] at hh
    rw [hh] at h1
    simp at h1

/-! ### The request built by `executeHTTPRequest` -/

/-- The request that `executeHTTPRequest` hands to the client when it can be built. -/
theorem executeHTTPRequest_sent {F : Type} (env : ExecEnv F) (payload url method : String)
    (headers : Option (List (String × String)))
    (hreq : env.NewRequestError method url = none) :
    (executeHTTPRequest env payload url method headers).sent
      = some
          { Method := if method = "" then "GET" else method
            URL := url
            Body := payload
            Header :=
              if (headers.getD []).length = 0 then
                Header.Set [] "Content-Type" "application/json"
              else (headers.getD []).foldl (fun h e => Header.Set h e.1 e.2) [] } := by
  unfold executeHTTPRequest
  rw [hreq]
  simp only
  split
  · rfl
  · split_ifs <;> rfl

/-- The answer of `executeHTTPRequest` to an upstream response, when responses are not
sorted. -/
theorem executeHTTPRequest_response {F : Type} (env : ExecEnv F)
    (payload url method : String) (headers : Option (List (String × String)))
    (c : Int) (b : String)
    (hsort : env.globalSortJSONResponses = false)
    (hreq : env.NewRequestError method url = none)
    (hdo : ∀ req, env.Do req = Except.ok { StatusCode := c, Body := b }) :
    (c = 200 →
      (executeHTTPRequest env payload url method headers).res = b
      ∧ (executeHTTPRequest env payload url method headers).err = none)
    ∧ (c ≠ 200 →
      (executeHTTPRequest env payload url method headers).res = ""
      ∧ (executeHTTPRequest env payload url method headers).err
          = some (GoError.sdk (Error.HTTPStatusCode c))) := by
  unfold executeHTTPRequest
  rw [hreq]
  simp only [hdo, hsort]
  constructor
  · intro hc
    subst hc
    simp
  · intro hc
    simp [hc]

/-- `Relay.Execute` in terms of `executeHTTPRequest`, once the URL of the chain is
known. -/
theorem Relay.Execute_of_url {F : Type} (env : ExecEnv F) (r : Relay)
    (hb : HostedBlockchains) (u : String)
    (hurl : env.GetChainURL hb r.Proof.Blockchain = Except.ok u) :
    Relay.Execute env r hb =
      ⟨(executeHTTPRequest env r.Payload.Data
          (trimSlashes u ++ "/" ++ trimSlashes r.Payload.Path) r.Payload.Method
          r.Payload.Headers).res,
        (executeHTTPRequest env r.Payload.Data
          (trimSlashes u ++ "/" ++ trimSlashes r.Payload.Path) r.Payload.Method
          r.Payload.Headers).err.map (fun er => Error.HTTPExecution (er.text env)),
        (executeHTTPRequest env r.Payload.Data
          (trimSlashes u ++ "/" ++ trimSlashes r.Payload.Path) r.Payload.Method
          r.Payload.Headers).sent⟩ := by
  unfold Relay.Execute
  simp only [hurl]
  cases (executeHTTPRequest env r.Payload.Data
    (trimSlashes u ++ "/" ++ trimSlashes r.Payload.Path) r.Payload.Method
    r.Payload.Headers).err <;> rfl

theorem Scenario.execute_url (status : Int) (body path : String) :
    (Scenario.execEnv status body).GetChainURL Scenario.hbExecute
      (Scenario.executeRelay path).Proof.Blockchain
      = Except.ok "https://server.com/relay/" := by
  rfl

/-! ### Strings of the JSON encoder read back by the decoder -/

theorem hexVal_hexDigit (k : Nat) (hk : k < 16) : hexVal (hexDigit k) = some k := by
  interval_cases k <;> rfl

theorem char_eq_of_toNat {c : Char} {n : Nat} (h : c.toNat = n) : c = Char.ofNat n := by
  rw [← h, Char.ofNat_toNat]

theorem decodeString_backslash (fuel : Nat) (cs : List Char) :
    decodeString (fuel + 1) (Char.ofNat 92 :: cs)
      = (decodeEscape cs).bind fun e =>
          (decodeString fuel e.2).map fun p => (e.1 :: p.1, p.2) := rfl

theorem decodeUnicode_low (n : Nat) (hn : n < 64) (t : List Char) :
    decodeUnicode ('0' :: '0' :: hexDigit (n / 16) :: hexDigit (n % 16) :: t)
      = some (Char.ofNat n, t) := by
  have e1 := hexVal_hexDigit (n / 16) (by omega)
  have e2 := hexVal_hexDigit (n % 16) (by omega)
  have e0 : hexVal '0' = some 0 := rfl
  have hval : ((0 * 16 + 0) * 16 + n / 16) * 16 + n % 16 = n := by omega
  have hsur : isSurrogate n = false := by
    unfold isSurrogate
    simp
    omega
  simp only [decodeUnicode, hex4, e0, e1, e2, hval, hsur]
  rfl

/-- The decoder reads the escape of one character back as that character. -/
theorem decodeString_escapeChar (c : Char) (t : List Char) (fuel : Nat) :
    decodeString (fuel + 1) (jsonEscapeChar c ++ t)
      = (decodeString fuel t).map fun p => (c :: p.1, p.2) := by
  unfold jsonEscapeChar
  simp only
  split_ifs with h1 h2 h3 h4 h5 h6 h7 h8
  · have hc := char_eq_of_toNat h1
    subst hc
    rfl
  · have hc := char_eq_of_toNat h2
    subst hc
    rfl
  · have hc := char_eq_of_toNat h3
    subst hc
    rfl
  · have hc := char_eq_of_toNat h4
    subst hc
    rfl
  · have hc := char_eq_of_toNat h5
    subst hc
    rfl
  · have hn : c.toNat < 64 := by omega
    show decodeString (fuel + 1) (Char.ofNat 92 :: 'u' :: '0' :: '0'
      :: hexDigit (c.toNat / 16) :: hexDigit (c.toNat % 16) :: t) = _
    rw [decodeString_backslash]
    show (decodeUnicode ('0' :: '0' :: hexDigit (c.toNat / 16)
      :: hexDigit (c.toNat % 16) :: t)).bind (fun e =>
        (decodeString fuel e.2).map fun p => (e.1 :: p.1, p.2)) = _
    rw [decodeUnicode_low c.toNat hn t, Char.ofNat_toNat]
    rfl
  · have hc := char_eq_of_toNat h7
    subst hc
    rfl
  · have hc := char_eq_of_toNat h8
    subst hc
    rfl
  · have q1 : ¬ (c = quoteChar) := by
      intro hq
      apply h1
      rw [hq]
      rfl
    have q2 : ¬ (c = backslashChar) := by
      intro hq
      apply h2
      rw [hq]
      rfl
    have q3 : ¬ (c.toNat < 32) := by omega
    show decodeString (fuel + 1) (c :: t) = _
    simp only [decodeString, q1, q2, q3, if_false]

/-- The decoder reads an escaped string back, up to its closing quote. -/
theorem decodeString_escape (s : List Char) (t : List Char) (fuel : Nat)
    (hf : s.length < fuel) :
    decodeString fuel (s.flatMap jsonEscapeChar ++ quoteChar :: t) = some (s, t) := by
  induction s generalizing fuel with
  | nil =>
    obtain ⟨f, rfl⟩ : ∃ f, fuel = f + 1 := ⟨fuel - 1, by simp at hf; omega⟩
    rfl
  | cons c cs ih =>
    obtain ⟨f, rfl⟩ : ∃ f, fuel = f + 1 := ⟨fuel - 1, by simp at hf; omega⟩
    simp only [List.flatMap_cons, List.append_assoc]
    rw [decodeString_escapeChar, ih f (by simp at hf; omega)]
    rfl

theorem jsonEscapeChar_length_pos (c : Char) : 1 ≤ (jsonEscapeChar c).length := by
  unfold jsonEscapeChar
  simp only
  split_ifs <;> simp

theorem escape_length_ge (s : List Char) : s.length ≤ (s.flatMap jsonEscapeChar).length := by
  induction s with
  | nil => simp
  | cons c cs ih =>
    have h := jsonEscapeChar_length_pos c
    simp only [List.flatMap_cons, List.length_cons, List.length_append]
    omega

/-! ### Values of the JSON encoder read back by the decoder -/

theorem skipSpace_cons {c : Char} (h : isSpace c = false) (t : List Char) :
    skipSpace (c :: t) = c :: t := by
  unfold skipSpace
  rw [List.dropWhile_cons, if_neg (by simp [h])]

theorem lexNumber_head {c : Char} {t : List Char} {r : List Char × List Char}
    (h : lexNumber (c :: t) = some r) : c = '-' ∨ isDigit c = true := by
  by_cases hm : c = '-'
  · exact Or.inl hm
  · right
    simp only [lexNumber, hm, if_false, lexUnsigned] at h
    cases hi : lexInt (c :: t) with
    | none => rw [hi] at h; cases h
    | some p =>
      simp only [lexInt] at hi
      by_cases h0 : c = '0'
      · rw [h0]; rfl
      · rw [if_neg h0] at hi
        by_cases hd : isDigit c = true
        · exact hd
        · rw [if_neg hd] at hi; cases hi

/-- The first character of a number literal is no white space and starts no other
kind of value. -/
theorem numberHead_facts {c : Char} (h : c = '-' ∨ isDigit c = true) :
    isSpace c = false ∧ c ≠ quoteChar ∧ c ≠ '[' ∧ c ≠ lbraceChar ∧ c ≠ 't' ∧ c ≠ 'f'
      ∧ c ≠ 'n' := by
  rcases h with h | h
  · subst h
    decide
  · have hd : 48 ≤ c.toNat ∧ c.toNat ≤ 57 := by
      unfold isDigit at h
      simpa using h
    have hne : ∀ d : Char, (d.toNat < 48 ∨ 57 < d.toNat) → c ≠ d := by
      intro d hdd hcd
      rw [hcd] at hd
      omega
    refine ⟨?_, hne _ (by decide), hne _ (by decide), hne _ (by decide), hne _ (by decide),
      hne _ (by decide), hne _ (by decide)⟩
    unfold isSpace
    have h1 := hne (Char.ofNat 32) (by decide)
    have h2 := hne (Char.ofNat 9) (by decide)
    have h3 := hne (Char.ofNat 13) (by decide)
    have h4 := hne (Char.ofNat 10) (by decide)
    simp [h1, h2, h3, h4]

/-- The text written for a float starts with a minus sign or a digit. -/
theorem NumberCodec.Lawful.format_head {F : Type} {codec : NumberCodec F}
    (hc : codec.Lawful) (f : F) :
    ∃ c t, codec.format f = c :: t ∧ (c = '-' ∨ isDigit c = true) := by
  have h := (hc f [] (Or.inl rfl)).1
  rw [List.append_nil] at h
  cases hf : codec.format f with
  | nil =>
    rw [hf] at h
    cases h
  | cons c t =>
    rw [hf] at h
    exact ⟨c, t, rfl, lexNumber_head h⟩

/-- The decoder reads the text of a float back as the float. -/
theorem parseValue_number {F : Type} (codec : NumberCodec F) (hc : codec.Lawful) (f : F)
    (fuel : Nat) (rest : List Char) (hb : Boundary rest) :
    parseValue codec (fuel + 1) (codec.format f ++ rest) = some (JSONValue.number f, rest) := by
  obtain ⟨c, t, hct, hhead⟩ := hc.format_head f
  obtain ⟨hs, h1, h2, h3, h4, h5, h6⟩ := numberHead_facts hhead
  have hl := hc f rest hb
  rw [hct] at hl
  rw [hct]
  simp only [List.cons_append]
  rw [parseValue, skipSpace_cons hs]
  simp only [h1, h2, h3, h4, h5, h6, if_false]
  rw [← List.cons_append, hl.1]
  simp only [hl.2]

theorem parseValue_string {F : Type} (codec : NumberCodec F) (s : List Char) (fuel : Nat)
    (rest : List Char) :
    parseValue codec (fuel + 1) (quoteChar :: (s.flatMap jsonEscapeChar ++ quoteChar :: rest))
      = some (JSONValue.string (String.mk s), rest) := by
  rw [parseValue, skipSpace_cons (by decide)]
  simp only [if_true]
  rw [decodeString_escape s rest _ (by
    have h := escape_length_ge s
    simp only [List.length_append, List.length_cons]
    omega)]

theorem parseMember_step {F : Type} (codec : NumberCodec F) (k : List Char) (fuel : Nat)
    (text rest : List Char) (v : JSONValue F)
    (hv : parseValue codec fuel text = some (v, rest)) :
    parseMember codec (fuel + 1)
        (quoteChar :: (k.flatMap jsonEscapeChar ++ quoteChar :: ':' :: text))
      = some ((String.mk k, v), rest) := by
  rw [parseMember, skipSpace_cons (by decide)]
  simp only [if_true]
  rw [decodeString_escape k (':' :: text) _ (by
    have h := escape_length_ge k
    simp only [List.length_append, List.length_cons]
    omega)]
  simp only
  rw [skipSpace_cons (by decide)]
  simp only [if_true, hv]

theorem parseValue_array_step {F : Type} (codec : NumberCodec F) (fuel : Nat) (c : Char)
    (t r1 r2 : List Char) (v : JSONValue F) (l : List (JSONValue F))
    (hs : isSpace c = false) (hc : c ≠ ']')
    (hv : parseValue codec fuel (c :: t) = some (v, r1))
    (ht : parseArrayTail codec fuel r1 = some (l, r2)) :
    parseValue codec (fuel + 1) ('[' :: c :: t) = some (JSONValue.array (v :: l), r2) := by
  rw [parseValue, skipSpace_cons (by decide)]
  have q : ¬ ('[' = quoteChar) := by decide
  simp only [q, if_true, if_false]
  rw [skipSpace_cons hs]
  simp only [hc, if_false, hv, ht]

theorem parseArrayTail_step {F : Type} (codec : NumberCodec F) (fuel : Nat)
    (text r1 r2 : List Char) (v : JSONValue F) (l : List (JSONValue F))
    (hv : parseValue codec fuel text = some (v, r1))
    (ht : parseArrayTail codec fuel r1 = some (l, r2)) :
    parseArrayTail codec (fuel + 1) (',' :: text) = some (v :: l, r2) := by
  rw [parseArrayTail, skipSpace_cons (by decide)]
  simp only [if_true, hv, ht]

theorem parseValue_object_step {F : Type} (codec : NumberCodec F) (fuel : Nat)
    (t r1 r2 : List Char) (m : String × JSONValue F) (l : List (String × JSONValue F))
    (hm : parseMember codec fuel (quoteChar :: t) = some (m, r1))
    (ht : parseObjectTail codec fuel r1 = some (l, r2)) :
    parseValue codec (fuel + 1) (lbraceChar :: quoteChar :: t)
      = some (JSONValue.object (m :: l), r2) := by
  rw [parseValue, skipSpace_cons (by decide)]
  have q1 : ¬ (lbraceChar = quoteChar) := by decide
  have q2 : ¬ (lbraceChar = '[') := by decide
  have q3 : ¬ (quoteChar = rbraceChar) := by decide
  simp only [q1, q2, if_true, if_false]
  rw [skipSpace_cons (by decide)]
  simp only [q3, if_false, hm, ht]

theorem parseObjectTail_step {F : Type} (codec : NumberCodec F) (fuel : Nat)
    (text r1 r2 : List Char) (m : String × JSONValue F) (l : List (String × JSONValue F))
    (hm : parseMember codec fuel text = some (m, r1))
    (ht : parseObjectTail codec fuel r1 = some (l, r2)) :
    parseObjectTail codec (fuel + 1) (',' :: text) = some (m :: l, r2) := by
  rw [parseObjectTail, skipSpace_cons (by decide)]
  simp only [if_true, hm, ht]

/-- Go's map assignment leaves members with distinct keys as they are. -/
theorem lastWins_of_nodup {α : Type} (l : List (String × α))
    (h : (l.map Prod.fst).Nodup) : lastWins l = l := by
  induction l with
  | nil => rfl
  | cons e t ih =>
    rw [List.map_cons, List.nodup_cons] at h
    have hany : t.any (fun x => decide (x.1 = e.1)) = false := by
      rw [Bool.eq_false_iff]
      intro hc
      rw [List.any_eq_true] at hc
      obtain ⟨x, hx, hxe⟩ := hc
      apply h.1
      rw [List.mem_map]
      exact ⟨x, hx, by simpa using hxe⟩
    simp only [lastWins, hany, ih h.2]
    simp

theorem numberHead_ne_bracket {c : Char} (h : c = '-' ∨ isDigit c = true) : c ≠ ']' := by
  rcases h with h | h
  · subst h
    decide
  · have hd : 48 ≤ c.toNat ∧ c.toNat ≤ 57 := by
      unfold isDigit at h
      simpa using h
    intro hcd
    rw [hcd] at hd
    revert hd
    decide

/-- The text of a value starts with a character that is no white space and no closing
bracket. -/
theorem JSONValue.print_head {F : Type} (codec : NumberCodec F) (hc : codec.Lawful)
    (v : JSONValue F) :
    ∃ c t, v.print codec = c :: t ∧ isSpace c = false ∧ c ≠ ']' := by
  cases v with
  | null => exact ⟨'n', _, rfl, by decide, by decide⟩
  | bool b =>
    cases b
    · exact ⟨'f', _, rfl, by decide, by decide⟩
    · exact ⟨'t', _, rfl, by decide, by decide⟩
  | number f =>
    obtain ⟨c, t, hct, hhead⟩ := hc.format_head f
    exact ⟨c, t, by rw [JSONValue.print, hct], (numberHead_facts hhead).1,
      numberHead_ne_bracket hhead⟩
  | string s => exact ⟨quoteChar, _, rfl, by decide, by decide⟩
  | array l =>
    cases l with
    | nil => exact ⟨'[', _, rfl, by decide, by decide⟩
    | cons v t => exact ⟨'[', _, by rw [JSONValue.print], by decide, by decide⟩
  | object l =>
    cases l with
    | nil => exact ⟨lbraceChar, _, rfl, by decide, by decide⟩
    | cons m t =>
      obtain ⟨k, v⟩ := m
      exact ⟨lbraceChar, _, by rw [JSONValue.print], by decide, by decide⟩

theorem JSONValue.printArrayTail_boundary {F : Type} (codec : NumberCodec F)
    (l : List (JSONValue F)) (rest : List Char) :
    Boundary (JSONValue.printArrayTail codec l ++ rest) := by
  cases l with
  | nil => exact Or.inr ⟨']', rest, rfl, Or.inr (Or.inl rfl)⟩
  | cons v t => exact Or.inr ⟨',', _, by rw [JSONValue.printArrayTail]; rfl, Or.inl rfl⟩

theorem JSONValue.printObjectTail_boundary {F : Type} (codec : NumberCodec F)
    (l : List (String × JSONValue F)) (rest : List Char) :
    Boundary (JSONValue.printObjectTail codec l ++ rest) := by
  cases l with
  | nil => exact Or.inr ⟨rbraceChar, rest, rfl, Or.inr (Or.inr rfl)⟩
  | cons m t =>
    obtain ⟨k, v⟩ := m
    exact Or.inr ⟨',', _, by rw [JSONValue.printObjectTail]; rfl, Or.inl rfl⟩

mutual
/-- The decoder reads the compact text of a value back as the value, with any bound
on the nesting that is twice the length of the text. -/
theorem parseValue_print {F : Type} (codec : NumberCodec F) (hc : codec.Lawful) :
    ∀ (v : JSONValue F) (fuel : Nat) (rest : List Char),
      2 * (v.print codec).length ≤ fuel → Boundary rest →
      parseValue codec fuel (v.print codec ++ rest) = some (v, rest)
  | JSONValue.null, fuel, rest, hf, _ => by
    obtain ⟨f, rfl⟩ : ∃ f, fuel = f + 1 :=
      ⟨fuel - 1, by simp [JSONValue.print] at hf; omega⟩
    rfl
  | JSONValue.bool true, fuel, rest, hf, _ => by
    obtain ⟨f, rfl⟩ : ∃ f, fuel = f + 1 :=
      ⟨fuel - 1, by simp [JSONValue.print] at hf; omega⟩
    rfl
  | JSONValue.bool false, fuel, rest, hf, _ => by
    obtain ⟨f, rfl⟩ : ∃ f, fuel = f + 1 :=
      ⟨fuel - 1, by simp [JSONValue.print] at hf; omega⟩
    rfl
  | JSONValue.number x, fuel, rest, hf, hb => by
    obtain ⟨c, t, hct, _⟩ := hc.format_head x
    obtain ⟨f, rfl⟩ : ∃ f, fuel = f + 1 :=
      ⟨fuel - 1, by simp [JSONValue.print, hct] at hf; omega⟩
    exact parseValue_number codec hc x f rest hb
  | JSONValue.string s, fuel, rest, hf, _ => by
    obtain ⟨f, rfl⟩ : ∃ f, fuel = f + 1 :=
      ⟨fuel - 1, by simp [JSONValue.print] at hf; omega⟩
    have h := parseValue_string codec s.data f rest
    simp only [JSONValue.print, List.cons_append, List.append_assoc, List.singleton_append]
    exact h
  | JSONValue.array [], fuel, rest, hf, _ => by
    obtain ⟨f, rfl⟩ : ∃ f, fuel = f + 1 :=
      ⟨fuel - 1, by simp [JSONValue.print] at hf; omega⟩
    rfl
  | JSONValue.array (v :: t), fuel, rest, hf, _ => by
    simp only [JSONValue.print, List.length_cons, List.length_append] at hf
    obtain ⟨f, rfl⟩ : ∃ f, fuel = f + 1 := ⟨fuel - 1, by omega⟩
    obtain ⟨c, tl, hct, hs, hne⟩ := JSONValue.print_head codec hc v
    have hv := parseValue_print codec hc v f
      (JSONValue.printArrayTail codec t ++ rest) (by omega)
      (JSONValue.printArrayTail_boundary codec t rest)
    have ht := parseArrayTail_print codec hc t f rest (by omega)
    simp only [JSONValue.print, List.cons_append, List.append_assoc]
    rw [hct] at hv ⊢
    exact parseValue_array_step codec f c _ _ rest v t hs hne hv ht
  | JSONValue.object [], fuel, rest, hf, _ => by
    obtain ⟨f, rfl⟩ : ∃ f, fuel = f + 1 :=
      ⟨fuel - 1, by simp [JSONValue.print] at hf; omega⟩
    rfl
  | JSONValue.object ((k, v) :: t), fuel, rest, hf, _ => by
    simp only [JSONValue.print, List.length_cons, List.length_append] at hf
    obtain ⟨f, rfl⟩ : ∃ f, fuel = f + 1 := ⟨fuel - 1, by omega⟩
    obtain ⟨f2, rfl⟩ : ∃ f2, f = f2 + 1 := ⟨f - 1, by omega⟩
    have hv := parseValue_print codec hc v f2
      (JSONValue.printObjectTail codec t ++ rest) (by omega)
      (JSONValue.printObjectTail_boundary codec t rest)
    have hm := parseMember_step codec k.data f2 _ _ v hv
    have ht := parseObjectTail_print codec hc t (f2 + 1) rest (by omega)
    have hstep := parseValue_object_step codec (f2 + 1) _ _ rest _ t hm ht
    simp only [JSONValue.print, List.cons_append, List.append_assoc]
    exact hstep
/-- The decoder reads the text of the remaining elements of an array back. -/
theorem parseArrayTail_print {F : Type} (codec : NumberCodec F) (hc : codec.Lawful) :
    ∀ (l : List (JSONValue F)) (fuel : Nat)
      (rest : List Char), 2 * (JSONValue.printArrayTail codec l).length ≤ fuel →
      parseArrayTail codec fuel (JSONValue.printArrayTail codec l ++ rest) = some (l, rest)
  | [], fuel, rest, hf => by
    obtain ⟨f, rfl⟩ : ∃ f, fuel = f + 1 :=
      ⟨fuel - 1, by simp [JSONValue.printArrayTail] at hf; omega⟩
    rfl
  | v :: t, fuel, rest, hf => by
    simp only [JSONValue.printArrayTail, List.length_cons, List.length_append] at hf
    obtain ⟨f, rfl⟩ : ∃ f, fuel = f + 1 := ⟨fuel - 1, by omega⟩
    have hv := parseValue_print codec hc v f
      (JSONValue.printArrayTail codec t ++ rest) (by omega)
      (JSONValue.printArrayTail_boundary codec t rest)
    have ht := parseArrayTail_print codec hc t f rest (by omega)
    simp only [JSONValue.printArrayTail, List.cons_append, List.append_assoc]
    exact parseArrayTail_step codec f _ _ rest v t hv ht
/-- The decoder reads the text of the remaining members of an object back. -/
theorem parseObjectTail_print {F : Type} (codec : NumberCodec F) (hc : codec.Lawful) :
    ∀ (l : List (String × JSONValue F)) (fuel : Nat)
      (rest : List Char), 2 * (JSONValue.printObjectTail codec l).length ≤ fuel →
      parseObjectTail codec fuel (JSONValue.printObjectTail codec l ++ rest) = some (l, rest)
  | [], fuel, rest, hf => by
    obtain ⟨f, rfl⟩ : ∃ f, fuel = f + 1 :=
      ⟨fuel - 1, by simp [JSONValue.printObjectTail] at hf; omega⟩
    rfl
  | (k, v) :: t, fuel, rest, hf => by
    simp only [JSONValue.printObjectTail, List.length_cons, List.length_append] at hf
    obtain ⟨f, rfl⟩ : ∃ f, fuel = f + 1 := ⟨fuel - 1, by omega⟩
    obtain ⟨f2, rfl⟩ : ∃ f2, f = f2 + 1 := ⟨f - 1, by omega⟩
    have hv := parseValue_print codec hc v f2
      (JSONValue.printObjectTail codec t ++ rest) (by omega)
      (JSONValue.printObjectTail_boundary codec t rest)
    have hm := parseMember_step codec k.data f2 _ _ v hv
    have ht := parseObjectTail_print codec hc t (f2 + 1) rest (by omega)
    simp only [JSONValue.printObjectTail, List.cons_append, List.append_assoc]
    exact parseObjectTail_step codec (f2 + 1) _ _ rest _ t hm ht
end

/-! ### Sorting the keys of a decoded value -/

instance keyOrderTotal {α : Type} : IsTotal (String × α) (fun a b => a.1 ≤ b.1) :=
  ⟨fun a b => le_total a.1 b.1⟩

instance keyOrderTrans {α : Type} : IsTrans (String × α) (fun a b => a.1 ≤ b.1) :=
  ⟨fun _ _ _ h1 h2 => le_trans h1 h2⟩

theorem JSONValue.sortKeysList_eq_map {F : Type} (l : List (JSONValue F)) :
    JSONValue.sortKeysList l = l.map JSONValue.sortKeys := by
  induction l with
  | nil => rfl
  | cons v t ih => rw [JSONValue.sortKeysList, ih, List.map_cons]

theorem JSONValue.sortKeysMembers_eq_map {F : Type} (l : List (String × JSONValue F)) :
    JSONValue.sortKeysMembers l = l.map (fun e => (e.1, JSONValue.sortKeys e.2)) := by
  induction l with
  | nil => rfl
  | cons e t ih =>
    obtain ⟨k, v⟩ := e
    rw [JSONValue.sortKeysMembers, ih, List.map_cons]

/-- Rewriting the values of the members commutes with sorting the members by key. -/
theorem insertionSort_map_values {α : Type} (g : α → α) (l : List (String × α)) :
    (l.insertionSort (fun a b => a.1 ≤ b.1)).map (fun e => (e.1, g e.2))
      = (l.map (fun e => (e.1, g e.2))).insertionSort (fun a b => a.1 ≤ b.1) :=
  List.map_insertionSort (fun a b => a.1 ≤ b.1) (fun a b => a.1 ≤ b.1)
    (fun e => (e.1, g e.2)) l (fun _ _ _ _ => Iff.rfl)

theorem insertionSort_idem {α : Type} (l : List (String × α)) :
    (l.insertionSort (fun a b => a.1 ≤ b.1)).insertionSort (fun a b => a.1 ≤ b.1)
      = l.insertionSort (fun a b => a.1 ≤ b.1) :=
  List.Sorted.insertionSort_eq (List.sorted_insertionSort _ l)

mutual
/-- Sorting the keys of a value whose keys are sorted changes nothing. -/
theorem JSONValue.sortKeys_idem {F : Type} :
    ∀ v : JSONValue F, v.sortKeys.sortKeys = v.sortKeys
  | JSONValue.null => rfl
  | JSONValue.bool _ => rfl
  | JSONValue.number _ => rfl
  | JSONValue.string _ => rfl
  | JSONValue.array l => by
    rw [JSONValue.sortKeys, JSONValue.sortKeys, JSONValue.sortKeysList_idem l]
  | JSONValue.object l => by
    rw [JSONValue.sortKeys, JSONValue.sortKeys]
    congr 1
    rw [JSONValue.sortKeysMembers_eq_map
      ((JSONValue.sortKeysMembers l).insertionSort (fun a b => a.1 ≤ b.1)),
      insertionSort_map_values, ← JSONValue.sortKeysMembers_eq_map,
      JSONValue.sortKeysMembers_idem l, insertionSort_idem]
theorem JSONValue.sortKeysList_idem {F : Type} :
    ∀ l : List (JSONValue F),
      JSONValue.sortKeysList (JSONValue.sortKeysList l) = JSONValue.sortKeysList l
  | [] => rfl
  | v :: t => by
    rw [JSONValue.sortKeysList, JSONValue.sortKeysList, JSONValue.sortKeys_idem v,
      JSONValue.sortKeysList_idem t]
theorem JSONValue.sortKeysMembers_idem {F : Type} :
    ∀ l : List (String × JSONValue F),
      JSONValue.sortKeysMembers (JSONValue.sortKeysMembers l) = JSONValue.sortKeysMembers l
  | [] => rfl
  | (k, v) :: t => by
    rw [JSONValue.sortKeysMembers, JSONValue.sortKeysMembers, JSONValue.sortKeys_idem v,
      JSONValue.sortKeysMembers_idem t]
end

theorem JSONValue.keysDistinctList_iff {F : Type} (l : List (JSONValue F)) :
    JSONValue.KeysDistinctList l ↔ ∀ v ∈ l, JSONValue.KeysDistinct v := by
  induction l with
  | nil => simp [JSONValue.KeysDistinctList]
  | cons v t ih => simp [JSONValue.KeysDistinctList, ih]

theorem JSONValue.keysDistinctMembers_iff {F : Type} (l : List (String × JSONValue F)) :
    JSONValue.KeysDistinctMembers l ↔ ∀ e ∈ l, JSONValue.KeysDistinct e.2 := by
  induction l with
  | nil => simp [JSONValue.KeysDistinctMembers]
  | cons e t ih =>
    obtain ⟨k, v⟩ := e
    simp [JSONValue.KeysDistinctMembers, ih]

theorem JSONValue.sortKeysMembers_keys {F : Type} (l : List (String × JSONValue F)) :
    (JSONValue.sortKeysMembers l).map Prod.fst = l.map Prod.fst := by
  rw [JSONValue.sortKeysMembers_eq_map, List.map_map]
  rfl

mutual
/-- Sorting the keys keeps the keys of every object distinct. -/
theorem JSONValue.KeysDistinct.sortKeys {F : Type} :
    ∀ v : JSONValue F, v.KeysDistinct → v.sortKeys.KeysDistinct
  | JSONValue.null, h => h
  | JSONValue.bool _, h => h
  | JSONValue.number _, h => h
  | JSONValue.string _, h => h
  | JSONValue.array l, h => by
    rw [JSONValue.sortKeys, JSONValue.KeysDistinct]
    rw [JSONValue.KeysDistinct] at h
    exact JSONValue.KeysDistinct.sortKeysList l h
  | JSONValue.object l, h => by
    rw [JSONValue.sortKeys, JSONValue.KeysDistinct]
    rw [JSONValue.KeysDistinct] at h
    have hperm := List.perm_insertionSort (fun (a b : String × JSONValue F) => a.1 ≤ b.1)
      (JSONValue.sortKeysMembers l)
    constructor
    · rw [(hperm.map Prod.fst).nodup_iff, JSONValue.sortKeysMembers_keys]
      exact h.1
    · have hm := JSONValue.KeysDistinct.sortKeysMembers l h.2
      rw [JSONValue.keysDistinctMembers_iff] at hm ⊢
      intro e he
      exact hm e (hperm.mem_iff.mp he)
theorem JSONValue.KeysDistinct.sortKeysList {F : Type} :
    ∀ l : List (JSONValue F), JSONValue.KeysDistinctList l →
      JSONValue.KeysDistinctList (JSONValue.sortKeysList l)
  | [], h => h
  | v :: t, h => by
    rw [JSONValue.sortKeysList, JSONValue.KeysDistinctList]
    rw [JSONValue.KeysDistinctList] at h
    exact ⟨JSONValue.KeysDistinct.sortKeys v h.1, JSONValue.KeysDistinct.sortKeysList t h.2⟩
theorem JSONValue.KeysDistinct.sortKeysMembers {F : Type} :
    ∀ l : List (String × JSONValue F), JSONValue.KeysDistinctMembers l →
      JSONValue.KeysDistinctMembers (JSONValue.sortKeysMembers l)
  | [], h => h
  | (k, v) :: t, h => by
    rw [JSONValue.sortKeysMembers, JSONValue.KeysDistinctMembers]
    rw [JSONValue.KeysDistinctMembers] at h
    exact ⟨JSONValue.KeysDistinct.sortKeys v h.1,
      JSONValue.KeysDistinct.sortKeysMembers t h.2⟩
end

/-! ### Decoded values have distinct keys -/

theorem lastWins_sublist {α : Type} (l : List (String × α)) : (lastWins l).Sublist l := by
  induction l with
  | nil => exact List.Sublist.slnil
  | cons e t ih =>
    rw [lastWins]
    split_ifs
    · exact ih.cons e
    · exact ih.cons₂ e

theorem lastWins_nodup {α : Type} (l : List (String × α)) :
    ((lastWins l).map Prod.fst).Nodup := by
  induction l with
  | nil => exact List.nodup_nil
  | cons e t ih =>
    rw [lastWins]
    split_ifs with h
    · exact ih
    · rw [List.map_cons, List.nodup_cons]
      refine ⟨?_, ih⟩
      intro hmem
      apply h
      rw [List.mem_map] at hmem
      obtain ⟨x, hx, hxe⟩ := hmem
      rw [List.any_eq_true]
      exact ⟨x, (lastWins_sublist t).subset hx, by simpa using hxe⟩

/-! ### Values held in an `interface{}` have distinct keys -/

/-- The members of an object as `interface{}` values, as a map over the list. -/
theorem JSONValue.toInterfaceMembers_eq_map {F : Type} (l : List (String × JSONValue F)) :
    JSONValue.toInterfaceMembers l = l.map (fun e => (e.1, JSONValue.toInterface e.2)) := by
  induction l with
  | nil => rfl
  | cons e t ih =>
    obtain ⟨k, v⟩ := e
    rw [JSONValue.toInterfaceMembers, ih, List.map_cons]

mutual
/-- Every object of a value held in an `interface{}` has distinct keys. -/
theorem JSONValue.toInterface_keysDistinct {F : Type} :
    ∀ v : JSONValue F, v.toInterface.KeysDistinct
  | JSONValue.null => trivial
  | JSONValue.bool _ => trivial
  | JSONValue.number _ => trivial
  | JSONValue.string _ => trivial
  | JSONValue.array l => by
    rw [JSONValue.toInterface, JSONValue.KeysDistinct]
    exact JSONValue.toInterfaceList_keysDistinct l
  | JSONValue.object l => by
    rw [JSONValue.toInterface, JSONValue.KeysDistinct]
    refine ⟨lastWins_nodup _, ?_⟩
    have hm := JSONValue.toInterfaceMembers_keysDistinct l
    rw [JSONValue.keysDistinctMembers_iff] at hm ⊢
    exact fun e he => hm e ((lastWins_sublist _).subset he)
theorem JSONValue.toInterfaceList_keysDistinct {F : Type} :
    ∀ l : List (JSONValue F), JSONValue.KeysDistinctList (JSONValue.toInterfaceList l)
  | [] => trivial
  | v :: t => by
    rw [JSONValue.toInterfaceList, JSONValue.KeysDistinctList]
    exact ⟨JSONValue.toInterface_keysDistinct v, JSONValue.toInterfaceList_keysDistinct t⟩
theorem JSONValue.toInterfaceMembers_keysDistinct {F : Type} :
    ∀ l : List (String × JSONValue F),
      JSONValue.KeysDistinctMembers (JSONValue.toInterfaceMembers l)
  | [] => trivial
  | (k, v) :: t => by
    rw [JSONValue.toInterfaceMembers, JSONValue.KeysDistinctMembers]
    exact ⟨JSONValue.toInterface_keysDistinct v,
      JSONValue.toInterfaceMembers_keysDistinct t⟩
end

mutual
/-- A value whose objects have distinct keys is held in an `interface{}` as it is. -/
theorem JSONValue.toInterface_of_keysDistinct {F : Type} :
    ∀ v : JSONValue F, v.KeysDistinct → v.toInterface = v
  | JSONValue.null, _ => rfl
  | JSONValue.bool _, _ => rfl
  | JSONValue.number _, _ => rfl
  | JSONValue.string _, _ => rfl
  | JSONValue.array l, h => by
    rw [JSONValue.KeysDistinct] at h
    rw [JSONValue.toInterface, JSONValue.toInterfaceList_of_keysDistinct l h]
  | JSONValue.object l, h => by
    rw [JSONValue.KeysDistinct] at h
    rw [JSONValue.toInterface, JSONValue.toInterfaceMembers_of_keysDistinct l h.2,
      lastWins_of_nodup l h.1]
theorem JSONValue.toInterfaceList_of_keysDistinct {F : Type} :
    ∀ l : List (JSONValue F), JSONValue.KeysDistinctList l →
      JSONValue.toInterfaceList l = l
  | [], _ => rfl
  | v :: t, h => by
    rw [JSONValue.KeysDistinctList] at h
    rw [JSONValue.toInterfaceList, JSONValue.toInterface_of_keysDistinct v h.1,
      JSONValue.toInterfaceList_of_keysDistinct t h.2]
theorem JSONValue.toInterfaceMembers_of_keysDistinct {F : Type} :
    ∀ l : List (String × JSONValue F), JSONValue.KeysDistinctMembers l →
      JSONValue.toInterfaceMembers l = l
  | [], _ => rfl
  | (k, v) :: t, h => by
    rw [JSONValue.KeysDistinctMembers] at h
    rw [JSONValue.toInterfaceMembers, JSONValue.toInterface_of_keysDistinct v h.1,
      JSONValue.toInterfaceMembers_of_keysDistinct t h.2]
end

/-! ### Sorting twice -/

/-- Decoding the compact text of a value gives the value back. -/
theorem parseJSON_print {F : Type} (codec : NumberCodec F) (hc : codec.Lawful)
    (v : JSONValue F) : parseJSON codec (v.print codec) = some v := by
  have h := parseValue_print codec hc v (parseFuel (v.print codec).length) []
    (by unfold parseFuel; omega) (Or.inl rfl)
  rw [List.append_nil] at h
  unfold parseJSON
  rw [h]
  rfl

/-- A text decoded into an `interface{}` has distinct keys in every object. -/
theorem decodeInterface_keysDistinct {F : Type} (codec : NumberCodec F) (text : List Char)
    (v : JSONValue F) (h : decodeInterface codec text = some v) : v.KeysDistinct := by
  unfold decodeInterface at h
  cases hp : parseJSON codec text with
  | none => rw [hp] at h; cases h
  | some w =>
    rw [hp, Option.map_some', Option.some.injEq] at h
    rw [← h]
    exact JSONValue.toInterface_keysDistinct w

/-- Decoding what `json.Marshal` wrote gives the value with its keys in order. -/
theorem decodeInterface_Marshal {F : Type} (codec : NumberCodec F) (hc : codec.Lawful)
    (v : JSONValue F) (hv : v.KeysDistinct) :
    decodeInterface codec (JSONValue.Marshal codec v) = some v.sortKeys := by
  unfold decodeInterface JSONValue.Marshal
  rw [parseJSON_print codec hc, Option.map_some',
    JSONValue.toInterface_of_keysDistinct _ hv.sortKeys]

/-- The three outcomes of `sortJSONResponse`, by what the text decodes to. -/
theorem sortJSONResponse_cases {F : Type} (codec : NumberCodec F) (x : String) :
    (unmarshalMap codec x = none ∧ sortJSONResponse codec x = x) ∨
    (unmarshalMap codec x = some none ∧ sortJSONResponse codec x = "null") ∨
    (∃ l, decodeInterface codec x.data = some (JSONValue.object l) ∧
      unmarshalMap codec x = some (some l) ∧
      sortJSONResponse codec x = String.mk (JSONValue.Marshal codec (JSONValue.object l))) := by
  unfold sortJSONResponse unmarshalMap
  cases h : decodeInterface codec x.data with
  | none => exact Or.inl ⟨rfl, rfl⟩
  | some v =>
    cases v with
    | null => exact Or.inr (Or.inl ⟨rfl, rfl⟩)
    | object l => exact Or.inr (Or.inr ⟨l, rfl, rfl, rfl⟩)
    | bool b => exact Or.inl ⟨rfl, rfl⟩
    | number f => exact Or.inl ⟨rfl, rfl⟩
    | string s => exact Or.inl ⟨rfl, rfl⟩
    | array l => exact Or.inl ⟨rfl, rfl⟩

/-- The text `null` unmarshals into the nil map. -/
theorem unmarshalMap_null {F : Type} (codec : NumberCodec F) :
    unmarshalMap codec "null" = some none := by
  rfl

/-- Sorting a sorted object text: the text is decoded to the sorted members and
written again as it is. -/
theorem sortJSONResponse_Marshal {F : Type} (codec : NumberCodec F) (hc : codec.Lawful)
    (v : JSONValue F) (hv : v.KeysDistinct) (l : List (String × JSONValue F))
    (hl : v.sortKeys = JSONValue.object l) :
    sortJSONResponse codec (String.mk (JSONValue.Marshal codec v)) =
      String.mk (JSONValue.Marshal codec v) := by
  have h := decodeInterface_Marshal codec hc v hv
  unfold sortJSONResponse unmarshalMap
  rw [show (String.mk (JSONValue.Marshal codec v)).data = JSONValue.Marshal codec v from rfl,
    h, hl]
  show String.mk (JSONValue.print codec (JSONValue.object l).sortKeys) = _
  rw [← hl, JSONValue.sortKeys_idem]
  rfl

/-- Sorting twice is sorting once, for a number codec that reads back what it writes. -/
theorem sortJSONResponse_idem {F : Type} (codec : NumberCodec F) (hc : codec.Lawful)
    (x : String) :
    sortJSONResponse codec (sortJSONResponse codec x) = sortJSONResponse codec x := by
  rcases sortJSONResponse_cases codec x with ⟨_, h2⟩ | ⟨_, h2⟩ | ⟨l, h1, _, h2⟩
  · rw [h2, h2]
  · rw [h2]
    unfold sortJSONResponse
    rw [unmarshalMap_null]
  · rw [h2]
    exact sortJSONResponse_Marshal codec hc (JSONValue.object l)
      (decodeInterface_keysDistinct codec _ _ h1) _ rfl

/-- What follows a value in compact text is not part of a run of digits. -/
theorem takeDigits_append (cs rest : List Char) (hb : Boundary rest) :
    takeDigits (cs ++ rest) = ((takeDigits cs).1, (takeDigits cs).2 ++ rest) := by
  have hr : takeDigits rest = ([], rest) := by
    rcases hb with rfl | ⟨c, t, rfl, hc⟩
    · rfl
    · rcases hc with rfl | rfl | rfl <;> rfl
  induction cs with
  | nil => exact hr
  | cons c t ih =>
    simp only [takeDigits, List.span_eq_take_drop] at ih ⊢
    by_cases hd : isDigit c = true
    · simp only [List.cons_append, List.takeWhile_cons, List.dropWhile_cons, hd, if_true]
      rw [Prod.mk.injEq] at ih ⊢
      exact ⟨congrArg _ ih.1, ih.2⟩
    · simp only [List.cons_append, List.takeWhile_cons, List.dropWhile_cons, hd]
      simp

/-- The integer part of a literal is read the same when a boundary follows the text. -/
theorem lexInt_append (cs rest : List Char) (hb : Boundary rest) :
    lexInt (cs ++ rest) = (lexInt cs).map fun p => (p.1, p.2 ++ rest) := by
  cases cs with
  | nil =>
    rcases hb with rfl | ⟨c, t, rfl, hc⟩
    · rfl
    · rcases hc with rfl | rfl | rfl <;> rfl
  | cons c t =>
    simp only [List.cons_append, lexInt]
    split_ifs
    · rfl
    · rw [takeDigits_append t rest hb]
      rfl
    · rfl

/-- The fraction of a literal is read the same when a boundary follows the text. -/
theorem lexFrac_append (cs rest : List Char) (hb : Boundary rest) :
    lexFrac (cs ++ rest) = (lexFrac cs).map fun p => (p.1, p.2 ++ rest) := by
  cases cs with
  | nil =>
    rcases hb with rfl | ⟨c, t, rfl, hc⟩
    · rfl
    · rcases hc with rfl | rfl | rfl <;> rfl
  | cons c t =>
    simp only [List.cons_append, lexFrac]
    rw [takeDigits_append t rest hb]
    split_ifs <;> rfl

/-- The digits of an exponent are read the same when a boundary follows the text. -/
theorem lexExpDigits_append (cs rest : List Char) (hb : Boundary rest) :
    lexExpDigits (cs ++ rest) = (lexExpDigits cs).map fun p => (p.1, p.2 ++ rest) := by
  unfold lexExpDigits
  rw [takeDigits_append cs rest hb]
  split_ifs <;> rfl

/-- The exponent of a literal is read the same when a boundary follows the text. -/
theorem lexExp_append (cs rest : List Char) (hb : Boundary rest) :
    lexExp (cs ++ rest) = (lexExp cs).map fun p => (p.1, p.2 ++ rest) := by
  cases cs with
  | nil =>
    rcases hb with rfl | ⟨c, t, rfl, hc⟩
    · rfl
    · rcases hc with rfl | rfl | rfl <;> rfl
  | cons c t =>
    cases t with
    | nil =>
      simp only [List.cons_append, List.nil_append, lexExp]
      split_ifs
      · rcases hb with rfl | ⟨d, t, rfl, hd⟩
        · rfl
        · rcases hd with rfl | rfl | rfl <;> rfl
      · rfl
    | cons s t2 =>
      simp only [List.cons_append, lexExp]
      split_ifs
      · rw [lexExpDigits_append t2 rest hb]
        cases lexExpDigits t2 <;> rfl
      · rw [← List.cons_append, lexExpDigits_append (s :: t2) rest hb]
        cases lexExpDigits (s :: t2) <;> rfl
      · rfl

/-- A literal without sign is read the same when a boundary follows the text. -/
theorem lexUnsigned_append (cs rest : List Char) (hb : Boundary rest) :
    lexUnsigned (cs ++ rest) = (lexUnsigned cs).map fun p => (p.1, p.2 ++ rest) := by
  unfold lexUnsigned
  rw [lexInt_append cs rest hb]
  cases lexInt cs with
  | none => rfl
  | some p =>
    simp only [Option.map_some']
    rw [lexFrac_append p.2 rest hb]
    cases lexFrac p.2 with
    | none => rfl
    | some q =>
      simp only [Option.map_some']
      rw [lexExp_append q.2 rest hb]
      cases lexExp q.2 <;> rfl

/-- A number literal is read the same when a boundary follows the text. -/
theorem lexNumber_append (cs rest : List Char) (hb : Boundary rest) (hcs : cs ≠ []) :
    lexNumber (cs ++ rest) = (lexNumber cs).map fun p => (p.1, p.2 ++ rest) := by
  cases cs with
  | nil => exact absurd rfl hcs
  | cons c t =>
    simp only [List.cons_append, lexNumber]
    split_ifs
    · rw [lexUnsigned_append t rest hb]
      cases lexUnsigned t <;> rfl
    · rw [← List.cons_append, lexUnsigned_append (c :: t) rest hb]

/-- The codec of number literals reads back what it writes. -/
theorem numberLiteralCodec_lawful : numberLiteralCodec.Lawful := by
  intro f rest hb
  have hne : f.1 ≠ [] := by
    intro h0
    have h := f.2
    rw [h0] at h
    cases h
  refine ⟨?_, ?_⟩
  · show lexNumber (f.1 ++ rest) = some (f.1, rest)
    rw [lexNumber_append f.1 rest hb hne, f.2]
    rfl
  · show (if h : lexNumber f.1 = some (f.1, []) then some (⟨f.1, h⟩ : NumberLiteral)
      else none) = some f
    rw [dif_pos f.2]
    rfl

/-! ### Reordered members are sorted to the same text -/

/-- Members sorted by key, no key twice, are in strictly ascending order. -/
theorem pairwise_lt_of_sorted_nodup {α : Type} (l : List (String × α))
    (hs : l.Sorted (fun a b => a.1 ≤ b.1)) (hn : (l.map Prod.fst).Nodup) :
    l.Pairwise (fun a b => a.1 < b.1) := by
  have hne : l.Pairwise (fun a b => a.1 ≠ b.1) := by
    rw [List.Nodup, List.pairwise_map] at hn
    exact hn
  exact (List.Pairwise.and hs hne).imp fun h => lt_of_le_of_ne h.1 h.2

/-- The sorted members of an object are in strictly ascending order of their keys. -/
theorem insertionSort_pairwise_lt {α : Type} (l : List (String × α))
    (hn : (l.map Prod.fst).Nodup) :
    (l.insertionSort (fun a b => a.1 ≤ b.1)).Pairwise (fun a b => a.1 < b.1) :=
  pairwise_lt_of_sorted_nodup _ (List.sorted_insertionSort _ l)
    (((List.perm_insertionSort _ l).map Prod.fst).nodup_iff.mpr hn)

/-- Two lists of members in strictly ascending order with the same members are the
same list. -/
theorem eq_of_perm_of_pairwise_lt {α : Type} (l m : List (String × α)) (hp : l.Perm m)
    (hl : l.Pairwise (fun a b => a.1 < b.1)) (hm : m.Pairwise (fun a b => a.1 < b.1)) :
    l = m := by
  haveI : IsAntisymm (String × α) (fun a b => a.1 < b.1) :=
    ⟨fun _ _ h1 h2 => absurd h2 (lt_asymm h1)⟩
  exact List.eq_of_perm_of_sorted hp hl hm

/-- Sorting does not depend on the order in which the members were listed, when no
key occurs twice. -/
theorem insertionSort_eq_of_perm {α : Type} (l m : List (String × α)) (hp : l.Perm m)
    (hn : (l.map Prod.fst).Nodup) :
    l.insertionSort (fun a b => a.1 ≤ b.1) = m.insertionSort (fun a b => a.1 ≤ b.1) := by
  apply eq_of_perm_of_pairwise_lt
  · exact ((List.perm_insertionSort _ l).trans hp).trans (List.perm_insertionSort _ m).symm
  · exact insertionSort_pairwise_lt l hn
  · exact insertionSort_pairwise_lt m ((hp.map Prod.fst).nodup_iff.mp hn)

/-- The same value with its members reordered has distinct keys too, and is sorted to
the same value. -/
theorem JSONValue.Reordered.sortKeys_eq {F : Type} {u v : JSONValue F}
    (h : JSONValue.Reordered u v) :
    u.KeysDistinct → v.KeysDistinct ∧ u.sortKeys = v.sortKeys := by
  induction h with
  | refl v => exact fun h => ⟨h, rfl⟩
  | array_cons _ _ ih1 ih2 =>
    intro hk
    rw [JSONValue.KeysDistinct, JSONValue.KeysDistinctList] at hk
    obtain ⟨h1, e1⟩ := ih1 hk.1
    obtain ⟨h2, e2⟩ := ih2 (by rw [JSONValue.KeysDistinct]; exact hk.2)
    rw [JSONValue.KeysDistinct] at h2
    rw [JSONValue.sortKeys, JSONValue.sortKeys, JSONValue.array.injEq] at e2
    refine ⟨?_, ?_⟩
    · rw [JSONValue.KeysDistinct, JSONValue.KeysDistinctList]
      exact ⟨h1, h2⟩
    · rw [JSONValue.sortKeys, JSONValue.sortKeys, JSONValue.sortKeysList,
        JSONValue.sortKeysList, e1, e2]
  | @object_cons k v w l m _ _ ih1 ih2 =>
    intro hk
    rw [JSONValue.KeysDistinct, JSONValue.KeysDistinctMembers, List.map_cons,
      List.nodup_cons] at hk
    obtain ⟨h1, e1⟩ := ih1 hk.2.1
    obtain ⟨h2, e2⟩ := ih2 (by rw [JSONValue.KeysDistinct]; exact ⟨hk.1.2, hk.2.2⟩)
    rw [JSONValue.KeysDistinct] at h2
    rw [JSONValue.sortKeys, JSONValue.sortKeys, JSONValue.object.injEq] at e2
    have hp : (l.map Prod.fst).Perm (m.map Prod.fst) := by
      have hq := ((List.perm_insertionSort _ (JSONValue.sortKeysMembers l)).symm.trans
        (e2 ▸ List.perm_insertionSort _ (JSONValue.sortKeysMembers m))).map Prod.fst
      rw [JSONValue.sortKeysMembers_keys, JSONValue.sortKeysMembers_keys] at hq
      exact hq
    refine ⟨?_, ?_⟩
    · rw [JSONValue.KeysDistinct, JSONValue.KeysDistinctMembers, List.map_cons,
        List.nodup_cons]
      exact ⟨⟨fun hm => hk.1.1 (hp.mem_iff.mpr hm), h2.1⟩, h1, h2.2⟩
    · rw [JSONValue.sortKeys, JSONValue.sortKeys, JSONValue.sortKeysMembers,
        JSONValue.sortKeysMembers, List.insertionSort, List.insertionSort, e1, e2]
  | @object_perm l m hp =>
    intro hk
    rw [JSONValue.KeysDistinct] at hk
    refine ⟨?_, ?_⟩
    · rw [JSONValue.KeysDistinct]
      refine ⟨(hp.map Prod.fst).nodup_iff.mp hk.1, ?_⟩
      rw [JSONValue.keysDistinctMembers_iff] at hk ⊢
      exact fun e he => hk.2 e (hp.mem_iff.mpr he)
    · rw [JSONValue.sortKeys, JSONValue.sortKeys, JSONValue.object.injEq]
      apply insertionSort_eq_of_perm
      · rw [JSONValue.sortKeysMembers_eq_map, JSONValue.sortKeysMembers_eq_map]
        exact hp.map _
      · rw [JSONValue.sortKeysMembers_keys]
        exact hk.1
  | trans _ _ ih1 ih2 =>
    intro hk
    obtain ⟨h1, e1⟩ := ih1 hk
    obtain ⟨h2, e2⟩ := ih2 h1
    exact ⟨h2, e1.trans e2⟩

/-- The members of an object have their keys in order when each of them has. -/
theorem JSONValue.keysAscendingMembers_iff {F : Type} (l : List (String × JSONValue F)) :
    JSONValue.KeysAscendingMembers l ↔ ∀ e ∈ l, JSONValue.KeysAscending e.2 := by
  induction l with
  | nil => simp [JSONValue.KeysAscendingMembers]
  | cons e t ih =>
    obtain ⟨k, v⟩ := e
    simp [JSONValue.KeysAscendingMembers, ih]

mutual
/-- Sorting the keys of a value with distinct keys lists the members of every object
in ascending order. -/
theorem JSONValue.sortKeys_keysAscending {F : Type} :
    ∀ v : JSONValue F, v.KeysDistinct → v.sortKeys.KeysAscending
  | JSONValue.null, _ => trivial
  | JSONValue.bool _, _ => trivial
  | JSONValue.number _, _ => trivial
  | JSONValue.string _, _ => trivial
  | JSONValue.array l, h => by
    rw [JSONValue.sortKeys, JSONValue.KeysAscending]
    rw [JSONValue.KeysDistinct] at h
    exact JSONValue.sortKeysList_keysAscending l h
  | JSONValue.object l, h => by
    rw [JSONValue.sortKeys, JSONValue.KeysAscending]
    rw [JSONValue.KeysDistinct] at h
    have hperm := List.perm_insertionSort (fun (a b : String × JSONValue F) => a.1 ≤ b.1)
      (JSONValue.sortKeysMembers l)
    constructor
    · apply insertionSort_pairwise_lt
      rw [JSONValue.sortKeysMembers_keys]
      exact h.1
    · have hm := JSONValue.sortKeysMembers_keysAscending l h.2
      rw [JSONValue.keysAscendingMembers_iff] at hm ⊢
      intro e he
      exact hm e (hperm.mem_iff.mp he)
theorem JSONValue.sortKeysList_keysAscending {F : Type} :
    ∀ l : List (JSONValue F), JSONValue.KeysDistinctList l →
      JSONValue.KeysAscendingList (JSONValue.sortKeysList l)
  | [], _ => trivial
  | v :: t, h => by
    rw [JSONValue.sortKeysList, JSONValue.KeysAscendingList]
    rw [JSONValue.KeysDistinctList] at h
    exact ⟨JSONValue.sortKeys_keysAscending v h.1, JSONValue.sortKeysList_keysAscending t h.2⟩
theorem JSONValue.sortKeysMembers_keysAscending {F : Type} :
    ∀ l : List (String × JSONValue F), JSONValue.KeysDistinctMembers l →
      JSONValue.KeysAscendingMembers (JSONValue.sortKeysMembers l)
  | [], _ => trivial
  | (k, v) :: t, h => by
    rw [JSONValue.sortKeysMembers, JSONValue.KeysAscendingMembers]
    rw [JSONValue.KeysDistinctMembers] at h
    exact ⟨JSONValue.sortKeys_keysAscending v h.1,
      JSONValue.sortKeysMembers_keysAscending t h.2⟩
end

/-- A text unmarshalled into a map with members decodes to the object of these
members, and its sorted form is the text of the sorted object. -/
theorem unmarshalMap_members {F : Type} (codec : NumberCodec F) (x : String)
    (l : List (String × JSONValue F)) (h : unmarshalMap codec x = some (some l)) :
    decodeInterface codec x.data = some (JSONValue.object l) ∧
    sortJSONResponse codec x =
      String.mk (JSONValue.print codec (JSONValue.object l).sortKeys) := by
  have hs : sortJSONResponse codec x =
      String.mk (JSONValue.print codec (JSONValue.object l).sortKeys) := by
    unfold sortJSONResponse
    rw [h]
    rfl
  refine ⟨?_, hs⟩
  unfold unmarshalMap at h
  cases hp : decodeInterface codec x.data with
  | none => rw [hp] at h; cases h
  | some v =>
    rw [hp] at h
    cases v with
    | object m =>
      simp only [Option.some.injEq] at h
      rw [h]
    | null => cases h
    | bool b => cases h
    | number f => cases h
    | string s => cases h
    | array m => cases h

set_option maxRecDepth 100000 in
/-- The first text of `TestSortJSON` is sorted to the second one. -/
theorem Scenario.sorted_foo_bar :
    sortJSONResponse numberLiteralCodec "\x7b\"foo\":0,\"bar\":1\x7d"
      = "\x7b\"bar\":1,\"foo\":0\x7d" := by
  have h := (unmarshalMap_members numberLiteralCodec "\x7b\"foo\":0,\"bar\":1\x7d"
    [("foo", JSONValue.number ⟨['0'], rfl⟩), ("bar", JSONValue.number ⟨['1'], rfl⟩)] rfl).2
  rw [h]
  have hs : (JSONValue.object [("foo", JSONValue.number (⟨['0'], rfl⟩ : NumberLiteral)),
      ("bar", JSONValue.number ⟨['1'], rfl⟩)]).sortKeys
      = JSONValue.object [("bar", JSONValue.number ⟨['1'], rfl⟩),
          ("foo", JSONValue.number ⟨['0'], rfl⟩)] := by
    simp only [JSONValue.sortKeys, JSONValue.sortKeysMembers, List.insertionSort,
      List.orderedInsert]
    rw [if_neg (by simp; decide)]
  rw [hs]
  rfl

/-! ### Decimal digits -/

/-- The digits accumulated so far follow the digits that are produced. -/
theorem toDigitsCore_append (fuel : Nat) :
    ∀ (n : Nat) (ds : List Char),
      Nat.toDigitsCore 10 fuel n ds = Nat.toDigitsCore 10 fuel n [] ++ ds := by
  induction fuel with
  | zero => intro n ds; rfl
  | succ f ih =>
    intro n ds
    simp only [Nat.toDigitsCore]
    split_ifs
    · rfl
    · rw [ih (n / 10) (Nat.digitChar (n % 10) :: ds), ih (n / 10) [Nat.digitChar (n % 10)],
        List.append_assoc]
      rfl

/-- The digits do not depend on the fuel, once there is more fuel than the number. -/
theorem toDigitsCore_fuel (f1 : Nat) :
    ∀ (f2 n : Nat), n < f1 → n < f2 →
      Nat.toDigitsCore 10 f1 n [] = Nat.toDigitsCore 10 f2 n [] := by
  induction f1 with
  | zero => intro f2 n h; omega
  | succ f ih =>
    intro f2 n h1 h2
    obtain ⟨g, rfl⟩ : ∃ g, f2 = g + 1 := ⟨f2 - 1, by omega⟩
    simp only [Nat.toDigitsCore]
    split_ifs with h0
    · rfl
    · have hlt : n / 10 < n := Nat.div_lt_self (by omega) (by decide)
      rw [toDigitsCore_append f, toDigitsCore_append g, ih g (n / 10) (by omega) (by omega)]

/-- The decimal digits of a number: one digit below ten, and otherwise the digits of
the tenth followed by the last digit. -/
theorem toDigits_step (n : Nat) :
    Nat.toDigits 10 n =
      if n < 10 then [Nat.digitChar n]
      else Nat.toDigits 10 (n / 10) ++ [Nat.digitChar (n % 10)] := by
  by_cases h : n < 10
  · rw [if_pos h]
    have h0 : n / 10 = 0 := by omega
    show Nat.toDigitsCore 10 (n + 1) n [] = _
    simp only [Nat.toDigitsCore, h0, if_true]
    rw [Nat.mod_eq_of_lt h]
  · rw [if_neg h]
    have h0 : ¬ n / 10 = 0 := by omega
    have hlt : n / 10 < n := Nat.div_lt_self (by omega) (by decide)
    show Nat.toDigitsCore 10 (n + 1) n [] = Nat.toDigitsCore 10 (n / 10 + 1) (n / 10) [] ++ _
    rw [Nat.toDigitsCore]
    simp only [h0, if_false]
    rw [toDigitsCore_append n, toDigitsCore_fuel n (n / 10 + 1) (n / 10) hlt (by omega)]

/-- The characters of the ten digits. -/
theorem digitChar_facts : ∀ m, m < 10 →
    isDigit (Nat.digitChar m) = true ∧ (Nat.digitChar m).toNat - 48 = m
    ∧ (m ≠ 0 → Nat.digitChar m ≠ '0') := by
  decide

/-- The decimal text of a number consists of digits. -/
theorem toDigits_all (n : Nat) : ∀ c ∈ Nat.toDigits 10 n, isDigit c = true := by
  induction n using Nat.strong_induction_on with
  | _ n ih =>
    rw [toDigits_step]
    split_ifs with h
    · intro c hc
      rw [List.mem_singleton] at hc
      rw [hc]
      exact (digitChar_facts n h).1
    · intro c hc
      rw [List.mem_append, List.mem_singleton] at hc
      rcases hc with hc | hc
      · exact ih (n / 10) (Nat.div_lt_self (by omega) (by decide)) c hc
      · rw [hc]
        exact (digitChar_facts (n % 10) (Nat.mod_lt n (by decide))).1

/-- The decimal text of a positive number starts with a digit that is not zero. -/
theorem toDigits_head (n : Nat) (hn : 0 < n) :
    ∃ c t, Nat.toDigits 10 n = c :: t ∧ c ≠ '0' ∧ isDigit c = true := by
  induction n using Nat.strong_induction_on with
  | _ n ih =>
    rw [toDigits_step]
    split_ifs with h
    · exact ⟨_, [], rfl, (digitChar_facts n h).2.2 (by omega), (digitChar_facts n h).1⟩
    · obtain ⟨c, t, hct, h0, hd⟩ :=
        ih (n / 10) (Nat.div_lt_self (by omega) (by decide)) (by omega)
      exact ⟨c, t ++ [Nat.digitChar (n % 10)], by rw [hct]; rfl, h0, hd⟩

/-- Reading the decimal text of a number gives the number. -/
theorem parseDigits_toDigits (n : Nat) : parseDigits (Nat.toDigits 10 n) = n := by
  induction n using Nat.strong_induction_on with
  | _ n ih =>
    rw [toDigits_step]
    split_ifs with h
    · simp only [parseDigits, List.foldl_cons, List.foldl_nil]
      rw [(digitChar_facts n h).2.1]
      omega
    · have hi := ih (n / 10) (Nat.div_lt_self (by omega) (by decide))
      unfold parseDigits at hi ⊢
      rw [List.foldl_append, hi]
      simp only [List.foldl_cons, List.foldl_nil]
      rw [(digitChar_facts (n % 10) (Nat.mod_lt n (by decide))).2.1]
      omega

/-- A text of digits is its own longest prefix of digits. -/
theorem takeDigits_all (t : List Char) (ht : ∀ x ∈ t, isDigit x = true) :
    takeDigits t = (t, []) := by
  unfold takeDigits
  rw [List.span_eq_take_drop, List.takeWhile_eq_self_iff.mpr ht,
    List.dropWhile_eq_nil_iff.mpr ht]

/-- A text of digits that does not start with zero is a number literal. -/
theorem lexNumber_digits (c : Char) (t : List Char) (hc0 : c ≠ '0')
    (hd : isDigit c = true) (ht : ∀ x ∈ t, isDigit x = true) :
    lexUnsigned (c :: t) = some (c :: t, []) ∧ lexNumber (c :: t) = some (c :: t, []) := by
  have hu : lexUnsigned (c :: t) = some (c :: t, []) := by
    simp only [lexUnsigned, lexInt, hc0, if_false, hd, if_true, takeDigits_all t ht, lexFrac,
      lexExp, List.append_nil]
  refine ⟨hu, ?_⟩
  have hm : c ≠ '-' := by
    intro h
    rw [h] at hd
    revert hd
    decide
  simp only [lexNumber, hm, if_false, hu]

/-- The decimal text of a natural number is a number literal. -/
theorem lexUnsigned_toDigits (m : Nat) :
    lexUnsigned (Nat.toDigits 10 m) = some (Nat.toDigits 10 m, [])
    ∧ lexNumber (Nat.toDigits 10 m) = some (Nat.toDigits 10 m, []) := by
  rcases Nat.eq_zero_or_pos m with h | h
  · rw [h]
    exact ⟨rfl, rfl⟩
  · obtain ⟨c, t, hct, h0, hd⟩ := toDigits_head m h
    have hall := toDigits_all m
    rw [hct] at hall ⊢
    exact lexNumber_digits c t h0 hd fun x hx => hall x (List.mem_cons_of_mem c hx)

/-- The decimal text of an integer is a number literal. -/
theorem lexNumber_jsonInt (n : Int) :
    lexNumber (jsonInt n).data = some ((jsonInt n).data, []) := by
  cases n with
  | ofNat m => exact (lexUnsigned_toDigits m).2
  | negSucc m =>
    show lexNumber ('-' :: Nat.toDigits 10 (m + 1)) = some ('-' :: Nat.toDigits 10 (m + 1), [])
    simp only [lexNumber, if_true, (lexUnsigned_toDigits (m + 1)).1]

/-- The literal written for an integer is its decimal text. -/
theorem intLiteral_val (n : Int) : (intLiteral n).1 = (jsonInt n).data := by
  unfold intLiteral
  rw [dif_pos (lexNumber_jsonInt n)]

/-- `strconv.ParseInt` reads the decimal text of an `int64` back. -/
theorem ParseInt_jsonInt (n : Int) (h : inInt64 n) : ParseInt (jsonInt n).data = some n := by
  unfold inInt64 at h
  cases n with
  | ofNat m =>
    show ParseInt (Nat.toDigits 10 m) = some (Int.ofNat m)
    have hall := toDigits_all m
    have hne : Nat.toDigits 10 m ≠ [] := by
      rw [toDigits_step]
      split_ifs <;> simp
    obtain ⟨c, t, hct⟩ := List.exists_cons_of_ne_nil hne
    have hc : isDigit c = true := hall c (by rw [hct]; exact List.mem_cons_self c t)
    have hp : c ≠ '+' := by
      intro h0; rw [h0] at hc; revert hc; decide
    have hm : c ≠ '-' := by
      intro h0; rw [h0] at hc; revert hc; decide
    have hall2 : (Nat.toDigits 10 m).all isDigit = true := by
      rw [List.all_eq_true]; exact hall
    have hv := parseDigits_toDigits m
    have hlt : m < 2 ^ 63 := by
      have := h.2
      simp only [Int.ofNat_eq_coe] at this
      exact_mod_cast this
    unfold ParseInt
    simp only [hct, List.head?_cons, Option.some.injEq, hp, hm, or_self, if_false]
    rw [← hct]
    simp only [hne, hall2, hv, hlt, if_true, if_false, Bool.true_eq_false, or_self]
    rfl
  | negSucc m =>
    show ParseInt ('-' :: Nat.toDigits 10 (m + 1)) = some (Int.negSucc m)
    have hall := toDigits_all (m + 1)
    have hne : Nat.toDigits 10 (m + 1) ≠ [] := by
      rw [toDigits_step]
      split_ifs <;> simp
    have hall2 : (Nat.toDigits 10 (m + 1)).all isDigit = true := by
      rw [List.all_eq_true]; exact hall
    have hv := parseDigits_toDigits (m + 1)
    have hle : m + 1 ≤ 2 ^ 63 := by
      have := h.1
      rw [Int.negSucc_eq] at this
      have h2 : ((m : Int) + 1) ≤ 2 ^ 63 := by linarith
      exact_mod_cast h2
    unfold ParseInt
    simp only [List.head?_cons, List.tail_cons, or_true, if_true, hne, hall2, hv, hle,
      if_false, Bool.true_eq_false, or_self]
    rw [Int.negSucc_eq]
    push_cast
    rfl

/-! ### The text of a relay is the compact text of a value -/

/-- The text of a JSON string, as a list of characters. -/
theorem jsonString_data (s : String) :
    (jsonString s).data = quoteChar :: (s.data.flatMap jsonEscapeChar ++ [quoteChar]) := by
  unfold jsonString
  rw [String.data_append, String.data_append]
  rfl

/-- The loop of `String.intercalate`, as a concatenation. -/
theorem intercalate_go_data (sep : String) (l : List String) :
    ∀ acc : String, (String.intercalate.go acc sep l).data
      = acc.data ++ (l.flatMap fun a => sep.data ++ a.data) := by
  induction l with
  | nil => intro acc; simp [String.intercalate.go]
  | cons a t ih =>
    intro acc
    rw [String.intercalate.go, ih, String.data_append, String.data_append, List.flatMap_cons]
    simp only [List.append_assoc]

/-- The text written after the first entry of a header map: the other entries, each
after a comma, and the closing brace. -/
theorem headerTail_data (t : List (String × String)) :
    (t.flatMap fun kv => ",".data ++ (jsonString kv.1 ++ ":" ++ jsonString kv.2).data)
        ++ [rbraceChar]
      = JSONValue.printObjectTail numberLiteralCodec
          (t.map fun kv => (kv.1, JSONValue.string kv.2)) := by
  induction t with
  | nil => rfl
  | cons e t ih =>
    rw [List.flatMap_cons, List.map_cons, JSONValue.printObjectTail, JSONValue.print, ← ih,
      String.data_append, String.data_append, jsonString_data, jsonString_data]
    simp only [List.append_assoc, List.cons_append, List.nil_append]

/-- The text written for a header map is the compact text of its value. -/
theorem jsonStringMap_data (h : Option (List (String × String))) :
    (jsonStringMap h).data = JSONValue.print numberLiteralCodec (headersValue h) := by
  cases h with
  | none => rfl
  | some l =>
    simp only [jsonStringMap, headersValue]
    generalize l.insertionSort (fun a b => a.1 ≤ b.1) = s
    cases s with
    | nil => rfl
    | cons e t =>
      rw [String.data_append, String.data_append, List.map_cons, List.map_cons,
        String.intercalate, intercalate_go_data, JSONValue.print, JSONValue.print,
        ← headerTail_data, List.flatMap_map, String.data_append, String.data_append,
        jsonString_data, jsonString_data]
      simp only [List.append_assoc, List.cons_append, List.nil_append]
      rfl

/-- The text of `Payload.MarshalJSON` is the compact text of the value of the
payload. -/
theorem payloadMarshalJSON_data (p : Payload) :
    p.MarshalJSON.data = JSONValue.print numberLiteralCodec p.toValue := by
  unfold Payload.MarshalJSON Payload.toValue
  simp only [String.data_append, jsonString_data, jsonStringMap_data, JSONValue.print,
    JSONValue.printObjectTail, List.append_assoc, List.cons_append, List.nil_append]
  rfl

/-- The text of `RelayMeta.MarshalJSON` is the compact text of the value of the
meta. -/
theorem relayMetaMarshalJSON_data (m : RelayMeta) :
    m.MarshalJSON.data = JSONValue.print numberLiteralCodec m.toValue := by
  unfold RelayMeta.MarshalJSON RelayMeta.toValue
  simp only [String.data_append, JSONValue.print, JSONValue.printObjectTail,
    List.append_assoc, List.cons_append, List.nil_append]
  rw [show numberLiteralCodec.format (intLiteral m.BlockHeight) = (intLiteral m.BlockHeight).1
    from rfl, intLiteral_val]
  rfl

/-- The text of `Relay.Marshal` is the compact text of the value of the relay. -/
theorem relayMarshal_data (pc : ProofCodec) (r : Relay) :
    (Relay.Marshal pc r).data = JSONValue.print numberLiteralCodec (Relay.toValue pc r) := by
  unfold Relay.Marshal Relay.toValue
  simp only [String.data_append, payloadMarshalJSON_data, relayMetaMarshalJSON_data,
    JSONValue.print, JSONValue.printObjectTail, List.append_assoc, List.cons_append,
    List.nil_append]
  rfl

/-- The decoder reads the text of a relay as the value of the relay. -/
theorem parseJSON_Relay_Marshal (pc : ProofCodec) (r : Relay) :
    parseJSON numberLiteralCodec (Relay.Marshal pc r).data = some (Relay.toValue pc r) := by
  rw [relayMarshal_data]
  exact parseJSON_print numberLiteralCodec numberLiteralCodec_lawful _

/-- The text marshalled by `Relay.RequestHash` is the compact text of the object of
the payload and the meta. -/
theorem requestHash_text_data (p : Payload) (m : RelayMeta) :
    ("\x7b\"payload\":" ++ p.MarshalJSON ++ ",\"meta\":" ++ m.MarshalJSON ++ "\x7d").data
      = JSONValue.print numberLiteralCodec
          (JSONValue.object [("payload", p.toValue), ("meta", m.toValue)]) := by
  simp only [String.data_append, payloadMarshalJSON_data, relayMetaMarshalJSON_data,
    JSONValue.print, JSONValue.printObjectTail, List.append_assoc, List.cons_append,
    List.nil_append]
  rfl

/-! ### Decoding the text of a relay -/

/-- Assigning a key that the map does not hold adds the entry at the end. -/
theorem mapAssign_new (m : List (String × String)) (k v : String)
    (hk : k ∉ m.map Prod.fst) : mapAssign m k v = m ++ [(k, v)] := by
  unfold mapAssign
  rw [List.filter_eq_self.mpr]
  intro e he
  have hne : e.1 ≠ k := fun h => hk (h ▸ List.mem_map_of_mem Prod.fst he)
  simpa using hne

/-- Decoding the members written for a header map with distinct keys gives the
entries, in the order of the text. -/
theorem decodeMapMembers_strings (l : List (String × String)) :
    ∀ m : List (String × String), ((m ++ l).map Prod.fst).Nodup →
      decodeMapMembers m (l.map fun kv => (kv.1, JSONValue.string kv.2)) = some (m ++ l) := by
  induction l with
  | nil => intro m _; simp [decodeMapMembers]
  | cons e t ih =>
    intro m hn
    have hk : e.1 ∉ m.map Prod.fst := by
      rw [List.map_append, List.map_cons, List.nodup_append] at hn
      exact fun hm => hn.2.2 hm (List.mem_cons_self _ _)
    rw [List.map_cons, decodeMapMembers]
    simp only [decodeStringField]
    rw [mapAssign_new m e.1 e.2 hk, ih (m ++ [e]) (by simpa using hn)]
    simp

/-- Decoding the value written for a header map into the nil map: the nil map for
`null`, and the entries in ascending key order otherwise. -/
theorem decodeStringMapField_headersValue (h : Option (List (String × String)))
    (hk : ∀ l, h = some l → (l.map Prod.fst).Nodup) :
    decodeStringMapField none (headersValue h)
      = some (h.map fun (l : List (String × String)) => l.insertionSort (fun (a b : String × String) => a.1 ≤ b.1)) := by
  cases h with
  | none => rfl
  | some l =>
    have hn : (([] ++ l.insertionSort (fun (a b : String × String) => a.1 ≤ b.1)).map Prod.fst).Nodup := by
      rw [List.nil_append]
      exact ((List.perm_insertionSort _ l).map Prod.fst).nodup_iff.mpr (hk l rfl)
    simp only [headersValue, decodeStringMapField, Option.getD_none]
    rw [decodeMapMembers_strings _ [] hn]
    rfl

/-- Decoding the value of a payload into the zero payload gives the payload, its
headers in ascending key order. -/
theorem payloadDecode_toValue (p : Payload)
    (hk : ∀ l, p.Headers = some l → (l.map Prod.fst).Nodup) :
    Payload.decode Relay.zero.Payload p.toValue
      = some { p with
          Headers := p.Headers.map fun (l : List (String × String)) => l.insertionSort (fun (a b : String × String) => a.1 ≤ b.1) } := by
  have hh := decodeStringMapField_headersValue p.Headers hk
  have k1 : foldKey "data" = "data" := by decide
  have k2 : foldKey "method" = "method" := by decide
  have k3 : foldKey "path" = "path" := by decide
  have k4 : foldKey "headers" = "headers" := by decide
  have n1 : ¬ ("method" = "data") := by decide
  have n2 : ¬ ("path" = "data") := by decide
  have n3 : ¬ ("path" = "method") := by decide
  have n4 : ¬ ("headers" = "data") := by decide
  have n5 : ¬ ("headers" = "method") := by decide
  have n6 : ¬ ("headers" = "path") := by decide
  simp only [Payload.decode, Payload.toValue, Payload.decodeMembers, Payload.decodeMember,
    k1, k2, k3, k4, n1, n2, n3, n4, n5, n6, if_true, if_false, decodeStringField,
    Option.map_some', Relay.zero, hh]

/-- Decoding the value of a meta into the zero meta gives the meta. -/
theorem relayMetaDecode_toValue (m : RelayMeta) (h : inInt64 m.BlockHeight) :
    RelayMeta.decode Relay.zero.Meta m.toValue = some m := by
  have k1 : foldKey "block_height" = "block_height" := by decide
  simp only [RelayMeta.decode, RelayMeta.toValue, RelayMeta.decodeMembers,
    RelayMeta.decodeMember, k1, if_true, decodeInt64Field, intLiteral_val,
    ParseInt_jsonInt m.BlockHeight h, Option.map_some']

/-- The text written for a header map does not depend on the order of its entries:
the entries in ascending key order give the same text. -/
theorem jsonStringMap_sorted (h : Option (List (String × String))) :
    jsonStringMap (h.map fun (l : List (String × String)) => l.insertionSort (fun (a b : String × String) => a.1 ≤ b.1)) = jsonStringMap h := by
  cases h with
  | none => rfl
  | some l =>
    simp only [Option.map_some', jsonStringMap]
    rw [insertionSort_idem]

/-- Decoding the text of a relay: the relay, its headers in ascending key order. -/
theorem Relay.Unmarshal_Marshal (pc : ProofCodec) (r : Relay)
    (hk : ∀ l, r.Payload.Headers = some l → (l.map Prod.fst).Nodup)
    (hb : inInt64 r.Meta.BlockHeight)
    (hp : pc.decode Relay.zero.Proof (pc.encode r.Proof) = some r.Proof) :
    Relay.Unmarshal pc (Relay.Marshal pc r)
      = some { r with
          Payload := { r.Payload with
            Headers := r.Payload.Headers.map fun (l : List (String × String)) =>
              l.insertionSort (fun (a b : String × String) => a.1 ≤ b.1) } } := by
  have k1 : foldKey "payload" = "payload" := by decide
  have k2 : foldKey "meta" = "meta" := by decide
  have k3 : foldKey "proof" = "proof" := by decide
  have n1 : ¬ ("meta" = "payload") := by decide
  have n2 : ¬ ("proof" = "payload") := by decide
  have n3 : ¬ ("proof" = "meta") := by decide
  have h1 := payloadDecode_toValue r.Payload hk
  have h2 := relayMetaDecode_toValue r.Meta hb
  unfold Relay.Unmarshal
  rw [parseJSON_Relay_Marshal]
  simp only [Relay.toValue, Relay.decodeMembers, Relay.decodeMember, k1, k2, k3, n1, n2, n3,
    if_true, if_false]
  simp only [h1, Option.map_some']
  simp only [show ({ Relay.zero with Payload := { r.Payload with
      Headers := r.Payload.Headers.map fun (l : List (String × String)) =>
        l.insertionSort (fun (a b : String × String) => a.1 ≤ b.1) } } : Relay).Meta = Relay.zero.Meta from rfl,
    h2, Option.map_some']
  simp only [show ({ Relay.zero with
      Payload := { r.Payload with
        Headers := r.Payload.Headers.map fun (l : List (String × String)) =>
          l.insertionSort (fun (a b : String × String) => a.1 ≤ b.1) },
      Meta := r.Meta } : Relay).Proof = Relay.zero.Proof from rfl, hp, Option.map_some']

/-! ### The bound on nested calls is enough -/

/-- Skipping white space does not lengthen a text. -/
theorem skipSpace_length (cs : List Char) : (skipSpace cs).length ≤ cs.length :=
  (List.dropWhile_suffix _).length_le

/-- What follows a run of digits is not longer than the text. -/
theorem takeDigits_length (cs : List Char) : (takeDigits cs).2.length ≤ cs.length := by
  unfold takeDigits
  rw [List.span_eq_take_drop]
  exact (List.dropWhile_suffix _).length_le

/-- The integer part of a literal takes at least one character. -/
theorem lexInt_length (cs i r : List Char) (h : lexInt cs = some (i, r)) :
    r.length < cs.length := by
  cases cs with
  | nil => cases h
  | cons c t =>
    simp only [lexInt] at h
    split_ifs at h
    · simp only [Option.some.injEq, Prod.mk.injEq] at h
      rw [← h.2]
      exact Nat.lt_succ_self _
    · simp only [Option.some.injEq, Prod.mk.injEq] at h
      rw [← h.2]
      exact Nat.lt_succ_of_le (takeDigits_length t)

/-- What follows the fraction of a literal is not longer than the text. -/
theorem lexFrac_length (cs f r : List Char) (h : lexFrac cs = some (f, r)) :
    r.length ≤ cs.length := by
  cases cs with
  | nil =>
    simp only [lexFrac, Option.some.injEq, Prod.mk.injEq] at h
    rw [← h.2]
  | cons c t =>
    simp only [lexFrac] at h
    split_ifs at h
    · simp only [Option.some.injEq, Prod.mk.injEq] at h
      rw [← h.2]
      exact Nat.le_succ_of_le (takeDigits_length t)
    · simp only [Option.some.injEq, Prod.mk.injEq] at h
      rw [← h.2]

/-- What follows the digits of an exponent is not longer than the text. -/
theorem lexExpDigits_length (cs d r : List Char) (h : lexExpDigits cs = some (d, r)) :
    r.length ≤ cs.length := by
  unfold lexExpDigits at h
  split_ifs at h
  simp only [Option.some.injEq, Prod.mk.injEq] at h
  rw [← h.2]
  exact takeDigits_length cs

/-- What follows the exponent of a literal is not longer than the text. -/
theorem lexExp_length (cs e r : List Char) (h : lexExp cs = some (e, r)) :
    r.length ≤ cs.length := by
  cases cs with
  | nil =>
    simp only [lexExp, Option.some.injEq, Prod.mk.injEq] at h
    rw [← h.2]
  | cons c t =>
    cases t with
    | nil =>
      simp only [lexExp] at h
      split_ifs at h
      simp only [Option.some.injEq, Prod.mk.injEq] at h
      rw [← h.2]
    | cons s t2 =>
      simp only [lexExp] at h
      split_ifs at h
      · cases hd : lexExpDigits t2 with
        | none => rw [hd] at h; cases h
        | some p =>
          rw [hd] at h
          simp only [Option.some.injEq, Prod.mk.injEq] at h
          have := lexExpDigits_length t2 p.1 p.2 hd
          rw [← h.2]
          simp only [List.length_cons]
          omega
      · cases hd : lexExpDigits (s :: t2) with
        | none => rw [hd] at h; cases h
        | some p =>
          rw [hd] at h
          simp only [Option.some.injEq, Prod.mk.injEq] at h
          have := lexExpDigits_length (s :: t2) p.1 p.2 hd
          rw [← h.2]
          simp only [List.length_cons] at this ⊢
          omega
      · simp only [Option.some.injEq, Prod.mk.injEq] at h
        rw [← h.2]

/-- A literal without sign takes at least one character. -/
theorem lexUnsigned_length (cs l r : List Char) (h : lexUnsigned cs = some (l, r)) :
    r.length < cs.length := by
  unfold lexUnsigned at h
  cases hi : lexInt cs with
  | none => rw [hi] at h; cases h
  | some p =>
    rw [hi] at h
    simp only at h
    cases hf : lexFrac p.2 with
    | none => rw [hf] at h; cases h
    | some q =>
      rw [hf] at h
      simp only at h
      cases he : lexExp q.2 with
      | none => rw [he] at h; cases h
      | some e =>
        rw [he] at h
        simp only [Option.some.injEq, Prod.mk.injEq] at h
        have h1 := lexInt_length cs p.1 p.2 hi
        have h2 := lexFrac_length p.2 q.1 q.2 hf
        have h3 := lexExp_length q.2 e.1 e.2 he
        rw [← h.2]
        omega

/-- A number literal takes at least one character. -/
theorem lexNumber_length (cs l r : List Char) (h : lexNumber cs = some (l, r)) :
    r.length < cs.length := by
  cases cs with
  | nil => cases h
  | cons c t =>
    simp only [lexNumber] at h
    split_ifs at h
    · cases hu : lexUnsigned t with
      | none => rw [hu] at h; cases h
      | some p =>
        rw [hu] at h
        simp only [Option.some.injEq, Prod.mk.injEq] at h
        have := lexUnsigned_length t p.1 p.2 hu
        rw [← h.2]
        simp only [List.length_cons]
        omega
    · exact lexUnsigned_length (c :: t) l r h

/-- What follows a literal name is not longer than the text. -/
theorem dropLiteral_length (l : List Char) :
    ∀ (cs r : List Char), dropLiteral l cs = some r → r.length ≤ cs.length := by
  induction l with
  | nil =>
    intro cs r h
    simp only [dropLiteral, Option.some.injEq] at h
    rw [h]
  | cons a t ih =>
    intro cs r h
    cases cs with
    | nil => cases h
    | cons c cs =>
      simp only [dropLiteral] at h
      split_ifs at h
      exact Nat.le_succ_of_le (ih cs r h)

/-- What follows the escape of a low surrogate is shorter than the text. -/
theorem lexLowSurrogate_length (r1 : Nat) (cs : List Char) (c : Char) (r : List Char)
    (h : lexLowSurrogate r1 cs = some (c, r)) : r.length < cs.length := by
  rcases cs with _ | ⟨b, _ | ⟨u, _ | ⟨x1, _ | ⟨x2, _ | ⟨x3, _ | ⟨x4, rest⟩⟩⟩⟩⟩⟩ <;>
    simp only [lexLowSurrogate] at h <;> try (exact Option.noConfusion h)
  split_ifs at h
  cases h4 : hex4 x1 x2 x3 x4 with
  | none => rw [h4] at h; cases h
  | some r2 =>
    rw [h4] at h
    simp only at h
    cases hd : decodeSurrogates r1 r2 with
    | none => rw [hd] at h; cases h
    | some ch =>
      rw [hd] at h
      simp only [Option.some.injEq, Prod.mk.injEq] at h
      rw [← h.2]
      simp only [List.length_cons]
      omega

/-- What follows a unicode escape is shorter than the text. -/
theorem decodeUnicode_length (cs : List Char) (c : Char) (r : List Char)
    (h : decodeUnicode cs = some (c, r)) : r.length < cs.length := by
  rcases cs with _ | ⟨x1, _ | ⟨x2, _ | ⟨x3, _ | ⟨x4, rest⟩⟩⟩⟩ <;>
    simp only [decodeUnicode] at h <;> try (exact Option.noConfusion h)
  cases h4 : hex4 x1 x2 x3 x4 with
  | none => rw [h4] at h; cases h
  | some r1 =>
    rw [h4] at h
    simp only at h
    split_ifs at h
    · cases hl : lexLowSurrogate r1 rest with
      | none =>
        rw [hl] at h
        simp only [Option.some.injEq, Prod.mk.injEq] at h
        rw [← h.2]
        simp only [List.length_cons]
        omega
      | some p =>
        rw [hl] at h
        simp only [Option.some.injEq, Prod.mk.injEq] at h
        have := lexLowSurrogate_length r1 rest p.1 p.2 hl
        rw [← h.2]
        simp only [List.length_cons]
        omega
    · simp only [Option.some.injEq, Prod.mk.injEq] at h
      rw [← h.2]
      simp only [List.length_cons]
      omega

/-- What follows an escape is shorter than the text. -/
theorem decodeEscape_length (cs : List Char) (c : Char) (r : List Char)
    (h : decodeEscape cs = some (c, r)) : r.length < cs.length := by
  cases cs with
  | nil => cases h
  | cons e rest =>
    simp only [decodeEscape] at h
    split_ifs at h
    · exact Nat.lt_succ_of_lt (decodeUnicode_length rest c r h)
    · cases hs : simpleEscape e with
      | none => rw [hs] at h; cases h
      | some ch =>
        rw [hs] at h
        simp only [Option.some.injEq, Prod.mk.injEq] at h
        rw [← h.2]
        exact Nat.lt_succ_self _

/-- A string takes at least its closing quote, and is read the same with any bound
that is at least the length of the text. -/
theorem decodeString_fuel :
    ∀ (f : Nat) (cs s r : List Char), decodeString f cs = some (s, r) →
      r.length < cs.length ∧ ∀ g, cs.length ≤ g → decodeString g cs = some (s, r)
  | 0, cs, s, r, h => by
    rw [decodeString] at h
    cases h
  | f + 1, [], s, r, h => by
    rw [decodeString] at h
    cases h
  | f + 1, c :: cs, s, r, h => by
    rw [decodeString] at h
    split_ifs at h with h1 h2 h3
    · simp only [Option.some.injEq, Prod.mk.injEq] at h
      refine ⟨by rw [← h.2]; exact Nat.lt_succ_self _, ?_⟩
      intro g hg
      obtain ⟨g1, rfl⟩ : ∃ g1, g = g1 + 1 := ⟨g - 1, by simp only [List.length_cons] at hg; omega⟩
      rw [decodeString, if_pos h1, ← h.1, ← h.2]
    · cases he : decodeEscape cs with
      | none => rw [he] at h; cases h
      | some e =>
        rw [he] at h
        simp only [Option.some_bind] at h
        cases hs : decodeString f e.2 with
        | none => rw [hs] at h; cases h
        | some p =>
          rw [hs] at h
          simp only [Option.map_some', Option.some.injEq, Prod.mk.injEq] at h
          have hel := decodeEscape_length cs e.1 e.2 he
          obtain ⟨hl, hg⟩ := decodeString_fuel f e.2 p.1 p.2 hs
          refine ⟨by rw [← h.2]; simp only [List.length_cons]; omega, ?_⟩
          intro g hgl
          simp only [List.length_cons] at hgl
          obtain ⟨g1, rfl⟩ : ∃ g1, g = g1 + 1 := ⟨g - 1, by omega⟩
          rw [decodeString, if_neg h1, if_pos h2, he]
          simp only [Option.some_bind]
          rw [hg g1 (by omega)]
          simp only [Option.map_some', h.1, h.2]
    · cases hs : decodeString f cs with
      | none => rw [hs] at h; cases h
      | some p =>
        rw [hs] at h
        simp only [Option.map_some', Option.some.injEq, Prod.mk.injEq] at h
        obtain ⟨hl, hg⟩ := decodeString_fuel f cs p.1 p.2 hs
        refine ⟨by rw [← h.2]; simp only [List.length_cons]; omega, ?_⟩
        intro g hgl
        simp only [List.length_cons] at hgl
        obtain ⟨g1, rfl⟩ : ∃ g1, g = g1 + 1 := ⟨g - 1, by omega⟩
        rw [decodeString, if_neg h1, if_neg h2, if_neg h3, hg g1 (by omega)]
        simp only [Option.map_some', h.1, h.2]

mutual
/-- A value takes at least one character, and is read the same with any bound on
the nesting that is twice the number of characters it takes. -/
theorem parseValue_fuel {F : Type} (codec : NumberCodec F) :
    ∀ (f : Nat) (cs : List Char) (v : JSONValue F) (r : List Char),
      parseValue codec f cs = some (v, r) →
      r.length < cs.length ∧
        ∀ g, 2 * (cs.length - r.length) ≤ g → parseValue codec g cs = some (v, r)
  | 0, _, _, _, h => by
    rw [parseValue] at h
    cases h
  | f + 1, cs, v, r, h => by
    rw [parseValue] at h
    split at h
    · cases h
    next c rest heq =>
      have hsl := skipSpace_length cs
      rw [heq, List.length_cons] at hsl
      split_ifs at h with h1 h2 h3 h4 h5 h6
      · split at h
        next s r1 hs =>
          simp only [Option.some.injEq, Prod.mk.injEq] at h
          obtain ⟨rfl, rfl⟩ := h
          have hl := (decodeString_fuel _ _ _ _ hs).1
          refine ⟨by omega, ?_⟩
          intro g hg
          obtain ⟨g1, rfl⟩ : ∃ g1, g = g1 + 1 := ⟨g - 1, by omega⟩
          rw [parseValue]
          simp only [heq]
          rw [if_pos h1]
          simp only [hs]
        · cases h
      · split at h
        · cases h
        next c2 r2 heq2 =>
          have hsl2 := skipSpace_length rest
          rw [heq2, List.length_cons] at hsl2
          split_ifs at h with h7
          · simp only [Option.some.injEq, Prod.mk.injEq] at h
            obtain ⟨rfl, rfl⟩ := h
            refine ⟨by omega, ?_⟩
            intro g hg
            obtain ⟨g1, rfl⟩ : ∃ g1, g = g1 + 1 := ⟨g - 1, by omega⟩
            rw [parseValue]
            simp only [heq]
            rw [if_neg h1, if_pos h2]
            simp only [heq2]
            rw [if_pos h7]
          · split at h
            · cases h
            next v0 r3 hv0 =>
              split at h
              · cases h
              next l r4 hl =>
                simp only [Option.some.injEq, Prod.mk.injEq] at h
                obtain ⟨rfl, rfl⟩ := h
                obtain ⟨hlv, hgv⟩ := parseValue_fuel codec f _ v0 r3 hv0
                obtain ⟨hll, hgl⟩ := parseArrayTail_fuel codec f _ l r4 hl
                rw [List.length_cons] at hlv hgv
                refine ⟨by omega, ?_⟩
                intro g hg
                obtain ⟨g1, rfl⟩ : ∃ g1, g = g1 + 1 := ⟨g - 1, by omega⟩
                rw [parseValue]
                simp only [heq]
                rw [if_neg h1, if_pos h2]
                simp only [heq2]
                rw [if_neg h7]
                rw [hgv g1 (by omega)]
                simp only []
                rw [hgl g1 (by omega)]
      · split at h
        · cases h
        next c2 r2 heq2 =>
          have hsl2 := skipSpace_length rest
          rw [heq2, List.length_cons] at hsl2
          split_ifs at h with h7
          · simp only [Option.some.injEq, Prod.mk.injEq] at h
            obtain ⟨rfl, rfl⟩ := h
            refine ⟨by omega, ?_⟩
            intro g hg
            obtain ⟨g1, rfl⟩ : ∃ g1, g = g1 + 1 := ⟨g - 1, by omega⟩
            rw [parseValue]
            simp only [heq]
            rw [if_neg h1, if_neg h2, if_pos h3]
            simp only [heq2]
            rw [if_pos h7]
          · split at h
            · cases h
            next m r3 hm =>
              split at h
              · cases h
              next l r4 hl =>
                simp only [Option.some.injEq, Prod.mk.injEq] at h
                obtain ⟨rfl, rfl⟩ := h
                obtain ⟨hlv, hgv⟩ := parseMember_fuel codec f _ m r3 hm
                obtain ⟨hll, hgl⟩ := parseObjectTail_fuel codec f _ l r4 hl
                rw [List.length_cons] at hlv hgv
                refine ⟨by omega, ?_⟩
                intro g hg
                obtain ⟨g1, rfl⟩ : ∃ g1, g = g1 + 1 := ⟨g - 1, by omega⟩
                rw [parseValue]
                simp only [heq]
                rw [if_neg h1, if_neg h2, if_pos h3]
                simp only [heq2]
                rw [if_neg h7]
                rw [hgv g1 (by omega)]
                simp only []
                rw [hgl g1 (by omega)]
      · split at h
        next r1 hd =>
          simp only [Option.some.injEq, Prod.mk.injEq] at h
          obtain ⟨rfl, rfl⟩ := h
          have hl := dropLiteral_length _ _ _ hd
          refine ⟨by omega, ?_⟩
          intro g hg
          obtain ⟨g1, rfl⟩ : ∃ g1, g = g1 + 1 := ⟨g - 1, by omega⟩
          rw [parseValue]
          simp only [heq]
          rw [if_neg h1, if_neg h2, if_neg h3, if_pos h4]
          simp only [hd]
        · cases h
      · split at h
        next r1 hd =>
          simp only [Option.some.injEq, Prod.mk.injEq] at h
          obtain ⟨rfl, rfl⟩ := h
          have hl := dropLiteral_length _ _ _ hd
          refine ⟨by omega, ?_⟩
          intro g hg
          obtain ⟨g1, rfl⟩ : ∃ g1, g = g1 + 1 := ⟨g - 1, by omega⟩
          rw [parseValue]
          simp only [heq]
          rw [if_neg h1, if_neg h2, if_neg h3, if_neg h4, if_pos h5]
          simp only [hd]
        · cases h
      · split at h
        next r1 hd =>
          simp only [Option.some.injEq, Prod.mk.injEq] at h
          obtain ⟨rfl, rfl⟩ := h
          have hl := dropLiteral_length _ _ _ hd
          refine ⟨by omega, ?_⟩
          intro g hg
          obtain ⟨g1, rfl⟩ : ∃ g1, g = g1 + 1 := ⟨g - 1, by omega⟩
          rw [parseValue]
          simp only [heq]
          rw [if_neg h1, if_neg h2, if_neg h3, if_neg h4, if_neg h5, if_pos h6]
          simp only [hd]
        · cases h
      · split at h
        · cases h
        next lit r1 hn =>
          split at h
          next x hx =>
            simp only [Option.some.injEq, Prod.mk.injEq] at h
            obtain ⟨rfl, rfl⟩ := h
            have hl := lexNumber_length _ _ _ hn
            rw [List.length_cons] at hl
            refine ⟨by omega, ?_⟩
            intro g hg
            obtain ⟨g1, rfl⟩ : ∃ g1, g = g1 + 1 := ⟨g - 1, by omega⟩
            rw [parseValue]
            simp only [heq]
            rw [if_neg h1, if_neg h2, if_neg h3, if_neg h4, if_neg h5, if_neg h6]
            simp only [hn, hx]
          · cases h
/-- The remaining elements of an array take at least one character, and are read the
same with any bound that is twice the number of characters they take. -/
theorem parseArrayTail_fuel {F : Type} (codec : NumberCodec F) :
    ∀ (f : Nat) (cs : List Char) (l : List (JSONValue F)) (r : List Char),
      parseArrayTail codec f cs = some (l, r) →
      r.length < cs.length ∧
        ∀ g, 2 * (cs.length - r.length) ≤ g → parseArrayTail codec g cs = some (l, r)
  | 0, _, _, _, h => by
    rw [parseArrayTail] at h
    cases h
  | f + 1, cs, l, r, h => by
    rw [parseArrayTail] at h
    split at h
    · cases h
    next c rest heq =>
      have hsl := skipSpace_length cs
      rw [heq, List.length_cons] at hsl
      split_ifs at h with h1 h2
      · split at h
        · cases h
        next v0 r1 hv0 =>
          split at h
          · cases h
          next l0 r2 hl0 =>
            simp only [Option.some.injEq, Prod.mk.injEq] at h
            obtain ⟨rfl, rfl⟩ := h
            obtain ⟨hlv, hgv⟩ := parseValue_fuel codec f _ v0 r1 hv0
            obtain ⟨hll, hgl⟩ := parseArrayTail_fuel codec f _ l0 r2 hl0
            refine ⟨by omega, ?_⟩
            intro g hg
            obtain ⟨g1, rfl⟩ : ∃ g1, g = g1 + 1 := ⟨g - 1, by omega⟩
            rw [parseArrayTail]
            simp only [heq]
            rw [if_pos h1]
            rw [hgv g1 (by omega)]
            simp only []
            rw [hgl g1 (by omega)]
      · simp only [Option.some.injEq, Prod.mk.injEq] at h
        obtain ⟨rfl, rfl⟩ := h
        refine ⟨by omega, ?_⟩
        intro g hg
        obtain ⟨g1, rfl⟩ : ∃ g1, g = g1 + 1 := ⟨g - 1, by omega⟩
        rw [parseArrayTail]
        simp only [heq]
        rw [if_neg h1, if_pos h2]
/-- A member takes at least one character, and is read the same with any bound that
is twice the number of characters it takes. -/
theorem parseMember_fuel {F : Type} (codec : NumberCodec F) :
    ∀ (f : Nat) (cs : List Char) (m : String × JSONValue F) (r : List Char),
      parseMember codec f cs = some (m, r) →
      r.length < cs.length ∧
        ∀ g, 2 * (cs.length - r.length) ≤ g → parseMember codec g cs = some (m, r)
  | 0, _, _, _, h => by
    rw [parseMember] at h
    cases h
  | f + 1, cs, m, r, h => by
    rw [parseMember] at h
    split at h
    · cases h
    next c rest heq =>
      have hsl := skipSpace_length cs
      rw [heq, List.length_cons] at hsl
      split_ifs at h with h1
      split at h
      · cases h
      next k r1 hk =>
        have hkl := (decodeString_fuel _ _ _ _ hk).1
        split at h
        · cases h
        next c2 r2 heq2 =>
          have hsl2 := skipSpace_length r1
          rw [heq2, List.length_cons] at hsl2
          split_ifs at h with h2
          split at h
          · cases h
          next v0 r3 hv0 =>
            simp only [Option.some.injEq, Prod.mk.injEq] at h
            obtain ⟨rfl, rfl⟩ := h
            obtain ⟨hlv, hgv⟩ := parseValue_fuel codec f _ v0 r3 hv0
            refine ⟨by omega, ?_⟩
            intro g hg
            obtain ⟨g1, rfl⟩ : ∃ g1, g = g1 + 1 := ⟨g - 1, by omega⟩
            rw [parseMember]
            simp only [heq]
            rw [if_pos h1]
            simp only [hk, heq2]
            rw [if_pos h2]
            rw [hgv g1 (by omega)]
/-- The remaining members of an object take at least one character, and are read the
same with any bound that is twice the number of characters they take. -/
theorem parseObjectTail_fuel {F : Type} (codec : NumberCodec F) :
    ∀ (f : Nat) (cs : List Char) (l : List (String × JSONValue F)) (r : List Char),
      parseObjectTail codec f cs = some (l, r) →
      r.length < cs.length ∧
        ∀ g, 2 * (cs.length - r.length) ≤ g → parseObjectTail codec g cs = some (l, r)
  | 0, _, _, _, h => by
    rw [parseObjectTail] at h
    cases h
  | f + 1, cs, l, r, h => by
    rw [parseObjectTail] at h
    split at h
    · cases h
    next c rest heq =>
      have hsl := skipSpace_length cs
      rw [heq, List.length_cons] at hsl
      split_ifs at h with h1 h2
      · split at h
        · cases h
        next m0 r1 hm0 =>
          split at h
          · cases h
          next l0 r2 hl0 =>
            simp only [Option.some.injEq, Prod.mk.injEq] at h
            obtain ⟨rfl, rfl⟩ := h
            obtain ⟨hlv, hgv⟩ := parseMember_fuel codec f _ m0 r1 hm0
            obtain ⟨hll, hgl⟩ := parseObjectTail_fuel codec f _ l0 r2 hl0
            refine ⟨by omega, ?_⟩
            intro g hg
            obtain ⟨g1, rfl⟩ : ∃ g1, g = g1 + 1 := ⟨g - 1, by omega⟩
            rw [parseObjectTail]
            simp only [heq]
            rw [if_pos h1]
            rw [hgv g1 (by omega)]
            simp only []
            rw [hgl g1 (by omega)]
      · simp only [Option.some.injEq, Prod.mk.injEq] at h
        obtain ⟨rfl, rfl⟩ := h
        refine ⟨by omega, ?_⟩
        intro g hg
        obtain ⟨g1, rfl⟩ : ∃ g1, g = g1 + 1 := ⟨g - 1, by omega⟩
        rw [parseObjectTail]
        simp only [heq]
        rw [if_neg h1, if_pos h2]
end


/-- The bound `parseFuel` is enough: a value that is read with some bound on the
nesting is read with the bound that `parseJSON` uses. -/
theorem parseValue_parseFuel {F : Type} (codec : NumberCodec F) (f : Nat)
    (text : List Char) (v : JSONValue F) (r : List Char)
    (h : parseValue codec f text = some (v, r)) :
    parseValue codec (parseFuel text.length) text = some (v, r) :=
  (parseValue_fuel codec f text v r h).2 _ (by unfold parseFuel; omega)

/-- A text that `parseJSON` rejects is not a JSON value followed by white space only,
whatever the bound on the nesting. -/
theorem parseJSON_none {F : Type} (codec : NumberCodec F) (text : List Char)
    (h : parseJSON codec text = none) (f : Nat) (v : JSONValue F) (r : List Char)
    (hf : parseValue codec f text = some (v, r)) : skipSpace r ≠ [] := by
  unfold parseJSON at h
  rw [parseValue_parseFuel codec f text v r hf] at h
  intro hs
  simp only [hs, if_true] at h
  cases h

/-! ### The proof store during `Relay.Validate` -/

/-- When the two functions that reach the proof store leave it as it is,
`Relay.Validate` leaves it as it is, on every path. -/
theorem Relay.ValidateOnStore_store {Cache S : Type} (env : Env Cache) (acc : StoreAccess S)
    (s : S) (cache : Cache) (r : Relay) (ctx : Ctx) (keeper : PosKeeper) (node : Validator)
    (hb : HostedBlockchains) (sbh N : Int) (app : Application)
    (hcount : ∀ s h, (acc.GetTotalProofs s h).2 = s)
    (hunique : ∀ s h p, (acc.IsUniqueProof s h p).2 = s) :
    (Relay.ValidateOnStore env acc s cache r ctx keeper node hb sbh N app).2 = s := by
  unfold Relay.ValidateOnStore
  simp only [hcount, hunique]
  repeat' split
  all_goals rfl

/-- With the store of the specification passed as state, the outcome of
`Relay.Validate` is the one of the embedding that reads the store from `env`. -/
theorem Relay.ValidateOnStore_outcome {Cache : Type} (env : Env Cache) (cache : Cache)
    (r : Relay) (ctx : Ctx) (keeper : PosKeeper) (node : Validator) (hb : HostedBlockchains)
    (sbh N : Int) (app : Application) :
    (Relay.ValidateOnStore env ProofStore.access env.proofs cache r ctx keeper node hb sbh N
      app).1 = Relay.Validate env cache r ctx keeper node hb sbh N app := by
  unfold Relay.ValidateOnStore Relay.Validate ProofStore.access
  simp only
  repeat' split
  all_goals simp_all

/-! ### Session derivation on a cache miss -/

/-- The outcome of `Relay.Validate` when every check before the session lookup passes,
the session is not in the cache and its derivation fails. -/
theorem Relay.Validate_derivation_error {Cache : Type} (env : Env Cache) (cache : Cache)
    (r : Relay) (ctx : Ctx) (keeper : PosKeeper) (node : Validator) (hb : HostedBlockchains)
    (sbh N : Int) (app : Application) (sessionContext : Ctx) (err : Error)
    (h1 : r.Payload.Validate = none)
    (h2 : r.Meta.Validate ctx env.globalClientBlockAllowance = none)
    (h3 : r.Proof.RequestHash = r.RequestHashString)
    (h4 : hb.Contains r.Proof.Blockchain = true)
    (h5 : IsUniqueProof env.proofs r.Proof.evidenceHeader r.Proof = true)
    (h6 : GetTotalProofs env.proofs r.Proof.evidenceHeader
      < overServiceBound env.platformInt64 app.MaxRelays app.Chains.length N)
    (h7 : env.ValidateLocal r.Proof app.Chains N sbh node.PublicKey = none)
    (h8 : env.PrevCtx ctx sbh = Except.ok sessionContext)
    (h9 : (env.GetSession cache ⟨app.PublicKey, r.Proof.Blockchain, sbh⟩).1 = none)
    (h10 : env.NewSession sessionContext ctx keeper ⟨app.PublicKey, r.Proof.Blockchain, sbh⟩
      (env.BlockHash sessionContext) N = Except.error err) :
    Relay.Validate env cache r ctx keeper node hb sbh N app
      = ⟨some err, r, (env.GetSession cache ⟨app.PublicKey, r.Proof.Blockchain, sbh⟩).2⟩ := by
  unfold RelayProof.evidenceHeader at h5 h6
  unfold Relay.Validate
  rw [if_neg (not_not.mpr h1)]
  simp only [h2]
  rw [if_neg (not_not.mpr h3)]
  simp only [h4, h5]
  simp only [Bool.not_true, Bool.false_eq_true, if_false]
  rw [if_neg (not_le.mpr h6)]
  simp only [h7, h8]
  rcases hgs : env.GetSession cache ⟨app.PublicKey, r.Proof.Blockchain, sbh⟩ with ⟨o, c1⟩
  rw [hgs] at h9
  simp only at h9
  subst h9
  simp only [h10]

/-! ### The invariant of the proof store -/

/-- The empty proof store is consistent. -/
theorem ProofStore.empty_consistent : ProofStore.empty.Consistent := by
  intro h k
  simp [ProofStore.empty]

/-- An insertion keeps the proof store consistent. -/
theorem ProofStore.insert_consistent (s s2 : ProofStore) (h : SessionHeader) (p : RelayProof)
    (hs : s.Consistent) (hins : s.insert h p = Except.ok s2) : s2.Consistent := by
  unfold ProofStore.insert at hins
  split_ifs at hins with hu
  cases hins
  intro h2 k
  by_cases hh : h2 = h
  · simp only [hh, if_true, List.mem_cons, List.map_append, List.map_cons, List.map_nil,
      List.mem_append, List.mem_singleton]
    rw [hs h k]
    tauto
  · simp only [hh, if_false]
    exact hs h2 k

/-- In a consistent store every proof is unique under a header without evidence. -/
theorem ProofStore.unique_of_no_evidence (s : ProofStore) (h : SessionHeader) (p : RelayProof)
    (hs : s.Consistent) (he : s.evidence h = []) : IsUniqueProof s h p = true := by
  unfold IsUniqueProof
  have hk := hs h p.uniqKey
  rw [he] at hk
  simp only [List.map_nil, List.not_mem_nil, iff_false] at hk
  simp [hk]

/-- An insertion adds the proof at the end of the evidence of its header. -/
theorem ProofStore.insert_evidence (s s2 : ProofStore) (h : SessionHeader) (p : RelayProof)
    (hins : s.insert h p = Except.ok s2) : s2.evidence h = s.evidence h ++ [p] := by
  unfold ProofStore.insert at hins
  split_ifs at hins with hu
  cases hins
  simp

/-! ### Below the over-service bound -/

/-- A relay that passes the six checks up to the over-service check is not answered
`OverService`, when the later checks never answer `OverService` themselves. -/
theorem Relay.Validate_not_over_service {Cache : Type} (env : Env Cache) (cache : Cache)
    (r : Relay) (ctx : Ctx) (keeper : PosKeeper) (node : Validator) (hb : HostedBlockchains)
    (sbh N : Int) (app : Application)
    (h1 : r.Payload.Validate = none)
    (h2 : r.Meta.Validate ctx env.globalClientBlockAllowance = none)
    (h3 : r.Proof.RequestHash = r.RequestHashString)
    (h4 : hb.Contains r.Proof.Blockchain = true)
    (h5 : IsUniqueProof env.proofs r.Proof.evidenceHeader r.Proof = true)
    (h6 : GetTotalProofs env.proofs r.Proof.evidenceHeader
      < overServiceBound env.platformInt64 app.MaxRelays app.Chains.length N)
    (hlater : env.laterChecksNeverAnswer Error.OverService) :
    (Relay.Validate env cache r ctx keeper node hb sbh N app).err ≠ some Error.OverService := by
  intro herr
  rw [Relay.Validate_err_later env cache r ctx keeper node hb sbh N app h1 h2 h3 h4 h5 h6]
    at herr
  obtain ⟨hl1, hl2, hl3⟩ := hlater
  cases hvl : env.ValidateLocal r.Proof app.Chains N sbh node.PublicKey with
  | some e =>
    rw [hvl] at herr
    exact hl1 _ _ _ _ _ (hvl.trans herr)
  | none =>
    rw [hvl] at herr
    cases hpc : env.PrevCtx ctx sbh with
    | error er =>
      rw [hpc] at herr
      cases herr
    | ok sessionContext =>
      rw [hpc] at herr
      simp only at herr
      cases hgs : (env.GetSession cache ⟨app.PublicKey, r.Proof.Blockchain, sbh⟩).1 with
      | some session =>
        rw [hgs] at herr
        exact hl3 _ _ _ _ herr
      | none =>
        rw [hgs] at herr
        simp only at herr
        cases hns : env.NewSession sessionContext ctx keeper
            ⟨app.PublicKey, r.Proof.Blockchain, sbh⟩ (env.BlockHash sessionContext) N with
        | error e =>
          rw [hns] at herr
          simp only at herr
          cases herr
          exact hl2 _ _ _ _ _ _ hns
        | ok session =>
          rw [hns] at herr
          exact hl3 _ _ _ _ herr

/-- The stored proof count is not negative. -/
theorem GetTotalProofs_nonneg (s : ProofStore) (h : SessionHeader) :
    0 ≤ GetTotalProofs s h := by
  unfold GetTotalProofs
  exact Int.natCast_nonneg _

/-- The relay left by `Relay.Validate` with the store passed as state: unchanged
when an error is returned. -/
theorem Relay.ValidateOnStore_relay {Cache S : Type} (env : Env Cache) (acc : StoreAccess S)
    (s : S) (cache : Cache) (r : Relay) (ctx : Ctx) (keeper : PosKeeper) (node : Validator)
    (hb : HostedBlockchains) (sbh N : Int) (app : Application)
    (herr : (Relay.ValidateOnStore env acc s cache r ctx keeper node hb sbh N app).1.err
      ≠ none) :
    (Relay.ValidateOnStore env acc s cache r ctx keeper node hb sbh N app).1.relay = r := by
  revert herr
  unfold Relay.ValidateOnStore
  simp only
  repeat' split
  all_goals simp_all

/-! ### The floating-point bound on operands from `2⁵³` on -/

/-- Rounding of a positive value whose binade is known. -/
theorem Float64.round_of_binade (q y : ℚ) (e : Int) (hq : 0 < q) (hlo : (2 : ℚ) ^ e ≤ q)
    (hhi : q < (2 : ℚ) ^ (e + 1)) (he : -1022 ≤ e) (hy : Float64.roundTo e q = y)
    (hy0 : 0 ≤ y) (hmax : y ≤ Float64.maxFinite) :
    Float64.round q = Float64.finite y := by
  have hlog : Int.log 2 q = e := by
    apply le_antisymm
    · have h1 : Int.log 2 q < e + 1 := by
        rw [← Int.lt_zpow_iff_log_lt (by norm_num) hq]
        exact_mod_cast hhi
      omega
    · rw [← Int.zpow_le_iff_le_log (by norm_num) hq]
      exact_mod_cast hlo
  unfold Float64.round
  rw [if_neg (ne_of_gt hq)]
  simp only
  rw [abs_of_pos hq, hlog, max_eq_left he, hy, if_neg (not_lt.mpr hmax),
    if_neg (not_lt.mpr (by have := Float64.maxFinite_ge; linarith))]

/-- The conversion of `2⁵³ + 1` rounds to `2⁵³`: the tie goes to the even
significand. -/
theorem Float64.ofInt_two_pow_53_succ :
    Float64.ofInt (2 ^ 53 + 1) = Float64.finite (2 ^ 53) := by
  unfold Float64.ofInt
  have hm := Float64.maxFinite_ge
  apply Float64.round_of_binade _ _ 53
  · norm_num
  · norm_num
  · norm_num
  · norm_num
  · unfold Float64.roundTo roundHalfEven
    norm_num
  · norm_num
  · linarith [show (2 : ℚ) ^ 53 ≤ 2 ^ 54 by norm_num]

/-- A power of two up to `2⁶²` is a `float64` value. -/
theorem Float64.round_two_pow (k : ℕ) (hk : k ≤ 62) :
    Float64.round ((2 : ℚ) ^ k) = Float64.finite (2 ^ k) := by
  apply Float64.round_of_binade _ _ (k : Int)
  · positivity
  · rw [zpow_natCast]
  · rw [show ((k : Int) + 1) = ((k + 1 : ℕ) : Int) by push_cast; rfl, zpow_natCast]
    exact pow_lt_pow_right₀ (by norm_num) (Nat.lt_succ_self k)
  · omega
  · unfold Float64.roundTo
    rw [← zpow_natCast (2 : ℚ) k, ← zpow_sub₀ (by norm_num)]
    rw [show ((k : Int) - ((k : Int) - 52)) = ((52 : ℕ) : Int) by push_cast; ring, zpow_natCast]
    rw [show ((2 : ℚ) ^ 52) = (((2 ^ 52 : Int)) : ℚ) by push_cast; rfl, roundHalfEven_intCast]
    push_cast
    rw [show (4503599627370496 : ℚ) = (2 : ℚ) ^ (52 : ℤ) by norm_num,
      ← zpow_add₀ (by norm_num)]
    congr 1
    ring
  · positivity
  · unfold Float64.maxFinite
    have h1 : (2 : ℚ) ^ k ≤ 2 ^ 62 := pow_le_pow_right₀ (by norm_num) hk
    have h2 : (2 : ℚ) ^ 62 ≤ (2 ^ 53 - 1) * 2 ^ 971 := by norm_num
    linarith

/-- The bound of the over-service check for a relay allowance `2ᵏ`, one chain and
`2⁵³ + 1` nodes per session is `2ᵏ⁻⁵³`: the node count is rounded to `2⁵³`. -/
theorem overServiceBound_large_session (platform : Float64 → Int) (k : ℕ) (h53 : 53 ≤ k)
    (h62 : k ≤ 62) :
    overServiceBound platform (2 ^ k) 1 (2 ^ 53 + 1) = 2 ^ (k - 53) := by
  unfold overServiceBound
  have h1 : Float64.ofInt (2 ^ k) = Float64.finite (2 ^ k) := by
    unfold Float64.ofInt
    have := Float64.round_two_pow k h62
    push_cast
    exact this
  have h2 : Float64.ofInt ((1 : ℕ) : Int) = Float64.finite 1 := by
    have := Float64.ofInt_exact 1 (by norm_num) (by norm_num)
    simpa using this
  have hceil : ((⌈(2 : ℚ) ^ k⌉ : Int) : ℚ) = 2 ^ k := by
    rw [show ((2 : ℚ) ^ k) = (((2 ^ k : Int)) : ℚ) by push_cast; rfl, Int.ceil_intCast]
  have hq : (2 : ℚ) ^ k / 2 ^ 53 = 2 ^ (k - 53) := by
    rw [div_eq_iff (by positivity), ← pow_add]
    congr 1
    omega
  rw [Float64.ofInt_two_pow_53_succ, h1, h2, Float64.div_finite _ _ one_ne_zero, div_one,
    Float64.round_two_pow k h62]
  unfold Float64.ceil
  simp only
  rw [hceil, Float64.div_finite _ _ (by positivity), hq,
    Float64.round_two_pow (k - 53) (by omega)]
  unfold Float64.toInt64
  simp only
  have hfl : ⌊(2 : ℚ) ^ (k - 53)⌋ = 2 ^ (k - 53) := by
    rw [show ((2 : ℚ) ^ (k - 53)) = (((2 ^ (k - 53) : Int)) : ℚ) by push_cast; rfl,
      Int.floor_intCast]
  have hin : inInt64 ((2 : Int) ^ (k - 53)) := by
    unfold inInt64
    have hle : (2 : Int) ^ (k - 53) ≤ 2 ^ 9 := pow_le_pow_right₀ (by norm_num) (by omega)
    have hpos : (0 : Int) < 2 ^ (k - 53) := by positivity
    constructor
    · linarith
    · linarith [show (2 : Int) ^ 9 < 2 ^ 63 by norm_num]
  rw [if_pos (show (0 : ℚ) ≤ 2 ^ (k - 53) by positivity), hfl, if_pos hin]

/-! ### The responses written by the RPC handlers -/

/-- The response written by `Dispatch`, by the outcome of its steps. -/
theorem rpc.Dispatch_cases {Res : Type} (env : QuerySteps SessionHeader Res) (r : Request)
    (hcors : env.cors r = true) :
    (∀ e, env.PopModel r = Except.error e → rpc.Dispatch env r = [ResponseWrite.error 400 e])
    ∧ (∀ d e, env.PopModel r = Except.ok d → env.Query d = Except.error e →
        rpc.Dispatch env r = [ResponseWrite.error 400 (env.errorText e)])
    ∧ (∀ d res e, env.PopModel r = Except.ok d → env.Query d = Except.ok res →
        env.Marshal res = Except.error e → rpc.Dispatch env r = [ResponseWrite.error 400 e])
    ∧ (∀ d res j, env.PopModel r = Except.ok d → env.Query d = Except.ok res →
        env.Marshal res = Except.ok j →
        rpc.Dispatch env r = [ResponseWrite.json j r.URLPath r.Host]) := by
  unfold rpc.Dispatch
  simp only [hcors, Bool.not_true, Bool.false_eq_true, if_false]
  refine ⟨?_, ?_, ?_, ?_⟩
  · intro e h1
    simp only [h1]
  · intro d e h1 h2
    simp only [h1, h2]
  · intro d res e h1 h2 h3
    simp only [h1, h2, h3]
  · intro d res j h1 h2 h3
    simp only [h1, h2, h3]

/-- The response written by `Relay`, by the outcome of its steps. -/
theorem rpc.Relay_cases {Res : Type} (env : QuerySteps Pocket.Relay Res) (r : Request)
    (hcors : env.cors r = true) :
    (∀ e, env.PopModel r = Except.error e → rpc.Relay env r = [ResponseWrite.error 400 e])
    ∧ (∀ d e, env.PopModel r = Except.ok d → env.Query d = Except.error e →
        rpc.Relay env r = [ResponseWrite.error 400 (env.errorText e)])
    ∧ (∀ d res e, env.PopModel r = Except.ok d → env.Query d = Except.ok res →
        env.Marshal res = Except.error e → rpc.Relay env r = [ResponseWrite.error 400 e])
    ∧ (∀ d res j, env.PopModel r = Except.ok d → env.Query d = Except.ok res →
        env.Marshal res = Except.ok j →
        rpc.Relay env r = [ResponseWrite.json j r.URLPath r.Host]) := by
  unfold rpc.Relay
  simp only [hcors, Bool.not_true, Bool.false_eq_true, if_false]
  refine ⟨?_, ?_, ?_, ?_⟩
  · intro e h1
    simp only [h1]
  · intro d e h1 h2
    simp only [h1, h2]
  · intro d res e h1 h2 h3
    simp only [h1, h2, h3]
  · intro d res j h1 h2 h3
    simp only [h1, h2, h3]

/-- The response written by `Challenge`, by the outcome of its steps. -/
theorem rpc.Challenge_cases {Model Res : Type} (env : QuerySteps Model Res) (r : Request)
    (hcors : env.cors r = true) :
    (∀ e, env.PopModel r = Except.error e → rpc.Challenge env r = [ResponseWrite.error 400 e])
    ∧ (∀ d e, env.PopModel r = Except.ok d → env.Query d = Except.error e →
        rpc.Challenge env r = [ResponseWrite.error 400 (env.errorText e)])
    ∧ (∀ d res e, env.PopModel r = Except.ok d → env.Query d = Except.ok res →
        env.Marshal res = Except.error e → rpc.Challenge env r = [ResponseWrite.error 400 e])
    ∧ (∀ d res j, env.PopModel r = Except.ok d → env.Query d = Except.ok res →
        env.Marshal res = Except.ok j →
        rpc.Challenge env r = [ResponseWrite.json j r.URLPath r.Host]) := by
  unfold rpc.Challenge
  simp only [hcors, Bool.not_true, Bool.false_eq_true, if_false]
  refine ⟨?_, ?_, ?_, ?_⟩
  · intro e h1
    simp only [h1]
  · intro d e h1 h2
    simp only [h1, h2]
  · intro d res e h1 h2 h3
    simp only [h1, h2, h3]
  · intro d res j h1 h2 h3
    simp only [h1, h2, h3]

/-- The response written by `SendRawTx`, by the outcome of its steps. -/
theorem rpc.SendRawTx_cases {Res : Type} (env : RawTxSteps Res) (r : Request)
    (hcors : env.cors r = true) :
    (∀ e, env.PopModel r = Except.error e → rpc.SendRawTx env r = [ResponseWrite.error 400 e])
    ∧ (∀ p, env.PopModel r = Except.ok p → hexDecode p.RawHexBytes = none →
        rpc.SendRawTx env r = [ResponseWrite.error 400 (env.hexErrorText p.RawHexBytes)])
    ∧ (∀ p bz e, env.PopModel r = Except.ok p → hexDecode p.RawHexBytes = some bz →
        env.SendRawTx p.Addr bz = Except.error e →
        rpc.SendRawTx env r = [ResponseWrite.error 400 (env.errorText e)])
    ∧ (∀ p bz res e, env.PopModel r = Except.ok p → hexDecode p.RawHexBytes = some bz →
        env.SendRawTx p.Addr bz = Except.ok res → env.MarshalJSON res = Except.error e →
        rpc.SendRawTx env r = [ResponseWrite.error 400 e])
    ∧ (∀ p bz res j, env.PopModel r = Except.ok p → hexDecode p.RawHexBytes = some bz →
        env.SendRawTx p.Addr bz = Except.ok res → env.MarshalJSON res = Except.ok j →
        rpc.SendRawTx env r = [ResponseWrite.plain j r.URLPath r.Host]) := by
  unfold rpc.SendRawTx
  simp only [hcors, Bool.not_true, Bool.false_eq_true, if_false]
  refine ⟨?_, ?_, ?_, ?_, ?_⟩
  · intro e h1
    simp only [h1]
  · intro p h1 h2
    simp only [h1, h2]
  · intro p bz e h1 h2 h3
    simp only [h1, h2, h3]
  · intro p bz res e h1 h2 h3 h4
    simp only [h1, h2, h3, h4]
  · intro p bz res j h1 h2 h3 h4
    simp only [h1, h2, h3, h4]

/-! ### The legacy dispatcher -/

/-- On a peer list of two entries `Find` compares the low 64 bits of the two distances:
the node with the smaller key comes first, and when the keys are equal the node visited
last fills both positions. -/
theorem dispatch.Find_pair {Node : Type} [Inhabited Node] (undefinedInt : String → Int)
    (sessionKey g₁ g₂ : String) (n₁ n₂ : Node) :
    dispatch.Find undefinedInt sessionKey [(g₁, n₁), (g₂, n₂)]
      = if Uint64 (proximity undefinedInt sessionKey g₁)
            = Uint64 (proximity undefinedInt sessionKey g₂) then [n₂, n₂]
        else if Uint64 (proximity undefinedInt sessionKey g₁)
            < Uint64 (proximity undefinedInt sessionKey g₂) then [n₁, n₂]
        else [n₂, n₁] := by
  simp only [dispatch.Find, List.foldl, FindLoop.step, proximity, List.nil_append,
    List.singleton_append, List.insertionSort, List.orderedInsert]
  by_cases hab : Uint64 (SetString undefinedInt sessionKey - SetString undefinedInt g₁).natAbs
      = Uint64 (SetString undefinedInt sessionKey - SetString undefinedInt g₂).natAbs
  · simp [hab]
  · by_cases hlt : Uint64 (SetString undefinedInt sessionKey - SetString undefinedInt g₁).natAbs
        < Uint64 (SetString undefinedInt sessionKey - SetString undefinedInt g₂).natAbs
    · simp [Function.update, hab, hlt, hlt.le]
    · have hle : ¬ Uint64 (SetString undefinedInt sessionKey - SetString undefinedInt g₁).natAbs
          ≤ Uint64 (SetString undefinedInt sessionKey - SetString undefinedInt g₂).natAbs := by
        omega
      simp [Function.update, hab, Ne.symm hab, hlt, hle]

/-- Numbers read from the node IDs and session keys of the scenarios of the dispatcher. -/
theorem SetString_scenarios (undefinedInt : String → Int) :
    SetString undefinedInt "0" = 0 ∧ SetString undefinedInt "1" = 1
    ∧ SetString undefinedInt "3" = 3 ∧ SetString undefinedInt "5" = 5
    ∧ SetString undefinedInt "10000000000000000" = 2 ^ 64 :=
  ⟨rfl, rfl, rfl, rfl, rfl⟩

/-! ### The header map of the request -/

/-- The values of a key after `Header.Set`: the new value under the canonical key, the
values of before under every other key. -/
theorem Header.Set_lookup (h : Header) (key value k : String) :
    List.lookup k (Header.Set h key value)
      = if k = CanonicalMIMEHeaderKey key then some [value] else List.lookup k h := by
  unfold Header.Set
  induction h with
  | nil =>
    by_cases hk : k = CanonicalMIMEHeaderKey key
    · simp [List.lookup, hk]
    · have hb : (k == CanonicalMIMEHeaderKey key) = false := by simpa using hk
      simp [List.lookup, hk, hb]
  | cons x xs ih =>
    obtain ⟨a, b⟩ := x
    by_cases ha : a = CanonicalMIMEHeaderKey key
    · subst ha
      simp only [List.filter, ne_eq, not_true_eq_false, decide_False]
      rw [ih]
      by_cases hk : k = CanonicalMIMEHeaderKey key
      · simp [hk]
      · have hb : (k == CanonicalMIMEHeaderKey key) = false := by simpa using hk
        simp [List.lookup, hk, hb]
    · have hf : decide (a ≠ CanonicalMIMEHeaderKey key) = true := by simpa using ha
      simp only [List.filter, hf, List.cons_append]
      by_cases hka : k = a
      · subst hka
        simp [List.lookup, ha]
      · have hb : (k == a) = false := by simpa using hka
        simp only [List.lookup, hb]
        exact ih

/-- No key is listed twice after `Header.Set`. -/
theorem Header.Set_nodup (h : Header) (key value : String)
    (hn : (h.map Prod.fst).Nodup) : ((Header.Set h key value).map Prod.fst).Nodup := by
  unfold Header.Set
  rw [List.map_append, List.nodup_append]
  refine ⟨(hn.sublist ((List.filter_sublist h).map Prod.fst)), by simp, ?_⟩
  intro a ha hb
  simp only [List.map_cons, List.map_nil, List.mem_singleton] at hb
  subst hb
  simp only [List.mem_map, List.mem_filter] at ha
  obtain ⟨e, ⟨-, he⟩, heq⟩ := ha
  simp [heq] at he

/-- No key is listed twice after the loop of `Header.Set` calls. -/
theorem Header.foldl_Set_nodup (l : List (String × String)) (h : Header)
    (hn : (h.map Prod.fst).Nodup) :
    ((l.foldl (fun h e => Header.Set h e.1 e.2) h).map Prod.fst).Nodup := by
  induction l generalizing h with
  | nil => exact hn
  | cons x xs ih => exact ih _ (Header.Set_nodup h x.1 x.2 hn)

/-- The values of a key after the loop of `Header.Set` calls over the entries `l`: the
value of the last entry whose canonical key it is, the values of before when there is
none. -/
theorem Header.foldl_Set_lookup (l : List (String × String)) (h : Header) (k : String) :
    List.lookup k (l.foldl (fun h e => Header.Set h e.1 e.2) h)
      = ((l.reverse.find? fun e => CanonicalMIMEHeaderKey e.1 = k).map
          fun e => some [e.2]).getD (List.lookup k h) := by
  induction l generalizing h with
  | nil => rfl
  | cons x xs ih =>
    rw [List.foldl_cons, ih, Header.Set_lookup, List.reverse_cons, List.find?_append]
    cases hfind : List.find? (fun e => decide (CanonicalMIMEHeaderKey e.1 = k)) xs.reverse with
    | some e => simp
    | none =>
      by_cases hk : k = CanonicalMIMEHeaderKey x.1
      · simp [hk]
      · have hk2 : ¬ CanonicalMIMEHeaderKey x.1 = k := fun h => hk h.symm
        simp [hk, hk2]

/-- The loop of `Header.Set` calls over entries with distinct keys in canonical form
adds the entries as they are. -/
theorem Header.foldl_Set_canonical (l : List (String × String)) (h : Header)
    (hn : (l.map Prod.fst).Nodup) (hc : ∀ e ∈ l, CanonicalMIMEHeaderKey e.1 = e.1)
    (hd : ∀ e ∈ l, ∀ x ∈ h, x.1 ≠ e.1) :
    l.foldl (fun h e => Header.Set h e.1 e.2) h = h ++ l.map fun e => (e.1, [e.2]) := by
  induction l generalizing h with
  | nil => simp
  | cons x xs ih =>
    rw [List.map_cons, List.nodup_cons] at hn
    have hset : Header.Set h x.1 x.2 = h ++ [(x.1, [x.2])] := by
      unfold Header.Set
      rw [hc x (List.mem_cons_self _ _)]
      congr 1
      rw [List.filter_eq_self]
      intro a ha
      simpa using hd x (List.mem_cons_self _ _) a ha
    rw [List.foldl_cons, hset, ih _ hn.2 (fun e he => hc e (List.mem_cons_of_mem _ he))]
    · simp
    · intro e he a ha
      rw [List.mem_append, List.mem_singleton] at ha
      rcases ha with ha | ha
      · exact hd e (List.mem_cons_of_mem _ he) a ha
      · subst ha
        intro heq
        exact hn.1 (heq ▸ List.mem_map_of_mem Prod.fst he)

/-! ### The JSON codec of a relay proof -/

/-- Among names that differ from each other, the key that is the name of a field
selects that field. -/
theorem fieldIndex_getElem (names : List String) (hn : names.Nodup) (i : Nat)
    (hi : i < names.length) : fieldIndex names (names.get ⟨i, hi⟩) = some i := by
  unfold fieldIndex
  rw [if_pos (List.get_mem names i hi)]
  exact congrArg some (List.get_indexOf hn ⟨i, hi⟩ ▸ rfl)

/-- Decoding the value written for a token gives the token back, whatever the variable
held. -/
theorem AAT.decodeToken_toValue (keys : ProofKeys) (hk : keys.tokenNames.Nodup) (old a : AAT) :
    AAT.decode keys old (AAT.toValue keys a) = some a := by
  have i0 : fieldIndex keys.tokenNames keys.Version = some 0 :=
    fieldIndex_getElem keys.tokenNames hk 0 (by simp [ProofKeys.tokenNames, ProofKeys.proofNames])
  have i1 : fieldIndex keys.tokenNames keys.ApplicationPublicKey = some 1 :=
    fieldIndex_getElem keys.tokenNames hk 1 (by simp [ProofKeys.tokenNames, ProofKeys.proofNames])
  have i2 : fieldIndex keys.tokenNames keys.ClientPublicKey = some 2 :=
    fieldIndex_getElem keys.tokenNames hk 2 (by simp [ProofKeys.tokenNames, ProofKeys.proofNames])
  have i3 : fieldIndex keys.tokenNames keys.ApplicationSignature = some 3 :=
    fieldIndex_getElem keys.tokenNames hk 3 (by simp [ProofKeys.tokenNames, ProofKeys.proofNames])
  simp [AAT.decode, AAT.toValue, AAT.decodeMembers, AAT.decodeMember, i0, i1, i2, i3,
    decodeStringField]

/-- Decoding the value written for a proof whose numbers are `int64` values gives the
proof back, whatever the variable held. -/
theorem RelayProof.decodeProof_toValue (keys : ProofKeys) (hk : keys.Distinct)
    (old p : RelayProof) (he : inInt64 p.Entropy) (hs : inInt64 p.SessionBlockHeight) :
    RelayProof.decode keys old (RelayProof.toValue keys p) = some p := by
  have i0 : fieldIndex keys.proofNames keys.RequestHash = some 0 :=
    fieldIndex_getElem keys.proofNames hk.1 0 (by simp [ProofKeys.tokenNames, ProofKeys.proofNames])
  have i1 : fieldIndex keys.proofNames keys.Entropy = some 1 :=
    fieldIndex_getElem keys.proofNames hk.1 1 (by simp [ProofKeys.tokenNames, ProofKeys.proofNames])
  have i2 : fieldIndex keys.proofNames keys.SessionBlockHeight = some 2 :=
    fieldIndex_getElem keys.proofNames hk.1 2 (by simp [ProofKeys.tokenNames, ProofKeys.proofNames])
  have i3 : fieldIndex keys.proofNames keys.ServicerPubKey = some 3 :=
    fieldIndex_getElem keys.proofNames hk.1 3 (by simp [ProofKeys.tokenNames, ProofKeys.proofNames])
  have i4 : fieldIndex keys.proofNames keys.Blockchain = some 4 :=
    fieldIndex_getElem keys.proofNames hk.1 4 (by simp [ProofKeys.tokenNames, ProofKeys.proofNames])
  have i5 : fieldIndex keys.proofNames keys.Token = some 5 :=
    fieldIndex_getElem keys.proofNames hk.1 5 (by simp [ProofKeys.tokenNames, ProofKeys.proofNames])
  have i6 : fieldIndex keys.proofNames keys.Signature = some 6 :=
    fieldIndex_getElem keys.proofNames hk.1 6 (by simp [ProofKeys.tokenNames, ProofKeys.proofNames])
  simp [RelayProof.decode, RelayProof.toValue, RelayProof.decodeMembers,
    RelayProof.decodeMember, i0, i1, i2, i3, i4, i5, i6, decodeStringField, decodeInt64Field,
    intLiteral_val, ParseInt_jsonInt _ he, ParseInt_jsonInt _ hs,
    AAT.decodeToken_toValue keys hk.2]

/-- The codec of the proof reads back what it writes. -/
theorem RelayProof.codec_round_trip (keys : ProofKeys) (hk : keys.Distinct)
    (old p : RelayProof) (he : inInt64 p.Entropy) (hs : inInt64 p.SessionBlockHeight) :
    (RelayProof.codec keys).decode old ((RelayProof.codec keys).encode p) = some p :=
  RelayProof.decodeProof_toValue keys hk old p he hs

/-- The JSON names of the scenarios differ from each other. -/
theorem Scenario.proofKeys_distinct : Scenario.proofKeys.Distinct := by
  unfold ProofKeys.Distinct
  constructor <;> decide

/-! ### Go strings that hold valid UTF-8 -/

/-- The number of a character is a Unicode scalar value. -/
theorem Char.toNat_valid (c : Char) :
    c.toNat < 0xD800 ∨ (0xDFFF < c.toNat ∧ c.toNat < 0x110000) := c.valid

/-- `utf8.DecodeRuneInString` reads the encoding of a character back. -/
theorem DecodeRuneInString_utf8EncodeChar (c : Char) (rest : List Nat) :
    DecodeRuneInString (utf8EncodeChar c ++ rest) = (c.toNat, (utf8EncodeChar c).length) := by
  have hv := Char.toNat_valid c
  unfold utf8EncodeChar
  simp only
  split_ifs with h1 h2 h3
  · simp [DecodeRuneInString, h1]
  · have hb : ¬ (0xC0 + c.toNat / 64 < 0x80) := by omega
    have hr : 0xC2 ≤ 0xC0 + c.toNat / 64 ∧ 0xC0 + c.toNat / 64 ≤ 0xDF := by omega
    have ha : acceptLo (0xC0 + c.toNat / 64) ≤ 0x80 + c.toNat % 64
        ∧ 0x80 + c.toNat % 64 ≤ acceptHi (0xC0 + c.toNat / 64) := by
      unfold acceptLo acceptHi
      split_ifs <;> omega
    simp only [List.cons_append, List.nil_append, DecodeRuneInString, if_neg hb, if_pos hr,
      if_pos ha, List.length_cons, List.length_nil]
    congr 1
    omega
  · have hb : ¬ (0xE0 + c.toNat / 4096 < 0x80) := by omega
    have hr : ¬ (0xC2 ≤ 0xE0 + c.toNat / 4096 ∧ 0xE0 + c.toNat / 4096 ≤ 0xDF) := by omega
    have hr3 : 0xE0 ≤ 0xE0 + c.toNat / 4096 ∧ 0xE0 + c.toNat / 4096 ≤ 0xEF := by omega
    have ha : acceptLo (0xE0 + c.toNat / 4096) ≤ 0x80 + c.toNat / 64 % 64
        ∧ 0x80 + c.toNat / 64 % 64 ≤ acceptHi (0xE0 + c.toNat / 4096)
        ∧ 0x80 ≤ 0x80 + c.toNat % 64 ∧ 0x80 + c.toNat % 64 ≤ 0xBF := by
      unfold acceptLo acceptHi
      split_ifs <;> omega
    simp only [List.cons_append, List.nil_append, DecodeRuneInString, if_neg hb, if_neg hr,
      if_pos hr3, if_pos ha, List.length_cons, List.length_nil]
    congr 1
    omega
  · have hb : ¬ (0xF0 + c.toNat / 262144 < 0x80) := by omega
    have hr : ¬ (0xC2 ≤ 0xF0 + c.toNat / 262144 ∧ 0xF0 + c.toNat / 262144 ≤ 0xDF) := by omega
    have hr3 : ¬ (0xE0 ≤ 0xF0 + c.toNat / 262144 ∧ 0xF0 + c.toNat / 262144 ≤ 0xEF) := by
      omega
    have hr4 : 0xF0 ≤ 0xF0 + c.toNat / 262144 ∧ 0xF0 + c.toNat / 262144 ≤ 0xF4 := by omega
    have ha : acceptLo (0xF0 + c.toNat / 262144) ≤ 0x80 + c.toNat / 4096 % 64
        ∧ 0x80 + c.toNat / 4096 % 64 ≤ acceptHi (0xF0 + c.toNat / 262144)
        ∧ 0x80 ≤ 0x80 + c.toNat / 64 % 64 ∧ 0x80 + c.toNat / 64 % 64 ≤ 0xBF
        ∧ 0x80 ≤ 0x80 + c.toNat % 64 ∧ 0x80 + c.toNat % 64 ≤ 0xBF := by
      unfold acceptLo acceptHi
      split_ifs <;> omega
    simp only [List.cons_append, List.nil_append, DecodeRuneInString, if_neg hb, if_neg hr,
      if_neg hr3, if_pos hr4, if_pos ha, List.length_cons, List.length_nil]
    congr 1
    omega

/-- Passing over the bytes still to skip. -/
theorem encodeStringBytes_skip (l rest : List Nat) :
    encodeStringBytes l.length (l ++ rest) = encodeStringBytes 0 rest := by
  induction l with
  | nil => rfl
  | cons x xs ih =>
    rw [List.length_cons, List.cons_append, encodeStringBytes]
    exact ih

/-- The first byte of the encoding of a character is below `0x80` exactly when the
character is. -/
theorem utf8EncodeChar_head (c : Char) :
    ∃ b tail, utf8EncodeChar c = b :: tail ∧ (b < 0x80 ↔ c.toNat < 0x80)
      ∧ (c.toNat < 0x80 → b = c.toNat ∧ tail = []) := by
  have hv := Char.toNat_valid c
  unfold utf8EncodeChar
  simp only
  split_ifs with h1 h2 h3
  · exact ⟨_, _, rfl, Iff.rfl, fun _ => ⟨rfl, rfl⟩⟩
  · exact ⟨_, _, rfl, by omega, fun h => absurd h h1⟩
  · exact ⟨_, _, rfl, by omega, fun h => absurd h h1⟩
  · exact ⟨_, _, rfl, by omega, fun h => absurd h h1⟩

/-- On the encoding of a character the byte loop of the encoder writes what the encoder
of the model writes for the character. -/
theorem encodeStringBytes_utf8EncodeChar (c : Char) (rest : List Nat) :
    encodeStringBytes 0 (utf8EncodeChar c ++ rest)
      = jsonEscapeChar c ++ encodeStringBytes 0 rest := by
  have hdec := DecodeRuneInString_utf8EncodeChar c rest
  obtain ⟨b, tail, hbt, hlt, hsmall⟩ := utf8EncodeChar_head c
  rw [hbt] at hdec ⊢
  rw [List.cons_append] at hdec ⊢
  rw [encodeStringBytes]
  by_cases hb : b < 0x80
  · obtain ⟨hbc, htail⟩ := hsmall (hlt.1 hb)
    rw [if_pos hb, hbc, htail, Char.ofNat_toNat, List.nil_append]
  · have hlen : 2 ≤ (b :: tail).length := by
      have hn : ¬ c.toNat < 0x80 := fun h => hb (hlt.2 h)
      have hl : 2 ≤ (utf8EncodeChar c).length := by
        unfold utf8EncodeChar
        simp only
        split_ifs <;> simp
      rwa [hbt] at hl
    have hne : ¬ DecodeRuneInString (b :: (tail ++ rest)) = (0xFFFD, 1) := by
      rw [hdec]
      intro h
      have h2 := congrArg Prod.snd h
      simp only at h2
      omega
    rw [if_neg hb, if_neg hne, hdec]
    simp only [List.length_cons, Nat.add_sub_cancel, Char.ofNat_toNat]
    rw [encodeStringBytes_skip]

/-- On the bytes of a string of the model the byte loop of the encoder writes what the
encoder of the model writes. -/
theorem encodeStringBytes_utf8Bytes (s : List Char) :
    encodeStringBytes 0 (s.flatMap utf8EncodeChar) = s.flatMap jsonEscapeChar := by
  induction s with
  | nil => rfl
  | cons c cs ih =>
    rw [List.flatMap_cons, List.flatMap_cons, encodeStringBytes_utf8EncodeChar, ih]

/-- The encoding of a Go string that holds valid UTF-8 is the encoding of the string of
the model with these bytes. -/
theorem jsonStringOfBytes_utf8Bytes (s : String) :
    jsonStringOfBytes (utf8Bytes s) = jsonString s := by
  unfold jsonStringOfBytes jsonString utf8Bytes
  rw [encodeStringBytes_utf8Bytes]

/-- The text of a relay whose data hold valid UTF-8 is the text of the relay of the
model with these data. -/
theorem Relay.MarshalOfData_utf8Bytes (pc : ProofCodec) (r : Relay) :
    Relay.MarshalOfData pc (utf8Bytes r.Payload.Data) r = Relay.Marshal pc r := by
  unfold Relay.MarshalOfData Relay.Marshal Payload.MarshalJSONOfData Payload.MarshalJSON
  rw [jsonStringOfBytes_utf8Bytes]

/-! ## Claims -/

/-- C1: `Relay.Validate` reports the first failing check in the order payload, meta,
request hash, hosted chain: an empty payload gives `EmptyPayloadData`; otherwise a failing
meta check gives `OutOfSyncRequest` (in particular a meta height with `|h - m| > a` when
`h ± a` do not overflow); otherwise a request hash that differs gives `RequestHash`;
otherwise a chain that is not hosted gives `UnsupportedBlockchainNode`. In each of the four
cases the relay and the session cache are returned as they were, and the outcome is the
same for every proof store, session cache and session deriver (any two environments that
agree on the allowance give the same error). -/
theorem C1_validate_first_failing_check {Cache : Type} (env : Env Cache) (cache : Cache)
    (r : Relay) (ctx : Ctx) (keeper : PosKeeper) (node : Validator) (hb : HostedBlockchains)
    (sbh N : Int) (app : Application) :
    (r.Payload.Validate ≠ none →
      Relay.Validate env cache r ctx keeper node hb sbh N app
        = ⟨some Error.EmptyPayloadData, r, cache⟩)
    ∧ (r.Payload.Validate = none →
        r.Meta.Validate ctx env.globalClientBlockAllowance ≠ none →
        Relay.Validate env cache r ctx keeper node hb sbh N app
          = ⟨some Error.OutOfSyncRequest, r, cache⟩)
    ∧ (r.Payload.Validate = none →
        r.Meta.Validate ctx env.globalClientBlockAllowance = none →
        r.Proof.RequestHash ≠ r.RequestHashString →
        Relay.Validate env cache r ctx keeper node hb sbh N app
          = ⟨some Error.RequestHash, r, cache⟩)
    ∧ (r.Payload.Validate = none →
        r.Meta.Validate ctx env.globalClientBlockAllowance = none →
        r.Proof.RequestHash = r.RequestHashString →
        hb.Contains r.Proof.Blockchain = false →
        Relay.Validate env cache r ctx keeper node hb sbh N app
          = ⟨some Error.UnsupportedBlockchainNode, r, cache⟩)
    ∧ (r.Payload.Validate = none →
        inInt64 (ctx.BlockHeight + env.globalClientBlockAllowance) →
        inInt64 (ctx.BlockHeight - env.globalClientBlockAllowance) →
        ¬ |ctx.BlockHeight - r.Meta.BlockHeight| ≤ env.globalClientBlockAllowance →
        Relay.Validate env cache r ctx keeper node hb sbh N app
          = ⟨some Error.OutOfSyncRequest, r, cache⟩)
    ∧ (∀ (env2 : Env Cache) (cache2 : Cache),
        env2.globalClientBlockAllowance = env.globalClientBlockAllowance →
        (r.Payload.Validate ≠ none
          ∨ r.Meta.Validate ctx env.globalClientBlockAllowance ≠ none
          ∨ r.Proof.RequestHash ≠ r.RequestHashString
          ∨ hb.Contains r.Proof.Blockchain = false) →
        (Relay.Validate env2 cache2 r ctx keeper node hb sbh N app).err
            = (Relay.Validate env cache r ctx keeper node hb sbh N app).err
          ∧ (Relay.Validate env2 cache2 r ctx keeper node hb sbh N app).cache = cache2) := by
  obtain ⟨l1, l2, l3, l4⟩ := Relay.Validate_leading env cache r ctx keeper node hb sbh N app
  refine ⟨l1, l2, l3, l4, ?_, ?_⟩
  · intro h1 hadd hsub hout
    apply l2 h1
    intro hn
    apply hout
    have hw := (RelayMeta.Validate_eq_none_iff ctx.BlockHeight env.globalClientBlockAllowance
      r.Meta.BlockHeight hadd hsub).mp hn
    rw [abs_le]
    constructor <;> omega
  intro env2 cache2 ha hfail
  obtain ⟨m1, m2, m3, m4⟩ := Relay.Validate_leading env2 cache2 r ctx keeper node hb sbh N app
  rw [ha] at m2 m3 m4
  by_cases h1 : r.Payload.Validate = none
  · by_cases h2 : r.Meta.Validate ctx env.globalClientBlockAllowance = none
    · by_cases h3 : r.Proof.RequestHash = r.RequestHashString
      · have h4 : hb.Contains r.Proof.Blockchain = false := by
          rcases hfail with h | h | h | h
          · exact absurd h1 h
          · exact absurd h2 h
          · exact absurd h3 h
          · exact h
        rw [m4 h1 h2 h3 h4, l4 h1 h2 h3 h4]
        exact ⟨rfl, rfl⟩
      · rw [m3 h1 h2 h3, l3 h1 h2 h3]
        exact ⟨rfl, rfl⟩
    · rw [m2 h1 h2, l2 h1 h2]
      exact ⟨rfl, rfl⟩
  · rw [m1 h1, l1 h1]
    exact ⟨rfl, rfl⟩

/-- Witness of C1 on the two failing cases of `TestRelay_Validate`: the relay with an
empty payload is answered `EmptyPayloadData`, and the valid relay on a node that does not
host its chain is answered `UnsupportedBlockchainNode`. -/
theorem C1_validate_first_failing_check_witness :
    Relay.Validate (Scenario.env ProofStore.empty) [] Scenario.emptyPayloadRelay Scenario.ctx
        Scenario.keeper Scenario.selfNode Scenario.hb 1 5 (Scenario.app 1000)
      = ⟨some Error.EmptyPayloadData, Scenario.emptyPayloadRelay, []⟩
    ∧ Relay.Validate (Scenario.env ProofStore.empty) [] (Scenario.relay 1) Scenario.ctx
        Scenario.keeper Scenario.selfNode Scenario.hbNotSupported 1 5 (Scenario.app 1000)
      = ⟨some Error.UnsupportedBlockchainNode, Scenario.relay 1, []⟩ :=
  ⟨(C1_validate_first_failing_check (Scenario.env ProofStore.empty) [] Scenario.emptyPayloadRelay
      Scenario.ctx Scenario.keeper Scenario.selfNode Scenario.hb 1 5 (Scenario.app 1000)).1
      (by decide),
   (C1_validate_first_failing_check (Scenario.env ProofStore.empty) [] (Scenario.relay 1)
      Scenario.ctx Scenario.keeper Scenario.selfNode Scenario.hbNotSupported 1 5
      (Scenario.app 1000)).2.2.2.1
      (Scenario.relay_payload_valid 1) (Scenario.relay_meta_valid 1 _)
      (Scenario.relay_hash_matches 1) (by decide)⟩

set_option maxRecDepth 100000 in
/-- C2 (evaluation of the code): `Relay.RequestHash` returns the marshalled JSON of
the payload and the meta without hashing it. For the relay of `TestRelay_Validate` it is
the 165 bytes of the JSON text, which is also what the hex string of
`RequestHashString` decodes to; and for every relay it is longer than a digest. -/
theorem C2_request_hash_is_marshalled_json :
    (Scenario.relay 1).RequestHash
      = utf8Bytes "\x7b\"payload\":\x7b\"data\":\"\x7b\\\"jsonrpc\\\":\\\"2.0\\\",\\\"method\\\":\\\"web3_clientVersion\\\",\\\"params\\\":[],\\\"id\\\":67\x7d\",\"method\":\"\",\"path\":\"\",\"headers\":null\x7d,\"meta\":\x7b\"block_height\":1\x7d\x7d"
    ∧ (Scenario.relay 1).RequestHash.length = 165
    ∧ hexDecode (Scenario.relay 1).RequestHashString = some (Scenario.relay 1).RequestHash
    ∧ HashLength = 32
    ∧ ∀ r : Relay, HashLength < r.RequestHash.length := by
  refine ⟨rfl, rfl, rfl, rfl, ?_⟩
  intro r
  have h := Relay.RequestHash_length_ge r
  unfold HashLength
  omega

/-- C3: for a current height `h`, allowance `a ≥ 0` and meta height `m` (with `h + a`
and `h - a` not overflowing `int64`), `RelayMeta.Validate` returns nil exactly when
`|h - m| ≤ a` and `OutOfSyncRequest` otherwise; `m = h ± a` is accepted and
`m = h ± (a + 1)` is rejected. -/
theorem C3_meta_validate_window (h a m : Int) (ha : 0 ≤ a)
    (hadd : inInt64 (h + a)) (hsub : inInt64 (h - a)) :
    (RelayMeta.Validate ⟨m⟩ ⟨h⟩ a = none ↔ |h - m| ≤ a)
    ∧ (RelayMeta.Validate ⟨m⟩ ⟨h⟩ a = some Error.OutOfSyncRequest ↔ ¬ |h - m| ≤ a)
    ∧ RelayMeta.Validate ⟨h + a⟩ ⟨h⟩ a = none
    ∧ RelayMeta.Validate ⟨h - a⟩ ⟨h⟩ a = none
    ∧ RelayMeta.Validate ⟨h + a + 1⟩ ⟨h⟩ a = some Error.OutOfSyncRequest
    ∧ RelayMeta.Validate ⟨h - a - 1⟩ ⟨h⟩ a = some Error.OutOfSyncRequest := by
  have key : ∀ m' : Int, (RelayMeta.Validate ⟨m'⟩ ⟨h⟩ a = none ↔ |h - m'| ≤ a)
      ∧ (RelayMeta.Validate ⟨m'⟩ ⟨h⟩ a = some Error.OutOfSyncRequest ↔ ¬ |h - m'| ≤ a) := by
    intro m'
    have hw := RelayMeta.Validate_eq_none_iff h a m' hadd hsub
    have habs : |h - m'| ≤ a ↔ (h - a ≤ m' ∧ m' ≤ h + a) := by
      rw [abs_le]
      constructor <;> intro hb <;> constructor <;> omega
    constructor
    · rw [hw, habs]
    · rw [habs, ← hw]
      constructor
      · intro he hn
        rw [hn] at he
        cases he
      · intro hn
        exact RelayMeta.Validate_ne_none _ _ _ hn
  refine ⟨(key m).1, (key m).2, ?_, ?_, ?_, ?_⟩
  · exact (key (h + a)).1.2 (by rw [abs_le]; omega)
  · exact (key (h - a)).1.2 (by rw [abs_le]; omega)
  · exact (key (h + a + 1)).2.2 (by rw [abs_le]; omega)
  · exact (key (h - a - 1)).2.2 (by rw [abs_le]; omega)

/-- Witness of C3 at the specification's out-of-sync scenario: height 100, allowance 5,
meta height 120 is rejected. -/
theorem C3_meta_validate_window_witness :
    RelayMeta.Validate ⟨120⟩ ⟨100⟩ 5 = some Error.OutOfSyncRequest :=
  (C3_meta_validate_window 100 5 120 (by decide) (by decide) (by decide)).2.1.2 (by decide)

/-- C4: `Payload.Validate` returns the empty-payload error exactly when both `Data` and
`Path` are empty, and nil for every other payload, whatever `Method` and `Headers` are. -/
theorem C4_payload_validate (p : Payload) :
    (p.Validate = some Error.EmptyPayloadData ↔ (p.Data = "" ∧ p.Path = ""))
    ∧ (¬ (p.Data = "" ∧ p.Path = "") → p.Validate = none)
    ∧ (∀ method headers,
        Payload.Validate { p with Method := method, Headers := headers } = p.Validate) := by
  unfold Payload.Validate
  refine ⟨?_, ?_, ?_⟩
  · by_cases hc : p.Data = "" ∧ p.Path = ""
    · simp [hc]
    · simp [hc]
  · intro hc
    simp [hc]
  · intro _ _
    rfl

/-- C5 (counterexample): with `max_relays = 10`, one chain and `N = 3`, a relay that
passes the five earlier checks on a header holding 3 proofs is answered `OverService`,
although `3 ≥ ⌈10 / 1⌉ / 3` fails for the exact rational quotient `10 / 3`. -/
theorem C5_rational_quotient_counterexample :
    (Scenario.relay 4).Payload.Validate = none
    ∧ (Scenario.relay 4).Meta.Validate Scenario.ctx 5 = none
    ∧ (Scenario.relay 4).Proof.RequestHash = (Scenario.relay 4).RequestHashString
    ∧ Scenario.hb.Contains (Scenario.relay 4).Proof.Blockchain = true
    ∧ IsUniqueProof (Scenario.store [1, 2, 3]) (Scenario.relay 4).Proof.evidenceHeader
        (Scenario.relay 4).Proof = true
    ∧ (Scenario.app 10).MaxRelays = 10 ∧ (Scenario.app 10).Chains.length = 1
    ∧ GetTotalProofs (Scenario.store [1, 2, 3]) (Scenario.relay 4).Proof.evidenceHeader = 3
    ∧ (Relay.Validate (Scenario.env (Scenario.store [1, 2, 3])) [] (Scenario.relay 4)
        Scenario.ctx Scenario.keeper Scenario.selfNode Scenario.hb 1 3 (Scenario.app 10)).err
        = some Error.OverService
    ∧ ¬ ((3 : ℚ) ≥ ((⌈(10 : ℚ) / 1⌉ : Int) : ℚ) / 3) := by
  have hu : IsUniqueProof (Scenario.store [1, 2, 3]) (Scenario.relay 4).Proof.evidenceHeader
      (Scenario.relay 4).Proof = true := by decide
  have hcount : GetTotalProofs (Scenario.store [1, 2, 3])
      (Scenario.relay 4).Proof.evidenceHeader = 3 := by
    rw [Scenario.relay_header, Scenario.store_count]
    rfl
  refine ⟨Scenario.relay_payload_valid 4, Scenario.relay_meta_valid 4 ProofStore.empty,
    Scenario.relay_hash_matches 4, Scenario.relay_chain_hosted 4, hu, rfl, rfl, hcount, ?_, ?_⟩
  · have hv := (Relay.Validate_store_checks (Scenario.env (Scenario.store [1, 2, 3])) []
      (Scenario.relay 4) Scenario.ctx Scenario.keeper Scenario.selfNode Scenario.hb 1 3
      (Scenario.app 10) (Scenario.relay_payload_valid 4) (Scenario.relay_meta_valid 4 _)
      (Scenario.relay_hash_matches 4) (Scenario.relay_chain_hosted 4)).2 hu
      (by
        show GetTotalProofs (Scenario.store [1, 2, 3]) (Scenario.relay 4).Proof.evidenceHeader
          ≥ overServiceBound _ 10 1 3
        rw [hcount, Scenario.bound_ten_one_three])
    rw [hv]
  · norm_num

/-- C5 (amended): for a relay that passes the payload, meta, request-hash, hosted-chain
and uniqueness checks, with `0 ≤ max_relays < 2⁵³`, `1 ≤ |chains| < 2⁵³` and
`1 ≤ N < 2⁵³` (operands that `float64` holds exactly), and later checks that never answer
`OverService` themselves, `Relay.Validate` returns `OverService` if and only if
`count(header) ≥ ⌊⌈max_relays / |chains|⌉ / N⌋`: the conversion to `int64` truncates the
quotient by `N`. -/
theorem C5_over_service_iff_truncated_bound {Cache : Type} (env : Env Cache) (cache : Cache)
    (r : Relay) (ctx : Ctx) (keeper : PosKeeper) (node : Validator) (hb : HostedBlockchains)
    (sbh N : Int) (app : Application)
    (h1 : r.Payload.Validate = none)
    (h2 : r.Meta.Validate ctx env.globalClientBlockAllowance = none)
    (h3 : r.Proof.RequestHash = r.RequestHashString)
    (h4 : hb.Contains r.Proof.Blockchain = true)
    (h5 : IsUniqueProof env.proofs r.Proof.evidenceHeader r.Proof = true)
    (hm0 : 0 ≤ app.MaxRelays) (hm : app.MaxRelays < 2 ^ 53)
    (hc : 1 ≤ app.Chains.length) (hc2 : (app.Chains.length : Int) < 2 ^ 53)
    (hN : 1 ≤ N) (hN2 : N < 2 ^ 53)
    (hlater : env.laterChecksNeverAnswer Error.OverService) :
    (Relay.Validate env cache r ctx keeper node hb sbh N app).err = some Error.OverService
      ↔ GetTotalProofs env.proofs r.Proof.evidenceHeader
          ≥ ⌊((⌈(app.MaxRelays : ℚ) / ((app.Chains.length : Int) : ℚ)⌉ : Int) : ℚ) / (N : ℚ)⌋ := by
  rw [← overServiceBound_exact env.platformInt64 app.MaxRelays app.Chains.length N hm0 hm hc hc2
    hN hN2]
  constructor
  · intro herr
    by_contra hcon
    have h6 := not_le.mp hcon
    rw [Relay.Validate_err_later env cache r ctx keeper node hb sbh N app h1 h2 h3 h4 h5 h6]
      at herr
    obtain ⟨hl1, hl2, hl3⟩ := hlater
    cases hvl : env.ValidateLocal r.Proof app.Chains N sbh node.PublicKey with
    | some e =>
      rw [hvl] at herr
      exact hl1 _ _ _ _ _ (hvl.trans herr)
    | none =>
      rw [hvl] at herr
      cases hpc : env.PrevCtx ctx sbh with
      | error er =>
        rw [hpc] at herr
        cases herr
      | ok sessionContext =>
        rw [hpc] at herr
        simp only at herr
        cases hgs : (env.GetSession cache ⟨app.PublicKey, r.Proof.Blockchain, sbh⟩).1 with
        | some session =>
          rw [hgs] at herr
          exact hl3 _ _ _ _ herr
        | none =>
          rw [hgs] at herr
          simp only at herr
          cases hns : env.NewSession sessionContext ctx keeper
              ⟨app.PublicKey, r.Proof.Blockchain, sbh⟩ (env.BlockHash sessionContext) N with
          | error e =>
            rw [hns] at herr
            simp only at herr
            cases herr
            exact hl2 _ _ _ _ _ _ hns
          | ok session =>
            rw [hns] at herr
            exact hl3 _ _ _ _ herr
  · intro h6
    rw [(Relay.Validate_store_checks env cache r ctx keeper node hb sbh N app h1 h2 h3 h4).2
      h5 h6]

/-- Witness of C5 (amended) on the scenario with `max_relays = 10`, one chain, `N = 3`
and two stored proofs. -/
theorem C5_over_service_iff_truncated_bound_witness :
    (Relay.Validate (Scenario.env (Scenario.store [1, 2])) [] (Scenario.relay 4)
        Scenario.ctx Scenario.keeper Scenario.selfNode Scenario.hb 1 3 (Scenario.app 10)).err
        = some Error.OverService
      ↔ GetTotalProofs (Scenario.env (Scenario.store [1, 2])).proofs
          (Scenario.relay 4).Proof.evidenceHeader
          ≥ ⌊((⌈((Scenario.app 10).MaxRelays : ℚ)
              / (((Scenario.app 10).Chains.length : Int) : ℚ)⌉ : Int) : ℚ) / ((3 : Int) : ℚ)⌋ :=
  C5_over_service_iff_truncated_bound (Scenario.env (Scenario.store [1, 2])) []
    (Scenario.relay 4) Scenario.ctx Scenario.keeper Scenario.selfNode Scenario.hb 1 3
    (Scenario.app 10) (Scenario.relay_payload_valid 4) (Scenario.relay_meta_valid 4 _)
    (Scenario.relay_hash_matches 4) (Scenario.relay_chain_hosted 4) (by decide)
    (by decide) (by decide) (by decide) (by decide) (by decide) (by decide)
    (Scenario.env_later_checks _)

/-- C6: for a relay that passes the payload, meta, request-hash and hosted-chain
checks, a proof that is not unique under its evidence header is answered `DuplicateProof`,
also when the stored proof count reaches the over-service bound; `OverService` is answered
only for a unique proof. -/
theorem C6_duplicate_before_over_service {Cache : Type} (env : Env Cache) (cache : Cache)
    (r : Relay) (ctx : Ctx) (keeper : PosKeeper) (node : Validator) (hb : HostedBlockchains)
    (sbh N : Int) (app : Application)
    (h1 : r.Payload.Validate = none)
    (h2 : r.Meta.Validate ctx env.globalClientBlockAllowance = none)
    (h3 : r.Proof.RequestHash = r.RequestHashString)
    (h4 : hb.Contains r.Proof.Blockchain = true) :
    (IsUniqueProof env.proofs r.Proof.evidenceHeader r.Proof = false →
      Relay.Validate env cache r ctx keeper node hb sbh N app
        = ⟨some Error.DuplicateProof, r, cache⟩)
    ∧ (IsUniqueProof env.proofs r.Proof.evidenceHeader r.Proof = false →
        GetTotalProofs env.proofs r.Proof.evidenceHeader
          ≥ overServiceBound env.platformInt64 app.MaxRelays app.Chains.length N →
        (Relay.Validate env cache r ctx keeper node hb sbh N app).err
          = some Error.DuplicateProof)
    ∧ ((Relay.Validate env cache r ctx keeper node hb sbh N app).err = some Error.OverService →
        IsUniqueProof env.proofs r.Proof.evidenceHeader r.Proof = true) := by
  have hdup := (Relay.Validate_store_checks env cache r ctx keeper node hb sbh N app
    h1 h2 h3 h4).1
  refine ⟨hdup, ?_, ?_⟩
  · intro h5 _
    rw [hdup h5]
  · intro herr
    by_contra h5
    rw [Bool.not_eq_true] at h5
    rw [hdup h5] at herr
    cases herr

/-- Witness of C6: the scenario relay with entropy 1 replayed on a store that already
holds the proofs with entropies 1, 2 and 3, while the bound is 3. -/
theorem C6_duplicate_before_over_service_witness :
    GetTotalProofs (Scenario.store [1, 2, 3]) (Scenario.relay 1).Proof.evidenceHeader
        ≥ overServiceBound (Scenario.env (Scenario.store [1, 2, 3])).platformInt64
            (Scenario.app 10).MaxRelays (Scenario.app 10).Chains.length 3
    ∧ Relay.Validate (Scenario.env (Scenario.store [1, 2, 3])) [] (Scenario.relay 1)
        Scenario.ctx Scenario.keeper Scenario.selfNode Scenario.hb 1 3 (Scenario.app 10)
      = ⟨some Error.DuplicateProof, Scenario.relay 1, []⟩ :=
  ⟨by
      show GetTotalProofs (Scenario.store [1, 2, 3]) (Scenario.relay 1).Proof.evidenceHeader
        ≥ overServiceBound _ 10 1 3
      rw [Scenario.bound_ten_one_three, Scenario.relay_header, Scenario.store_count]
      decide,
   (C6_duplicate_before_over_service (Scenario.env (Scenario.store [1, 2, 3])) []
      (Scenario.relay 1) Scenario.ctx Scenario.keeper Scenario.selfNode Scenario.hb 1 3
      (Scenario.app 10) (Scenario.relay_payload_valid 1) (Scenario.relay_meta_valid 1 _)
      (Scenario.relay_hash_matches 1) (Scenario.relay_chain_hosted 1)).1 (by decide)⟩

/-- C7: `Relay.Validate` returns nil exactly when the payload is non-empty, the meta
height is within the allowance, the proof's request hash is `RequestHashString()`, the
chain is hosted, the proof is unique under its evidence header, the stored proof count is
below the over-service bound, `ValidateLocal` succeeds, the context at the session height
is available, the session is found in the cache or derived without error, and the session
validates. -/
theorem C7_validate_nil_iff_all_checks {Cache : Type} (env : Env Cache) (cache : Cache)
    (r : Relay) (ctx : Ctx) (keeper : PosKeeper) (node : Validator) (hb : HostedBlockchains)
    (sbh N : Int) (app : Application) :
    (Relay.Validate env cache r ctx keeper node hb sbh N app).err = none
      ↔ (r.Payload.Validate = none
        ∧ r.Meta.Validate ctx env.globalClientBlockAllowance = none
        ∧ r.Proof.RequestHash = r.RequestHashString
        ∧ hb.Contains r.Proof.Blockchain = true
        ∧ IsUniqueProof env.proofs r.Proof.evidenceHeader r.Proof = true
        ∧ GetTotalProofs env.proofs r.Proof.evidenceHeader
            < overServiceBound env.platformInt64 app.MaxRelays app.Chains.length N
        ∧ env.ValidateLocal r.Proof app.Chains N sbh node.PublicKey = none
        ∧ ∃ sessionContext, env.PrevCtx ctx sbh = Except.ok sessionContext
          ∧ ∃ session,
            ((env.GetSession cache ⟨app.PublicKey, r.Proof.Blockchain, sbh⟩).1 = some session
              ∨ ((env.GetSession cache ⟨app.PublicKey, r.Proof.Blockchain, sbh⟩).1 = none
                ∧ env.NewSession sessionContext ctx keeper
                    ⟨app.PublicKey, r.Proof.Blockchain, sbh⟩ (env.BlockHash sessionContext) N
                  = Except.ok session))
            ∧ env.SessionValidate session node app N = none) := by
  obtain ⟨l1, l2, l3, l4⟩ := Relay.Validate_leading env cache r ctx keeper node hb sbh N app
  constructor
  · intro herr
    have h1 : r.Payload.Validate = none := by
      by_contra h
      rw [l1 h] at herr
      cases herr
    have h2 : r.Meta.Validate ctx env.globalClientBlockAllowance = none := by
      by_contra h
      rw [l2 h1 h] at herr
      cases herr
    have h3 : r.Proof.RequestHash = r.RequestHashString := by
      by_contra h
      rw [l3 h1 h2 h] at herr
      cases herr
    have h4 : hb.Contains r.Proof.Blockchain = true := by
      by_contra h
      rw [Bool.not_eq_true] at h
      rw [l4 h1 h2 h3 h] at herr
      cases herr
    obtain ⟨s1, s2⟩ := Relay.Validate_store_checks env cache r ctx keeper node hb sbh N app
      h1 h2 h3 h4
    have h5 : IsUniqueProof env.proofs r.Proof.evidenceHeader r.Proof = true := by
      by_contra h
      rw [Bool.not_eq_true] at h
      rw [s1 h] at herr
      cases herr
    have h6 : GetTotalProofs env.proofs r.Proof.evidenceHeader
        < overServiceBound env.platformInt64 app.MaxRelays app.Chains.length N := by
      by_contra h
      rw [s2 h5 (not_lt.mp h)] at herr
      cases herr
    rw [Relay.Validate_err_later env cache r ctx keeper node hb sbh N app h1 h2 h3 h4 h5 h6]
      at herr
    refine ⟨h1, h2, h3, h4, h5, h6, ?_⟩
    cases hvl : env.ValidateLocal r.Proof app.Chains N sbh node.PublicKey with
    | some e =>
      rw [hvl] at herr
      cases herr
    | none =>
      rw [hvl] at herr
      refine ⟨rfl, ?_⟩
      cases hpc : env.PrevCtx ctx sbh with
      | error er =>
        rw [hpc] at herr
        cases herr
      | ok sessionContext =>
        rw [hpc] at herr
        simp only at herr
        refine ⟨sessionContext, rfl, ?_⟩
        cases hgs : (env.GetSession cache ⟨app.PublicKey, r.Proof.Blockchain, sbh⟩).1 with
        | some session =>
          rw [hgs] at herr
          exact ⟨session, Or.inl rfl, herr⟩
        | none =>
          rw [hgs] at herr
          simp only at herr
          cases hns : env.NewSession sessionContext ctx keeper
              ⟨app.PublicKey, r.Proof.Blockchain, sbh⟩ (env.BlockHash sessionContext) N with
          | error e =>
            rw [hns] at herr
            cases herr
          | ok session =>
            rw [hns] at herr
            exact ⟨session, Or.inr ⟨rfl, rfl⟩, herr⟩
  · rintro ⟨h1, h2, h3, h4, h5, h6, h7, sessionContext, h8, session, h9, h10⟩
    rw [Relay.Validate_err_later env cache r ctx keeper node hb sbh N app h1 h2 h3 h4 h5 h6,
      h7, h8]
    simp only
    rcases h9 with h9 | ⟨h9, h9n⟩
    · rw [h9]
      exact h10
    · rw [h9]
      simp only
      rw [h9n]
      exact h10

/-- C8: after a proof `p` is inserted into the proof store under a header `h`,
`IsUniqueProof(h, p)` is false and a second insertion is refused with `DuplicateProof`;
when `h` is the header of `p` (the insertion is `p.Store()`), `Relay.Validate` of every relay
carrying `p` that passes the four earlier checks returns `DuplicateProof`. -/
theorem C8_stored_proof_is_not_unique (s s2 : ProofStore) (h : SessionHeader) (p : RelayProof)
    (hins : s.insert h p = Except.ok s2) :
    IsUniqueProof s2 h p = false
    ∧ s2.insert h p = Except.error Error.DuplicateProof
    ∧ (p.evidenceHeader = h →
        p.Store s = Except.ok s2
        ∧ p.Store s2 = Except.error Error.DuplicateProof
        ∧ ∀ (Cache : Type) (env : Env Cache) (cache : Cache) (r : Relay) (ctx : Ctx)
            (keeper : PosKeeper) (node : Validator) (hb : HostedBlockchains) (sbh N : Int)
            (app : Application),
            env.proofs = s2 → r.Proof = p →
            r.Payload.Validate = none →
            r.Meta.Validate ctx env.globalClientBlockAllowance = none →
            r.Proof.RequestHash = r.RequestHashString →
            hb.Contains r.Proof.Blockchain = true →
            Relay.Validate env cache r ctx keeper node hb sbh N app
              = ⟨some Error.DuplicateProof, r, cache⟩) := by
  have hnot : IsUniqueProof s2 h p = false := by
    unfold ProofStore.insert at hins
    split_ifs at hins with hu
    cases hins
    simp [IsUniqueProof]
  have hsecond : s2.insert h p = Except.error Error.DuplicateProof := by
    unfold ProofStore.insert
    rw [hnot]
    rfl
  refine ⟨hnot, hsecond, ?_⟩
  intro hh
  subst hh
  refine ⟨hins, hsecond, ?_⟩
  intro Cache env cache r ctx keeper node hb sbh N app henv hp h1 h2 h3 h4
  subst hp
  subst henv
  exact (Relay.Validate_store_checks env cache r ctx keeper node hb sbh N app h1 h2 h3 h4).1 hnot

/-- Witness of C8: the proof of the scenario relay stored into the empty store. -/
theorem C8_stored_proof_is_not_unique_witness :
    IsUniqueProof (Scenario.store [1]) Scenario.header (Scenario.relay 1).Proof = false
    ∧ (Scenario.store [1]).insert Scenario.header (Scenario.relay 1).Proof
        = Except.error Error.DuplicateProof :=
  ⟨(C8_stored_proof_is_not_unique ProofStore.empty (Scenario.store [1]) Scenario.header
      (Scenario.relay 1).Proof rfl).1,
   (C8_stored_proof_is_not_unique ProofStore.empty (Scenario.store [1]) Scenario.header
      (Scenario.relay 1).Proof rfl).2.1⟩

/-- C9: the hash of a relay response does not depend on its signature: replacing the
`Signature` field by any string leaves `Hash()` and `HashString()` unchanged, and two
responses with the same `Response` and `Proof` have the same hash. -/
theorem C9_response_hash_ignores_signature (Hash : List Nat → List Nat)
    (proofHashString : RelayProof → String) (rr : RelayResponse) (s : String) :
    RelayResponse.Hash Hash proofHashString { rr with Signature := s }
        = rr.Hash Hash proofHashString
    ∧ RelayResponse.HashString Hash proofHashString { rr with Signature := s }
        = rr.HashString Hash proofHashString
    ∧ ∀ rr2 : RelayResponse, rr2.Response = rr.Response → rr2.Proof = rr.Proof →
        rr2.Hash Hash proofHashString = rr.Hash Hash proofHashString := by
  refine ⟨rfl, rfl, ?_⟩
  intro rr2 hr hp
  unfold RelayResponse.Hash
  rw [hr, hp]

/-- C10 (evaluation of the code): a response with a non-empty `Response` and the
signature `"ab"`, which decodes to one byte and not to the 64 bytes of a signature, is
accepted by `RelayResponse.Validate`. -/
theorem C10_short_signature_is_accepted :
    Scenario.shortSignatureResponse.Response ≠ ""
    ∧ hexDecode Scenario.shortSignatureResponse.Signature = some [171]
    ∧ ¬ (∃ bs, hexDecode Scenario.shortSignatureResponse.Signature = some bs
          ∧ bs.length = Ed25519SignatureSize)
    ∧ Scenario.shortSignatureResponse.Validate = none := by
  refine ⟨by decide, by decide, ?_, by decide⟩
  rintro ⟨bs, hbs, hlen⟩
  have hd : hexDecode Scenario.shortSignatureResponse.Signature = some [171] := by decide
  rw [hd] at hbs
  cases hbs
  revert hlen
  decide

/-- C11: when `Relay.Validate` returns nil, the method of the payload afterwards is
`"POST"` if it was empty before the call and is unchanged otherwise, and the data, path and
headers of the payload, the meta and the proof are unchanged. -/
theorem C11_method_defaulted_on_success {Cache : Type} (env : Env Cache) (cache : Cache)
    (r : Relay) (ctx : Ctx) (keeper : PosKeeper) (node : Validator) (hb : HostedBlockchains)
    (sbh N : Int) (app : Application)
    (hok : (Relay.Validate env cache r ctx keeper node hb sbh N app).err = none) :
    (Relay.Validate env cache r ctx keeper node hb sbh N app).relay.Payload.Method
        = (if r.Payload.Method = "" then "POST" else r.Payload.Method)
    ∧ (Relay.Validate env cache r ctx keeper node hb sbh N app).relay.Payload.Data
        = r.Payload.Data
    ∧ (Relay.Validate env cache r ctx keeper node hb sbh N app).relay.Payload.Path
        = r.Payload.Path
    ∧ (Relay.Validate env cache r ctx keeper node hb sbh N app).relay.Payload.Headers
        = r.Payload.Headers
    ∧ (Relay.Validate env cache r ctx keeper node hb sbh N app).relay.Meta = r.Meta
    ∧ (Relay.Validate env cache r ctx keeper node hb sbh N app).relay.Proof = r.Proof := by
  obtain ⟨_, hkeep, hset⟩ := Relay.Validate_relay env cache r ctx keeper node hb sbh N app
  by_cases hm : r.Payload.Method = ""
  · rw [hset hok hm, if_pos hm]
    exact ⟨rfl, rfl, rfl, rfl, rfl, rfl⟩
  · rw [hkeep hok hm, if_neg hm]
    exact ⟨rfl, rfl, rfl, rfl, rfl, rfl⟩

/-- Witness of C11 on the valid relay of `TestRelay_Validate`, whose method is empty. -/
theorem C11_method_defaulted_on_success_witness :
    (Relay.Validate (Scenario.env ProofStore.empty) [] (Scenario.relay 1) Scenario.ctx
      Scenario.keeper Scenario.selfNode Scenario.hb 1 5 (Scenario.app 1000)).relay.Payload.Method
        = (if (Scenario.relay 1).Payload.Method = "" then "POST"
            else (Scenario.relay 1).Payload.Method)
    ∧ (Relay.Validate (Scenario.env ProofStore.empty) [] (Scenario.relay 1) Scenario.ctx
      Scenario.keeper Scenario.selfNode Scenario.hb 1 5 (Scenario.app 1000)).relay.Proof
        = (Scenario.relay 1).Proof :=
  ⟨(C11_method_defaulted_on_success (Scenario.env ProofStore.empty) [] (Scenario.relay 1)
      Scenario.ctx Scenario.keeper Scenario.selfNode Scenario.hb 1 5 (Scenario.app 1000)
      Scenario.valid_relay_accepted.1).1,
   (C11_method_defaulted_on_success (Scenario.env ProofStore.empty) [] (Scenario.relay 1)
      Scenario.ctx Scenario.keeper Scenario.selfNode Scenario.hb 1 5 (Scenario.app 1000)
      Scenario.valid_relay_accepted.1).2.2.2.2.2⟩

/-- C12 (counterexample): for the hosted-chain URL `https://server.com/relay/` and the
payload path `v1/query/`, `Relay.Execute` requests `https://server.com/relay/v1/query`,
while `strip_trailing_slash(u) + "/" + strip_leading_slash(p)` keeps the trailing slash of
the path. -/
theorem C12_trailing_slash_of_path_counterexample :
    (Relay.Execute (Scenario.execEnv 200 "bar") (Scenario.executeRelay "v1/query/")
        Scenario.hbExecute).sent.map HTTPRequest.URL
      = some "https://server.com/relay/v1/query"
    ∧ specURL "https://server.com/relay/" "v1/query/" = "https://server.com/relay/v1/query/"
    ∧ (Relay.Execute (Scenario.execEnv 200 "bar") (Scenario.executeRelay "v1/query/")
        Scenario.hbExecute).sent.map HTTPRequest.URL
      ≠ some (specURL "https://server.com/relay/" "v1/query/") := by
  refine ⟨by decide, by decide, by decide⟩

/-- C12 (amended): for a hosted-chain URL `u` and a payload path `p`, the URL that
`Relay.Execute` requests is `trim(u) + "/" + trim(p)`, where `trim` removes every leading
and every trailing slash (`strings.Trim`): `u` and `p` are their trimmed forms between
slashes, and the trimmed forms neither start nor end with a slash. -/
theorem C12_execute_url_trims_both_ends {F : Type} (env : ExecEnv F) (r : Relay)
    (hb : HostedBlockchains) (u : String)
    (hurl : env.GetChainURL hb r.Proof.Blockchain = Except.ok u)
    (hreq : env.NewRequestError r.Payload.Method
      (trimSlashes u ++ "/" ++ trimSlashes r.Payload.Path) = none) :
    (Relay.Execute env r hb).sent.map HTTPRequest.URL
      = some (trimSlashes u ++ "/" ++ trimSlashes r.Payload.Path)
    ∧ (∃ a b : List Char, (∀ c ∈ a, c = '/') ∧ (∀ c ∈ b, c = '/')
        ∧ u.data = a ++ (trimSlashes u).data ++ b)
    ∧ (∃ a b : List Char, (∀ c ∈ a, c = '/') ∧ (∀ c ∈ b, c = '/')
        ∧ r.Payload.Path.data = a ++ (trimSlashes r.Payload.Path).data ++ b)
    ∧ (trimSlashes u).data.head? ≠ some '/' ∧ (trimSlashes u).data.getLast? ≠ some '/'
    ∧ (trimSlashes r.Payload.Path).data.head? ≠ some '/'
    ∧ (trimSlashes r.Payload.Path).data.getLast? ≠ some '/' := by
  refine ⟨?_, trimSlashes_decompose u, trimSlashes_decompose r.Payload.Path,
    (trimSlashes_ends u).1, (trimSlashes_ends u).2, (trimSlashes_ends r.Payload.Path).1,
    (trimSlashes_ends r.Payload.Path).2⟩
  have hsent := executeHTTPRequest_sent env r.Payload.Data
    (trimSlashes u ++ "/" ++ trimSlashes r.Payload.Path) r.Payload.Method r.Payload.Headers hreq
  rw [Relay.Execute_of_url env r hb u hurl]
  simp only [hsent]
  rfl

/-- Witness of C12 (amended) on `TestRelay_Execute`: the chain URL
`https://server.com/relay/` and the empty path give `https://server.com/relay/`. -/
theorem C12_execute_url_trims_both_ends_witness :
    (Relay.Execute (Scenario.execEnv 200 "bar") (Scenario.executeRelay "")
        Scenario.hbExecute).sent.map HTTPRequest.URL
      = some (trimSlashes "https://server.com/relay/" ++ "/" ++ trimSlashes "") :=
  (C12_execute_url_trims_both_ends (Scenario.execEnv 200 "bar") (Scenario.executeRelay "")
    Scenario.hbExecute "https://server.com/relay/" (Scenario.execute_url 200 "bar" "") rfl).1

/-- C13 (counterexample): an upstream response with status code 204 and body `bar` is
answered with the status-code error and an empty result, although `200 ≤ 204 ≤ 299`. -/
theorem C13_status_204_counterexample :
    (200 : Int) ≤ 204 ∧ (204 : Int) ≤ 299
    ∧ (Scenario.execEnv 204 "bar").globalSortJSONResponses = false
    ∧ (executeHTTPRequest (Scenario.execEnv 204 "bar") "foo" "https://server.com/relay/"
        "POST" none).res = ""
    ∧ (executeHTTPRequest (Scenario.execEnv 204 "bar") "foo" "https://server.com/relay/"
        "POST" none).err = some (GoError.sdk (Error.HTTPStatusCode 204)) := by
  refine ⟨by decide, by decide, rfl, by decide, by decide⟩

/-- C13 (amended): for an upstream response with status code `c` and body `b`, with
the sorting flag off, `executeHTTPRequest` returns `b` with no error when `c = 200`, and the
status-code error of `c` with an empty result for every other `c`. -/
theorem C13_only_status_200_is_accepted {F : Type} (env : ExecEnv F)
    (payload url method : String) (headers : Option (List (String × String)))
    (c : Int) (b : String)
    (hsort : env.globalSortJSONResponses = false)
    (hreq : env.NewRequestError method url = none)
    (hdo : ∀ req, env.Do req = Except.ok { StatusCode := c, Body := b }) :
    (c = 200 →
      (executeHTTPRequest env payload url method headers).res = b
      ∧ (executeHTTPRequest env payload url method headers).err = none)
    ∧ (c ≠ 200 →
      (executeHTTPRequest env payload url method headers).res = ""
      ∧ (executeHTTPRequest env payload url method headers).err
          = some (GoError.sdk (Error.HTTPStatusCode c))) :=
  executeHTTPRequest_response env payload url method headers c b hsort hreq hdo

/-- Witness of C13 (amended) on `TestRelay_Execute`: status 200 and body `bar`. -/
theorem C13_only_status_200_is_accepted_witness :
    (executeHTTPRequest (Scenario.execEnv 200 "bar") "foo" "https://server.com/relay/"
        "POST" none).res = "bar"
    ∧ (executeHTTPRequest (Scenario.execEnv 200 "bar") "foo" "https://server.com/relay/"
        "POST" none).err = none :=
  (C13_only_status_200_is_accepted (Scenario.execEnv 200 "bar") "foo"
    "https://server.com/relay/" "POST" none 200 "bar" rfl rfl (fun _ => rfl)).1 rfl

/-- C14 (counterexample): when the upstream replies with status code 500,
`Relay.Execute` returns the error `HTTPExecution` that carries the text of the status-code
error, not the status-code error itself. -/
theorem C14_status_error_is_wrapped_counterexample :
    (executeHTTPRequest (Scenario.execEnv 500 "") "foo" "https://server.com/relay/" "POST"
        none).err = some (GoError.sdk (Error.HTTPStatusCode 500))
    ∧ (Relay.Execute (Scenario.execEnv 500 "") (Scenario.executeRelay "")
        Scenario.hbExecute).err
      = some (Error.HTTPExecution
          ((Scenario.execEnv 500 "").sdkErrorText (Error.HTTPStatusCode 500)))
    ∧ (Relay.Execute (Scenario.execEnv 500 "") (Scenario.executeRelay "")
        Scenario.hbExecute).err ≠ some (Error.HTTPStatusCode 500) := by
  refine ⟨by decide, by decide, by decide⟩

/-- C14 (amended): `Relay.Execute` returns an error of the hosted-chain URL lookup
unchanged, and wraps every error of `executeHTTPRequest` in the error `HTTPExecution` that
carries its text: the errors of building the request and of the transport, and also the
status-code error of a rejected status code. -/
theorem C14_execute_wraps_request_errors {F : Type} (env : ExecEnv F) (r : Relay)
    (hb : HostedBlockchains) :
    (∀ e, env.GetChainURL hb r.Proof.Blockchain = Except.error e →
      Relay.Execute env r hb = ⟨"", some e, none⟩)
    ∧ (∀ u, env.GetChainURL hb r.Proof.Blockchain = Except.ok u →
        (∀ er, (executeHTTPRequest env r.Payload.Data
              (trimSlashes u ++ "/" ++ trimSlashes r.Payload.Path) r.Payload.Method
              r.Payload.Headers).err = some er →
            (Relay.Execute env r hb).err = some (Error.HTTPExecution (er.text env)))
        ∧ ((executeHTTPRequest env r.Payload.Data
              (trimSlashes u ++ "/" ++ trimSlashes r.Payload.Path) r.Payload.Method
              r.Payload.Headers).err = none →
            (Relay.Execute env r hb).err = none)
        ∧ (∀ c b, c ≠ 200 → env.globalSortJSONResponses = false →
            env.NewRequestError r.Payload.Method
              (trimSlashes u ++ "/" ++ trimSlashes r.Payload.Path) = none →
            (∀ req, env.Do req = Except.ok { StatusCode := c, Body := b }) →
            (Relay.Execute env r hb).err
              = some (Error.HTTPExecution (env.sdkErrorText (Error.HTTPStatusCode c))))) := by
  constructor
  · intro e he
    unfold Relay.Execute
    rw [he]
  · intro u hu
    have hex := Relay.Execute_of_url env r hb u hu
    refine ⟨?_, ?_, ?_⟩
    · intro er her
      rw [hex, her]
      rfl
    · intro hnone
      rw [hex, hnone]
      rfl
    · intro c b hc hsort hreq hdo
      have hresp := (executeHTTPRequest_response env r.Payload.Data
        (trimSlashes u ++ "/" ++ trimSlashes r.Payload.Path) r.Payload.Method
        r.Payload.Headers c b hsort hreq hdo).2 hc
      rw [hex, hresp.2]
      rfl

/-- Witness of C14 (amended): a chain that is not hosted gives the error of the URL
lookup itself. -/
theorem C14_execute_wraps_request_errors_witness :
    Relay.Execute (Scenario.execEnv 200 "bar") (Scenario.executeRelay "")
        Scenario.hbNotSupported
      = ⟨"", some Error.UnsupportedBlockchainNode, none⟩ :=
  (C14_execute_wraps_request_errors (Scenario.execEnv 200 "bar") (Scenario.executeRelay "")
    Scenario.hbNotSupported).1 Error.UnsupportedBlockchainNode rfl

/-- C16: `sortJSONResponse` is idempotent: sorting a sorted response returns it
unchanged, for every response, given that the number conversions of `strconv` read back
the text they write. -/
theorem C16_sortJSONResponse_idempotent {F : Type} (codec : NumberCodec F)
    (hc : codec.Lawful) (x : String) :
    sortJSONResponse codec (sortJSONResponse codec x) = sortJSONResponse codec x :=
  sortJSONResponse_idem codec hc x

/-- C16, with numbers kept as their literals, on a text with a repeated key and
members out of order. -/
theorem C16_sortJSONResponse_idempotent_witness :
    numberLiteralCodec.Lawful
    ∧ sortJSONResponse numberLiteralCodec
        (sortJSONResponse numberLiteralCodec "\x7b\"b\":[1,2], \"a\":-0.5e3, \"b\":null\x7d")
      = sortJSONResponse numberLiteralCodec "\x7b\"b\":[1,2], \"a\":-0.5e3, \"b\":null\x7d" :=
  ⟨numberLiteralCodec_lawful,
   C16_sortJSONResponse_idempotent numberLiteralCodec numberLiteralCodec_lawful
     "\x7b\"b\":[1,2], \"a\":-0.5e3, \"b\":null\x7d"⟩

/-- C17: two texts that unmarshal into the same object with the members listed in a
different order, at any nesting level, are sorted to the same string, and this string is
the compact text of a value whose objects list their members in ascending key order. -/
theorem C17_reordered_objects_sort_to_same_text {F : Type} (codec : NumberCodec F)
    (x y : String) (l m : List (String × JSONValue F))
    (hx : unmarshalMap codec x = some (some l))
    (hy : unmarshalMap codec y = some (some m))
    (hr : JSONValue.Reordered (JSONValue.object l) (JSONValue.object m)) :
    sortJSONResponse codec x = sortJSONResponse codec y
    ∧ (JSONValue.object l).sortKeys.KeysAscending
    ∧ sortJSONResponse codec x
        = String.mk (JSONValue.print codec (JSONValue.object l).sortKeys) := by
  have hxl := unmarshalMap_members codec x l hx
  have hym := unmarshalMap_members codec y m hy
  have hk := decodeInterface_keysDistinct codec _ _ hxl.1
  refine ⟨?_, JSONValue.sortKeys_keysAscending _ hk, hxl.2⟩
  rw [hxl.2, hym.2, (hr.sortKeys_eq hk).2]

set_option maxRecDepth 100000 in
/-- C17, on the texts of `TestSortJSON`: both are sorted to the same string, the second
text, in which `bar` comes before `foo`. -/
theorem C17_reordered_objects_sort_to_same_text_witness :
    unmarshalMap numberLiteralCodec "\x7b\"foo\":0,\"bar\":1\x7d"
      = some (some [("foo", JSONValue.number ⟨['0'], rfl⟩),
          ("bar", JSONValue.number ⟨['1'], rfl⟩)])
    ∧ sortJSONResponse numberLiteralCodec "\x7b\"foo\":0,\"bar\":1\x7d"
      = sortJSONResponse numberLiteralCodec "\x7b\"bar\":1,\"foo\":0\x7d"
    ∧ sortJSONResponse numberLiteralCodec "\x7b\"foo\":0,\"bar\":1\x7d"
      = "\x7b\"bar\":1,\"foo\":0\x7d" :=
  ⟨rfl, (C17_reordered_objects_sort_to_same_text numberLiteralCodec
    "\x7b\"foo\":0,\"bar\":1\x7d" "\x7b\"bar\":1,\"foo\":0\x7d"
    [("foo", JSONValue.number ⟨['0'], rfl⟩), ("bar", JSONValue.number ⟨['1'], rfl⟩)]
    [("bar", JSONValue.number ⟨['1'], rfl⟩), ("foo", JSONValue.number ⟨['0'], rfl⟩)]
    rfl rfl (JSONValue.Reordered.object_perm (List.Perm.swap _ _ []))).1,
   Scenario.sorted_foo_bar⟩

/-- C18 (counterexample): the body ` null`, JSON null after a space, is not returned
unchanged: it unmarshals into the nil map without error and comes back as `null`. -/
theorem C18_null_with_space_counterexample :
    unmarshalMap numberLiteralCodec " null" = some none
    ∧ sortJSONResponse numberLiteralCodec " null" = "null"
    ∧ sortJSONResponse numberLiteralCodec " null" ≠ " null" := by
  refine ⟨rfl, rfl, by decide⟩

/-- C18 (amended): a response body that cannot be unmarshalled into a map is returned
unchanged by `sortJSONResponse`: a body that is not valid JSON (plain text), and a JSON
array, number, string or boolean, with or without surrounding white space. A body that is
JSON null is returned as `null`, without the white space around it. When the sort flag is
off `executeHTTPRequest` returns the body of every response with status 200 unchanged. -/
theorem C18_bodies_that_are_not_objects {F : Type} (codec : NumberCodec F) (body : String) :
    (parseJSON codec body.data = none → sortJSONResponse codec body = body)
    ∧ (∀ l, parseJSON codec body.data = some (JSONValue.array l) →
        sortJSONResponse codec body = body)
    ∧ (∀ f, parseJSON codec body.data = some (JSONValue.number f) →
        sortJSONResponse codec body = body)
    ∧ (∀ s, parseJSON codec body.data = some (JSONValue.string s) →
        sortJSONResponse codec body = body)
    ∧ (∀ b, parseJSON codec body.data = some (JSONValue.bool b) →
        sortJSONResponse codec body = body)
    ∧ (parseJSON codec body.data = some JSONValue.null → sortJSONResponse codec body = "null")
    ∧ (∀ (env : ExecEnv F) (payload url method : String)
        (headers : Option (List (String × String))),
        env.globalSortJSONResponses = false → env.NewRequestError method url = none →
        (∀ req, env.Do req = Except.ok { StatusCode := 200, Body := body }) →
        (executeHTTPRequest env payload url method headers).res = body) := by
  refine ⟨?_, ?_, ?_, ?_, ?_, ?_, ?_⟩
  · intro h
    simp [sortJSONResponse, unmarshalMap, decodeInterface, JSONValue.toInterface, h]
  · intro l h
    simp [sortJSONResponse, unmarshalMap, decodeInterface, JSONValue.toInterface, h]
  · intro f h
    simp [sortJSONResponse, unmarshalMap, decodeInterface, JSONValue.toInterface, h]
  · intro s h
    simp [sortJSONResponse, unmarshalMap, decodeInterface, JSONValue.toInterface, h]
  · intro b h
    simp [sortJSONResponse, unmarshalMap, decodeInterface, JSONValue.toInterface, h]
  · intro h
    simp [sortJSONResponse, unmarshalMap, decodeInterface, JSONValue.toInterface, h]
  · intro env payload url method headers hsort hreq hdo
    exact ((executeHTTPRequest_response env payload url method headers 200 body hsort hreq
      hdo).1 rfl).1

/-- Witness of C18 (amended): plain text and a JSON array between white space come
back unchanged. -/
theorem C18_bodies_that_are_not_objects_witness :
    sortJSONResponse numberLiteralCodec "plain text" = "plain text"
    ∧ sortJSONResponse numberLiteralCodec " [1, 2]\n" = " [1, 2]\n" :=
  ⟨(C18_bodies_that_are_not_objects numberLiteralCodec "plain text").1 rfl,
   (C18_bodies_that_are_not_objects numberLiteralCodec " [1, 2]\n").2.1
     [JSONValue.number ⟨['1'], rfl⟩, JSONValue.number ⟨['2'], rfl⟩] rfl⟩

/-- C19 (counterexample): the payload of `TestRelay_Validate` has a nil header map,
and its JSON serialization has the key `headers`, with the value `null`; with an empty map
the value is the empty object. -/
theorem C19_nil_headers_are_serialized_counterexample :
    Scenario.payload.Headers = none
    ∧ Scenario.payload.MarshalJSON
      = "\x7b\"data\":\"\x7b\\\"jsonrpc\\\":\\\"2.0\\\",\\\"method\\\":\\\"web3_clientVersion\\\",\\\"params\\\":[],\\\"id\\\":67\x7d\",\"method\":\"\",\"path\":\"\",\"headers\":null\x7d"
    ∧ "\"headers\"".data <:+: Scenario.payload.MarshalJSON.data
    ∧ Payload.MarshalJSON { Scenario.payload with Headers := some [] }
      = "\x7b\"data\":\"\x7b\\\"jsonrpc\\\":\\\"2.0\\\",\\\"method\\\":\\\"web3_clientVersion\\\",\\\"params\\\":[],\\\"id\\\":67\x7d\",\"method\":\"\",\"path\":\"\",\"headers\":\x7b\x7d\x7d" := by
  refine ⟨rfl, rfl, ?_, rfl⟩
  refine ⟨"\x7b\"data\":\"\x7b\\\"jsonrpc\\\":\\\"2.0\\\",\\\"method\\\":\\\"web3_clientVersion\\\",\\\"params\\\":[],\\\"id\\\":67\x7d\",\"method\":\"\",\"path\":\"\",".data,
    ":null\x7d".data, ?_⟩
  rfl

/-- C19 (amended): the JSON serialization of every payload used for hashing
(`Payload.Bytes`, and the payload part of `Relay.RequestHash`) is an object with the four
keys `data`, `method`, `path` and `headers`, in that order, whatever the values are: the
value of `headers` is `null` for the nil map and the empty object for the empty map. -/
theorem C19_payload_serialization_has_four_keys (p : Payload) (relayMeta : RelayMeta)
    (proof : RelayProof) :
    p.Bytes = utf8Bytes p.MarshalJSON
    ∧ parseJSON numberLiteralCodec p.MarshalJSON.data
      = some (JSONValue.object [("data", JSONValue.string p.Data),
          ("method", JSONValue.string p.Method), ("path", JSONValue.string p.Path),
          ("headers", headersValue p.Headers)])
    ∧ (p.Headers = none → headersValue p.Headers = JSONValue.null)
    ∧ (p.Headers = some [] → headersValue p.Headers = JSONValue.object [])
    ∧ (∃ text : String,
        Relay.RequestHash { Payload := p, Meta := relayMeta, Proof := proof } = utf8Bytes text
        ∧ parseJSON numberLiteralCodec text.data
          = some (JSONValue.object [("payload",
                JSONValue.object [("data", JSONValue.string p.Data),
                  ("method", JSONValue.string p.Method), ("path", JSONValue.string p.Path),
                  ("headers", headersValue p.Headers)]),
              ("meta", relayMeta.toValue)])) := by
  refine ⟨rfl, ?_, ?_, ?_, _, rfl, ?_⟩
  · rw [payloadMarshalJSON_data]
    exact parseJSON_print numberLiteralCodec numberLiteralCodec_lawful _
  · intro h
    rw [h]
    rfl
  · intro h
    rw [h]
    rfl
  · rw [requestHash_text_data]
    exact parseJSON_print numberLiteralCodec numberLiteralCodec_lawful _

/-- C21: for a relay that passes every check up to the session lookup and whose
session header is not in the cache, a failure of the session derivation is returned as it
is: the error of `Relay.Validate` is the derivation error, the session cache is the one left
by the lookup (nothing is stored: it is the cache of the call when the lookup leaves the
cache alone), and the relay is unchanged, its method included. -/
theorem C21_derivation_error_is_returned {Cache : Type} (env : Env Cache) (cache : Cache)
    (r : Relay) (ctx : Ctx) (keeper : PosKeeper) (node : Validator) (hb : HostedBlockchains)
    (sbh N : Int) (app : Application) (sessionContext : Ctx) (err : Error)
    (h1 : r.Payload.Validate = none)
    (h2 : r.Meta.Validate ctx env.globalClientBlockAllowance = none)
    (h3 : r.Proof.RequestHash = r.RequestHashString)
    (h4 : hb.Contains r.Proof.Blockchain = true)
    (h5 : IsUniqueProof env.proofs r.Proof.evidenceHeader r.Proof = true)
    (h6 : GetTotalProofs env.proofs r.Proof.evidenceHeader
      < overServiceBound env.platformInt64 app.MaxRelays app.Chains.length N)
    (h7 : env.ValidateLocal r.Proof app.Chains N sbh node.PublicKey = none)
    (h8 : env.PrevCtx ctx sbh = Except.ok sessionContext)
    (h9 : (env.GetSession cache ⟨app.PublicKey, r.Proof.Blockchain, sbh⟩).1 = none)
    (h10 : env.NewSession sessionContext ctx keeper ⟨app.PublicKey, r.Proof.Blockchain, sbh⟩
      (env.BlockHash sessionContext) N = Except.error err) :
    (Relay.Validate env cache r ctx keeper node hb sbh N app).err = some err
    ∧ (Relay.Validate env cache r ctx keeper node hb sbh N app).cache
        = (env.GetSession cache ⟨app.PublicKey, r.Proof.Blockchain, sbh⟩).2
    ∧ ((env.GetSession cache ⟨app.PublicKey, r.Proof.Blockchain, sbh⟩).2 = cache →
        (Relay.Validate env cache r ctx keeper node hb sbh N app).cache = cache)
    ∧ (Relay.Validate env cache r ctx keeper node hb sbh N app).relay = r
    ∧ (Relay.Validate env cache r ctx keeper node hb sbh N app).relay.Payload.Method
        = r.Payload.Method := by
  rw [Relay.Validate_derivation_error env cache r ctx keeper node hb sbh N app sessionContext
    err h1 h2 h3 h4 h5 h6 h7 h8 h9 h10]
  exact ⟨rfl, rfl, fun h => h, rfl, rfl⟩

/-- Witness of C21, the case "not enough service nodes" of `TestRelay_Validate`: one
validator of the keeper serves the chain of the relay while the session needs five, the
deriver fails with `InsufficientNodes`, and `Relay.Validate` returns this error with the
cache still empty and the method of the relay still empty. -/
theorem C21_derivation_error_is_returned_witness :
    (Scenario.candidatePool Scenario.noEthereumKeeper Scenario.ethereum).length = 1
    ∧ (Relay.Validate (Scenario.envDeriving ProofStore.empty) [] (Scenario.relay 1)
        Scenario.ctx Scenario.noEthereumKeeper Scenario.selfNode Scenario.hb 1 5
        (Scenario.app 1000)).err = some (Error.other "InsufficientNodes")
    ∧ (Relay.Validate (Scenario.envDeriving ProofStore.empty) [] (Scenario.relay 1)
        Scenario.ctx Scenario.noEthereumKeeper Scenario.selfNode Scenario.hb 1 5
        (Scenario.app 1000)).cache = []
    ∧ (Relay.Validate (Scenario.envDeriving ProofStore.empty) [] (Scenario.relay 1)
        Scenario.ctx Scenario.noEthereumKeeper Scenario.selfNode Scenario.hb 1 5
        (Scenario.app 1000)).relay.Payload.Method = "" := by
  have h := C21_derivation_error_is_returned (Scenario.envDeriving ProofStore.empty) []
    (Scenario.relay 1) Scenario.ctx Scenario.noEthereumKeeper Scenario.selfNode Scenario.hb 1 5
    (Scenario.app 1000) { BlockHeight := 1 } (Error.other "InsufficientNodes")
    (Scenario.relay_payload_valid 1) (Scenario.relay_meta_valid 1 ProofStore.empty)
    (Scenario.relay_hash_matches 1) (Scenario.relay_chain_hosted 1) (by decide)
    (by
      show GetTotalProofs ProofStore.empty (Scenario.relay 1).Proof.evidenceHeader
        < overServiceBound _ 1000 1 5
      rw [Scenario.bound_thousand_one_five]
      decide)
    rfl rfl rfl rfl
  exact ⟨by decide, h.1, h.2.1, h.2.2.2.2⟩

/-- C22: proof store round trip. After `p.Store()` on a store that holds no evidence
under the header of `p`, `GetProof` of that header, built from the token, the chain and the
session height of `p`, returns at index 0 a proof equal to `p`; the header then holds one
proof, and the store is still consistent. -/
theorem C22_stored_proof_is_read_back (s : ProofStore) (p : RelayProof)
    (hs : s.Consistent) (he : s.evidence p.evidenceHeader = []) :
    ∃ s2, p.Store s = Except.ok s2
      ∧ GetProof s2 ⟨p.Token.ApplicationPublicKey, p.Blockchain, p.SessionBlockHeight⟩ 0
          = some p
      ∧ GetTotalProofs s2 p.evidenceHeader = 1
      ∧ s2.Consistent := by
  have hu := ProofStore.unique_of_no_evidence s p.evidenceHeader p hs he
  have hstore : ∃ s2, p.Store s = Except.ok s2 := by
    unfold RelayProof.Store ProofStore.insert
    rw [if_pos hu]
    exact ⟨_, rfl⟩
  obtain ⟨s2, h2⟩ := hstore
  have hev := ProofStore.insert_evidence s s2 p.evidenceHeader p h2
  rw [he, List.nil_append] at hev
  refine ⟨s2, h2, ?_, ?_, ProofStore.insert_consistent s s2 p.evidenceHeader p hs h2⟩
  · show (s2.evidence p.evidenceHeader)[0]? = some p
    rw [hev]
    rfl
  · unfold GetTotalProofs
    rw [hev]
    rfl

/-- Witness of C22, `TestRelay_HandleProof`: the proof of the test stored into the
empty store. -/
theorem C22_stored_proof_is_read_back_witness :
    ∃ s2, Scenario.handledProof.Store ProofStore.empty = Except.ok s2
      ∧ GetProof s2 ⟨"a1", Scenario.ethereum, 1⟩ 0 = some Scenario.handledProof
      ∧ GetTotalProofs s2 Scenario.handledProof.evidenceHeader = 1
      ∧ s2.Consistent :=
  C22_stored_proof_is_read_back ProofStore.empty Scenario.handledProof
    ProofStore.empty_consistent rfl

/-- C27: `RelayResponse.Validate` returns the empty-response error exactly when
`Response` is empty; for a non-empty `Response` it returns the response-signature error
exactly when `Signature` is empty or has `crypto.Ed25519SignatureSize` bytes, and nil for
every other signature. -/
theorem C27_response_validate_cases (rr : RelayResponse) :
    (rr.Validate = some Error.EmptyResponse ↔ rr.Response = "")
    ∧ (rr.Response ≠ "" →
        (rr.Validate = some Error.ResponseSignature ↔
          (rr.Signature = "" ∨ (utf8Bytes rr.Signature).length = Ed25519SignatureSize)))
    ∧ (rr.Response ≠ "" →
        ¬ (rr.Signature = "" ∨ (utf8Bytes rr.Signature).length = Ed25519SignatureSize) →
        rr.Validate = none) := by
  unfold RelayResponse.Validate
  refine ⟨?_, ?_, ?_⟩
  · constructor
    · intro h
      by_contra hr
      rw [if_neg hr] at h
      split_ifs at h
      cases h
    · intro hr
      rw [if_pos hr]
  · intro hr
    rw [if_neg hr]
    constructor
    · intro h
      by_contra hs
      rw [if_neg hs] at h
      cases h
    · intro hs
      rw [if_pos hs]
  · intro hr hs
    rw [if_neg hr, if_neg hs]

/-- Witness of C27: a response whose signature has 64 characters, the size of a
signature, is answered with the response-signature error. -/
theorem C27_response_validate_cases_witness :
    (utf8Bytes Scenario.longSignatureResponse.Signature).length = 64
    ∧ Scenario.longSignatureResponse.Validate = some Error.ResponseSignature :=
  ⟨by decide,
   ((C27_response_validate_cases Scenario.longSignatureResponse).2.1 (by decide)).mpr
     (Or.inr (by decide))⟩

/-- C26 (counterexample): with `max_relays = 2⁵⁴`, one chain and `N = 2⁵³ + 1` the
cap `⌊⌈max_relays / |chains|⌉ / N⌋` is 1, and a relay that passes the earlier checks on a
header holding 1 proof is not answered `OverService`: the conversion of `N` to `float64`
rounds it to `2⁵³`, and the bound computed by the code is 2. -/
theorem C26_large_session_counterexample :
    (Scenario.relay 4).Payload.Validate = none
    ∧ (Scenario.relay 4).Meta.Validate Scenario.ctx 5 = none
    ∧ (Scenario.relay 4).Proof.RequestHash = (Scenario.relay 4).RequestHashString
    ∧ Scenario.hb.Contains (Scenario.relay 4).Proof.Blockchain = true
    ∧ IsUniqueProof (Scenario.store [1]) (Scenario.relay 4).Proof.evidenceHeader
        (Scenario.relay 4).Proof = true
    ∧ ⌊((⌈((Scenario.app (2 ^ 54)).MaxRelays : ℚ)
          / (((Scenario.app (2 ^ 54)).Chains.length : Int) : ℚ)⌉ : Int) : ℚ)
          / (((2 ^ 53 + 1 : Int)) : ℚ)⌋ = 1
    ∧ GetTotalProofs (Scenario.store [1]) (Scenario.relay 4).Proof.evidenceHeader = 1
    ∧ overServiceBound (Scenario.env (Scenario.store [1])).platformInt64
        (Scenario.app (2 ^ 54)).MaxRelays (Scenario.app (2 ^ 54)).Chains.length (2 ^ 53 + 1) = 2
    ∧ (Relay.Validate (Scenario.env (Scenario.store [1])) [] (Scenario.relay 4)
        Scenario.ctx Scenario.keeper Scenario.selfNode Scenario.hb 1 (2 ^ 53 + 1)
        (Scenario.app (2 ^ 54))).err ≠ some Error.OverService := by
  have hu : IsUniqueProof (Scenario.store [1]) (Scenario.relay 4).Proof.evidenceHeader
      (Scenario.relay 4).Proof = true := by decide
  have hcount : GetTotalProofs (Scenario.store [1])
      (Scenario.relay 4).Proof.evidenceHeader = 1 := by
    rw [Scenario.relay_header, Scenario.store_count]
    rfl
  have hbound : overServiceBound (Scenario.env (Scenario.store [1])).platformInt64
      (Scenario.app (2 ^ 54)).MaxRelays (Scenario.app (2 ^ 54)).Chains.length (2 ^ 53 + 1)
      = 2 := by
    show overServiceBound _ (2 ^ 54) 1 (2 ^ 53 + 1) = 2
    rw [overServiceBound_large_session _ 54 (by norm_num) (by norm_num)]
    norm_num
  refine ⟨Scenario.relay_payload_valid 4, Scenario.relay_meta_valid 4 ProofStore.empty,
    Scenario.relay_hash_matches 4, Scenario.relay_chain_hosted 4, hu, ?_, hcount, hbound, ?_⟩
  · show ⌊((⌈((2 ^ 54 : Int) : ℚ) / (((1 : ℕ) : Int) : ℚ)⌉ : Int) : ℚ)
      / (((2 ^ 53 + 1 : Int)) : ℚ)⌋ = 1
    norm_num
  · exact Relay.Validate_not_over_service (Scenario.env (Scenario.store [1])) []
      (Scenario.relay 4) Scenario.ctx Scenario.keeper Scenario.selfNode Scenario.hb 1
      (2 ^ 53 + 1) (Scenario.app (2 ^ 54)) (Scenario.relay_payload_valid 4)
      (Scenario.relay_meta_valid 4 _) (Scenario.relay_hash_matches 4)
      (Scenario.relay_chain_hosted 4) hu
      (by
        show GetTotalProofs (Scenario.store [1]) (Scenario.relay 4).Proof.evidenceHeader
          < overServiceBound (Scenario.env (Scenario.store [1])).platformInt64
            (Scenario.app (2 ^ 54)).MaxRelays (Scenario.app (2 ^ 54)).Chains.length (2 ^ 53 + 1)
        rw [hcount, hbound]
        norm_num)
      (Scenario.env_later_checks _)

/-- C26 (amended): with `cap = ⌊⌈max_relays / |chains|⌉ / N⌋` for
`0 ≤ max_relays < 2⁵³`, `1 ≤ |chains| < 2⁵³` and `1 ≤ N < 2⁵³` (operands that `float64`
holds exactly), a relay that passes the payload, meta, request-hash, hosted-chain and
uniqueness checks is not answered `OverService` when `count(header) = cap - 1` (the later
checks never answering `OverService` themselves), and is answered `OverService` when
`count(header) = cap`. -/
theorem C26_rate_limit_boundary {Cache : Type} (env : Env Cache) (cache : Cache)
    (r : Relay) (ctx : Ctx) (keeper : PosKeeper) (node : Validator) (hb : HostedBlockchains)
    (sbh N : Int) (app : Application)
    (h1 : r.Payload.Validate = none)
    (h2 : r.Meta.Validate ctx env.globalClientBlockAllowance = none)
    (h3 : r.Proof.RequestHash = r.RequestHashString)
    (h4 : hb.Contains r.Proof.Blockchain = true)
    (h5 : IsUniqueProof env.proofs r.Proof.evidenceHeader r.Proof = true)
    (hm0 : 0 ≤ app.MaxRelays) (hm : app.MaxRelays < 2 ^ 53)
    (hc : 1 ≤ app.Chains.length) (hc2 : (app.Chains.length : Int) < 2 ^ 53)
    (hN : 1 ≤ N) (hN2 : N < 2 ^ 53)
    (hlater : env.laterChecksNeverAnswer Error.OverService) :
    (GetTotalProofs env.proofs r.Proof.evidenceHeader
        = ⌊((⌈(app.MaxRelays : ℚ) / ((app.Chains.length : Int) : ℚ)⌉ : Int) : ℚ) / (N : ℚ)⌋ - 1 →
      (Relay.Validate env cache r ctx keeper node hb sbh N app).err ≠ some Error.OverService)
    ∧ (GetTotalProofs env.proofs r.Proof.evidenceHeader
        = ⌊((⌈(app.MaxRelays : ℚ) / ((app.Chains.length : Int) : ℚ)⌉ : Int) : ℚ) / (N : ℚ)⌋ →
      Relay.Validate env cache r ctx keeper node hb sbh N app
        = ⟨some Error.OverService, r, cache⟩) := by
  rw [← overServiceBound_exact env.platformInt64 app.MaxRelays app.Chains.length N hm0 hm hc hc2
    hN hN2]
  refine ⟨?_, ?_⟩
  · intro hcount
    exact Relay.Validate_not_over_service env cache r ctx keeper node hb sbh N app h1 h2 h3 h4
      h5 (by rw [hcount]; omega) hlater
  · intro hcount
    exact (Relay.Validate_store_checks env cache r ctx keeper node hb sbh N app h1 h2 h3
      h4).2 h5 (by rw [hcount])

/-- Witness of C26 (amended), the over-service scenario of the specification:
`max_relays = 10`, one chain and `N = 5` give the cap 2; with one stored proof the relay is
not answered `OverService`, and with two it is. -/
theorem C26_rate_limit_boundary_witness :
    (Relay.Validate (Scenario.env (Scenario.store [1])) [] (Scenario.relay 4)
        Scenario.ctx Scenario.keeper Scenario.selfNode Scenario.hb 1 5 (Scenario.app 10)).err
        ≠ some Error.OverService
    ∧ Relay.Validate (Scenario.env (Scenario.store [1, 2])) [] (Scenario.relay 4)
        Scenario.ctx Scenario.keeper Scenario.selfNode Scenario.hb 1 5 (Scenario.app 10)
        = ⟨some Error.OverService, Scenario.relay 4, []⟩ := by
  have hcap : ⌊((⌈((Scenario.app 10).MaxRelays : ℚ)
      / (((Scenario.app 10).Chains.length : Int) : ℚ)⌉ : Int) : ℚ) / ((5 : Int) : ℚ)⌋ = 2 := by
    show ⌊((⌈((10 : Int) : ℚ) / (((1 : ℕ) : Int) : ℚ)⌉ : Int) : ℚ) / ((5 : Int) : ℚ)⌋ = 2
    norm_num
  refine ⟨(C26_rate_limit_boundary (Scenario.env (Scenario.store [1])) []
      (Scenario.relay 4) Scenario.ctx Scenario.keeper Scenario.selfNode Scenario.hb 1 5
      (Scenario.app 10) (Scenario.relay_payload_valid 4) (Scenario.relay_meta_valid 4 _)
      (Scenario.relay_hash_matches 4) (Scenario.relay_chain_hosted 4) (by decide)
      (by decide) (by decide) (by decide) (by decide) (by decide) (by decide)
      (Scenario.env_later_checks _)).1 ?_,
    (C26_rate_limit_boundary (Scenario.env (Scenario.store [1, 2])) []
      (Scenario.relay 4) Scenario.ctx Scenario.keeper Scenario.selfNode Scenario.hb 1 5
      (Scenario.app 10) (Scenario.relay_payload_valid 4) (Scenario.relay_meta_valid 4 _)
      (Scenario.relay_hash_matches 4) (Scenario.relay_chain_hosted 4) (by decide)
      (by decide) (by decide) (by decide) (by decide) (by decide) (by decide)
      (Scenario.env_later_checks _)).2 ?_⟩
  · rw [hcap]
    show GetTotalProofs (Scenario.store [1]) (Scenario.relay 4).Proof.evidenceHeader = 2 - 1
    rw [Scenario.relay_header, Scenario.store_count]
    rfl
  · rw [hcap]
    show GetTotalProofs (Scenario.store [1, 2]) (Scenario.relay 4).Proof.evidenceHeader = 2
    rw [Scenario.relay_header, Scenario.store_count]
    rfl

/-- C28 (counterexample): with `max_relays = 2⁵³`, one chain and `N = 2⁵³ + 1` the
quotient `⌈max_relays / |chains|⌉` is below `N`, yet the bound computed by the code is 1,
not 0 (the conversion of `N` to `float64` rounds it to `2⁵³`), and a relay that passes the
earlier checks on a header without stored proof is not answered `OverService`. -/
theorem C28_large_session_counterexample :
    (Scenario.relay 4).Payload.Validate = none
    ∧ (Scenario.relay 4).Meta.Validate Scenario.ctx 5 = none
    ∧ (Scenario.relay 4).Proof.RequestHash = (Scenario.relay 4).RequestHashString
    ∧ Scenario.hb.Contains (Scenario.relay 4).Proof.Blockchain = true
    ∧ IsUniqueProof ProofStore.empty (Scenario.relay 4).Proof.evidenceHeader
        (Scenario.relay 4).Proof = true
    ∧ ⌈((Scenario.app (2 ^ 53)).MaxRelays : ℚ)
          / (((Scenario.app (2 ^ 53)).Chains.length : Int) : ℚ)⌉ < (2 ^ 53 + 1 : Int)
    ∧ GetTotalProofs ProofStore.empty (Scenario.relay 4).Proof.evidenceHeader = 0
    ∧ overServiceBound (Scenario.env ProofStore.empty).platformInt64
        (Scenario.app (2 ^ 53)).MaxRelays (Scenario.app (2 ^ 53)).Chains.length (2 ^ 53 + 1) = 1
    ∧ (Relay.Validate (Scenario.env ProofStore.empty) [] (Scenario.relay 4)
        Scenario.ctx Scenario.keeper Scenario.selfNode Scenario.hb 1 (2 ^ 53 + 1)
        (Scenario.app (2 ^ 53))).err ≠ some Error.OverService := by
  have hu : IsUniqueProof ProofStore.empty (Scenario.relay 4).Proof.evidenceHeader
      (Scenario.relay 4).Proof = true := by decide
  have hbound : overServiceBound (Scenario.env ProofStore.empty).platformInt64
      (Scenario.app (2 ^ 53)).MaxRelays (Scenario.app (2 ^ 53)).Chains.length (2 ^ 53 + 1)
      = 1 := by
    show overServiceBound _ (2 ^ 53) 1 (2 ^ 53 + 1) = 1
    rw [overServiceBound_large_session _ 53 (by norm_num) (by norm_num)]
    norm_num
  refine ⟨Scenario.relay_payload_valid 4, Scenario.relay_meta_valid 4 ProofStore.empty,
    Scenario.relay_hash_matches 4, Scenario.relay_chain_hosted 4, hu, ?_, rfl, hbound, ?_⟩
  · show ⌈((2 ^ 53 : Int) : ℚ) / (((1 : ℕ) : Int) : ℚ)⌉ < (2 ^ 53 + 1 : Int)
    norm_num
  · exact Relay.Validate_not_over_service (Scenario.env ProofStore.empty) []
      (Scenario.relay 4) Scenario.ctx Scenario.keeper Scenario.selfNode Scenario.hb 1
      (2 ^ 53 + 1) (Scenario.app (2 ^ 53)) (Scenario.relay_payload_valid 4)
      (Scenario.relay_meta_valid 4 _) (Scenario.relay_hash_matches 4)
      (Scenario.relay_chain_hosted 4) hu
      (by
        show GetTotalProofs ProofStore.empty (Scenario.relay 4).Proof.evidenceHeader
          < overServiceBound (Scenario.env ProofStore.empty).platformInt64
            (Scenario.app (2 ^ 53)).MaxRelays (Scenario.app (2 ^ 53)).Chains.length (2 ^ 53 + 1)
        rw [hbound]
        decide)
      (Scenario.env_later_checks _)

/-- C28 (amended): for an application with `⌈max_relays / |chains|⌉ < N`, where
`0 ≤ max_relays < 2⁵³`, `1 ≤ |chains| < 2⁵³` and `1 ≤ N < 2⁵³` (operands that `float64`
holds exactly), the bound computed by `Relay.Validate` is 0, and every relay that passes the
payload, meta, request-hash, hosted-chain and uniqueness checks is answered `OverService`,
whatever the store holds, also nothing. -/
theorem C28_zero_cap_rejects_every_relay {Cache : Type} (env : Env Cache) (cache : Cache)
    (r : Relay) (ctx : Ctx) (keeper : PosKeeper) (node : Validator) (hb : HostedBlockchains)
    (sbh N : Int) (app : Application)
    (h1 : r.Payload.Validate = none)
    (h2 : r.Meta.Validate ctx env.globalClientBlockAllowance = none)
    (h3 : r.Proof.RequestHash = r.RequestHashString)
    (h4 : hb.Contains r.Proof.Blockchain = true)
    (h5 : IsUniqueProof env.proofs r.Proof.evidenceHeader r.Proof = true)
    (hm0 : 0 ≤ app.MaxRelays) (hm : app.MaxRelays < 2 ^ 53)
    (hc : 1 ≤ app.Chains.length) (hc2 : (app.Chains.length : Int) < 2 ^ 53)
    (hN : 1 ≤ N) (hN2 : N < 2 ^ 53)
    (hlt : ⌈(app.MaxRelays : ℚ) / ((app.Chains.length : Int) : ℚ)⌉ < N) :
    overServiceBound env.platformInt64 app.MaxRelays app.Chains.length N = 0
    ∧ Relay.Validate env cache r ctx keeper node hb sbh N app
        = ⟨some Error.OverService, r, cache⟩ := by
  have hbound : overServiceBound env.platformInt64 app.MaxRelays app.Chains.length N = 0 := by
    rw [overServiceBound_exact env.platformInt64 app.MaxRelays app.Chains.length N hm0 hm hc
      hc2 hN hN2]
    have hK0 : (0 : Int) ≤ ⌈(app.MaxRelays : ℚ) / ((app.Chains.length : Int) : ℚ)⌉ :=
      Int.ceil_nonneg (by positivity)
    have hNq : (0 : ℚ) < (N : ℚ) := by exact_mod_cast (by omega : (0 : Int) < N)
    rw [Int.floor_eq_iff]
    constructor
    · push_cast
      exact div_nonneg (by exact_mod_cast hK0) hNq.le
    · push_cast
      rw [zero_add, div_lt_one hNq]
      exact_mod_cast hlt
  refine ⟨hbound, ?_⟩
  exact (Relay.Validate_store_checks env cache r ctx keeper node hb sbh N app h1 h2 h3 h4).2 h5
    (by rw [hbound]; exact GetTotalProofs_nonneg _ _)

/-- Witness of C28 (amended): `max_relays = 3`, one chain and `N = 5`; the first relay
of the scenario is answered `OverService` on the empty store. -/
theorem C28_zero_cap_rejects_every_relay_witness :
    overServiceBound (Scenario.env ProofStore.empty).platformInt64 (Scenario.app 3).MaxRelays
        (Scenario.app 3).Chains.length 5 = 0
    ∧ Relay.Validate (Scenario.env ProofStore.empty) [] (Scenario.relay 1) Scenario.ctx
        Scenario.keeper Scenario.selfNode Scenario.hb 1 5 (Scenario.app 3)
        = ⟨some Error.OverService, Scenario.relay 1, []⟩ :=
  C28_zero_cap_rejects_every_relay (Scenario.env ProofStore.empty) [] (Scenario.relay 1)
    Scenario.ctx Scenario.keeper Scenario.selfNode Scenario.hb 1 5 (Scenario.app 3)
    (Scenario.relay_payload_valid 1) (Scenario.relay_meta_valid 1 _)
    (Scenario.relay_hash_matches 1) (Scenario.relay_chain_hosted 1) (by decide)
    (by decide) (by decide) (by decide) (by decide) (by decide) (by decide)
    (by
      show ⌈((3 : Int) : ℚ) / (((1 : ℕ) : Int) : ℚ)⌉ < 5
      norm_num)

/-- C30: `Relay.Validate` is atomic on failure and reads the proof store only. When
it returns an error the relay is unchanged, its method included. With the proof store
passed as state, the only calls that reach the store are `GetTotalProofs` and
`IsUniqueProof`: when these leave the store alone, the store after the call is the store
before it on every path, and with the store of the specification the stored proof count of
every header is unchanged, the outcome being that of the embedding that reads the store. -/
theorem C30_validate_atomic_and_read_only {Cache S : Type} (env : Env Cache)
    (acc : StoreAccess S) (s : S) (cache : Cache) (r : Relay) (ctx : Ctx) (keeper : PosKeeper)
    (node : Validator) (hb : HostedBlockchains) (sbh N : Int) (app : Application)
    (hcount : ∀ s h, (acc.GetTotalProofs s h).2 = s)
    (hunique : ∀ s h p, (acc.IsUniqueProof s h p).2 = s) :
    ((Relay.ValidateOnStore env acc s cache r ctx keeper node hb sbh N app).1.err ≠ none →
      (Relay.ValidateOnStore env acc s cache r ctx keeper node hb sbh N app).1.relay = r
      ∧ (Relay.ValidateOnStore env acc s cache r ctx keeper node hb sbh N
          app).1.relay.Payload.Method = r.Payload.Method)
    ∧ (Relay.ValidateOnStore env acc s cache r ctx keeper node hb sbh N app).2 = s
    ∧ ((Relay.Validate env cache r ctx keeper node hb sbh N app).err ≠ none →
        (Relay.Validate env cache r ctx keeper node hb sbh N app).relay = r)
    ∧ (Relay.ValidateOnStore env ProofStore.access env.proofs cache r ctx keeper node hb sbh N
        app).1 = Relay.Validate env cache r ctx keeper node hb sbh N app
    ∧ (∀ h, GetTotalProofs (Relay.ValidateOnStore env ProofStore.access env.proofs cache r ctx
          keeper node hb sbh N app).2 h = GetTotalProofs env.proofs h) := by
  refine ⟨?_, Relay.ValidateOnStore_store env acc s cache r ctx keeper node hb sbh N app hcount
    hunique, (Relay.Validate_relay env cache r ctx keeper node hb sbh N app).1,
    Relay.ValidateOnStore_outcome env cache r ctx keeper node hb sbh N app, ?_⟩
  · intro herr
    have h := Relay.ValidateOnStore_relay env acc s cache r ctx keeper node hb sbh N app herr
    exact ⟨h, by rw [h]⟩
  · intro h
    rw [Relay.ValidateOnStore_store env ProofStore.access env.proofs cache r ctx keeper node hb
      sbh N app (fun _ _ => rfl) (fun _ _ _ => rfl)]

/-- Witness of C30, the case "payload empty" of `TestRelay_Validate` on a store that
holds two proofs: the error is returned, the relay keeps its empty method, and the store
is the one before the call. -/
theorem C30_validate_atomic_and_read_only_witness :
    (Relay.ValidateOnStore (Scenario.env (Scenario.store [1, 2])) ProofStore.access
        (Scenario.store [1, 2]) [] Scenario.emptyPayloadRelay Scenario.ctx Scenario.keeper
        Scenario.selfNode Scenario.hb 1 5 (Scenario.app 1000)).1.err
      = some Error.EmptyPayloadData
    ∧ (Relay.ValidateOnStore (Scenario.env (Scenario.store [1, 2])) ProofStore.access
        (Scenario.store [1, 2]) [] Scenario.emptyPayloadRelay Scenario.ctx Scenario.keeper
        Scenario.selfNode Scenario.hb 1 5 (Scenario.app 1000)).1.relay.Payload.Method = ""
    ∧ ∀ h, GetTotalProofs (Relay.ValidateOnStore (Scenario.env (Scenario.store [1, 2]))
        ProofStore.access (Scenario.store [1, 2]) [] Scenario.emptyPayloadRelay Scenario.ctx
        Scenario.keeper Scenario.selfNode Scenario.hb 1 5 (Scenario.app 1000)).2 h
        = GetTotalProofs (Scenario.store [1, 2]) h := by
  have h := C30_validate_atomic_and_read_only (Scenario.env (Scenario.store [1, 2]))
    ProofStore.access (Scenario.store [1, 2]) [] Scenario.emptyPayloadRelay Scenario.ctx
    Scenario.keeper Scenario.selfNode Scenario.hb 1 5 (Scenario.app 1000) (fun _ _ => rfl)
    (fun _ _ _ => rfl)
  have herr : (Relay.ValidateOnStore (Scenario.env (Scenario.store [1, 2])) ProofStore.access
      (Scenario.store [1, 2]) [] Scenario.emptyPayloadRelay Scenario.ctx Scenario.keeper
      Scenario.selfNode Scenario.hb 1 5 (Scenario.app 1000)).1.err
      = some Error.EmptyPayloadData := by
    unfold Relay.ValidateOnStore
    rw [if_pos (by decide)]
  refine ⟨herr, ?_, h.2.2.2.2⟩
  rw [(h.1 (by rw [herr]; exact Option.some_ne_none _)).2]
  rfl

/-- C23: in each of the handlers `Dispatch`, `Relay`, `Challenge` and `SendRawTx`,
once the CORS check has passed, the failure of a step (decoding the body, hex-decoding the
raw bytes, the query of the application, marshalling the result) makes the handler write
one error response with status 400 and nothing else, and the success response is the one
response written when every step succeeds. -/
theorem C23_handlers_write_one_response {D R C CM T : Type}
    (envD : QuerySteps SessionHeader D) (envR : QuerySteps Relay R)
    (envC : QuerySteps CM C) (envT : RawTxSteps T) (r : Request)
    (hD : envD.cors r = true) (hR : envR.cors r = true) (hC : envC.cors r = true)
    (hT : envT.cors r = true) :
    ((∀ e, envD.PopModel r = Except.error e →
        rpc.Dispatch envD r = [ResponseWrite.error 400 e])
      ∧ (∀ d e, envD.PopModel r = Except.ok d → envD.Query d = Except.error e →
        rpc.Dispatch envD r = [ResponseWrite.error 400 (envD.errorText e)])
      ∧ (∀ d res e, envD.PopModel r = Except.ok d → envD.Query d = Except.ok res →
        envD.Marshal res = Except.error e → rpc.Dispatch envD r = [ResponseWrite.error 400 e])
      ∧ (∀ d res j, envD.PopModel r = Except.ok d → envD.Query d = Except.ok res →
        envD.Marshal res = Except.ok j →
        rpc.Dispatch envD r = [ResponseWrite.json j r.URLPath r.Host]))
    ∧ ((∀ e, envR.PopModel r = Except.error e →
        rpc.Relay envR r = [ResponseWrite.error 400 e])
      ∧ (∀ d e, envR.PopModel r = Except.ok d → envR.Query d = Except.error e →
        rpc.Relay envR r = [ResponseWrite.error 400 (envR.errorText e)])
      ∧ (∀ d res e, envR.PopModel r = Except.ok d → envR.Query d = Except.ok res →
        envR.Marshal res = Except.error e → rpc.Relay envR r = [ResponseWrite.error 400 e])
      ∧ (∀ d res j, envR.PopModel r = Except.ok d → envR.Query d = Except.ok res →
        envR.Marshal res = Except.ok j →
        rpc.Relay envR r = [ResponseWrite.json j r.URLPath r.Host]))
    ∧ ((∀ e, envC.PopModel r = Except.error e →
        rpc.Challenge envC r = [ResponseWrite.error 400 e])
      ∧ (∀ d e, envC.PopModel r = Except.ok d → envC.Query d = Except.error e →
        rpc.Challenge envC r = [ResponseWrite.error 400 (envC.errorText e)])
      ∧ (∀ d res e, envC.PopModel r = Except.ok d → envC.Query d = Except.ok res →
        envC.Marshal res = Except.error e →
        rpc.Challenge envC r = [ResponseWrite.error 400 e])
      ∧ (∀ d res j, envC.PopModel r = Except.ok d → envC.Query d = Except.ok res →
        envC.Marshal res = Except.ok j →
        rpc.Challenge envC r = [ResponseWrite.json j r.URLPath r.Host]))
    ∧ ((∀ e, envT.PopModel r = Except.error e →
        rpc.SendRawTx envT r = [ResponseWrite.error 400 e])
      ∧ (∀ p, envT.PopModel r = Except.ok p → hexDecode p.RawHexBytes = none →
        rpc.SendRawTx envT r = [ResponseWrite.error 400 (envT.hexErrorText p.RawHexBytes)])
      ∧ (∀ p bz e, envT.PopModel r = Except.ok p → hexDecode p.RawHexBytes = some bz →
        envT.SendRawTx p.Addr bz = Except.error e →
        rpc.SendRawTx envT r = [ResponseWrite.error 400 (envT.errorText e)])
      ∧ (∀ p bz res e, envT.PopModel r = Except.ok p → hexDecode p.RawHexBytes = some bz →
        envT.SendRawTx p.Addr bz = Except.ok res → envT.MarshalJSON res = Except.error e →
        rpc.SendRawTx envT r = [ResponseWrite.error 400 e])
      ∧ (∀ p bz res j, envT.PopModel r = Except.ok p → hexDecode p.RawHexBytes = some bz →
        envT.SendRawTx p.Addr bz = Except.ok res → envT.MarshalJSON res = Except.ok j →
        rpc.SendRawTx envT r = [ResponseWrite.plain j r.URLPath r.Host])) :=
  ⟨rpc.Dispatch_cases envD r hD, rpc.Relay_cases envR r hR, rpc.Challenge_cases envC r hC,
    rpc.SendRawTx_cases envT r hT⟩

/-- Witness of C23 on the handler `Relay`: when the query answers, the one response
written is the JSON response with the marshalled result. -/
theorem C23_handlers_write_one_response_witness :
    rpc.Relay Scenario.answeringRelaySteps Scenario.relayRequest
      = [ResponseWrite.json "\x7b\"response\":\"bar\"\x7d" "/v1/client/relay" "localhost"] :=
  (C23_handlers_write_one_response
    Scenario.undecodableDispatchSteps Scenario.answeringRelaySteps
    Scenario.answeringRelaySteps Scenario.undecodableRawTxSteps Scenario.relayRequest rfl rfl rfl rfl).2.1.2.2.2 (Scenario.relay 1)
    "\x7b\"response\":\"bar\"\x7d" "\x7b\"response\":\"bar\"\x7d" rfl rfl rfl

/-- C24 (counterexample): when the query behind the handler `Relay` fails with the
transport error `HTTPExecution`, the handler writes an error response with status 400, not
a status from 500 to 599. -/
theorem C24_transport_error_is_answered_400_counterexample :
    Scenario.failingRelaySteps.Query (Scenario.relay 1)
      = Except.error (Error.HTTPExecution "connection refused")
    ∧ rpc.Relay Scenario.failingRelaySteps Scenario.relayRequest
      = [ResponseWrite.error 400 "error"]
    ∧ ¬ ((500 : Int) ≤ 400 ∧ (400 : Int) ≤ 599) := by
  refine ⟨rfl, rfl, by decide⟩

/-- C24 (amended): when the query behind the handler `Relay`, `Dispatch` or
`Challenge` fails, the handler responds with status 400 and the text of the error, whatever
the kind of the error is (a client-authorship error, or an internal or transport error such
as `HTTPExecution`, `HTTPStatusCode` or `Internal`); no response with a status from 500 to
599 is written. -/
theorem C24_query_errors_are_answered_400 {D R C CM : Type}
    (envD : QuerySteps SessionHeader D) (envR : QuerySteps Relay R)
    (envC : QuerySteps CM C) (r : Request)
    (hD : envD.cors r = true) (hR : envR.cors r = true) (hC : envC.cors r = true) :
    (∀ d e, envD.PopModel r = Except.ok d → envD.Query d = Except.error e →
      rpc.Dispatch envD r = [ResponseWrite.error 400 (envD.errorText e)])
    ∧ (∀ d e, envR.PopModel r = Except.ok d → envR.Query d = Except.error e →
      rpc.Relay envR r = [ResponseWrite.error 400 (envR.errorText e)])
    ∧ (∀ d e, envC.PopModel r = Except.ok d → envC.Query d = Except.error e →
      rpc.Challenge envC r = [ResponseWrite.error 400 (envC.errorText e)])
    ∧ (∀ code msg, ResponseWrite.error code msg ∈ rpc.Dispatch envD r → code = 400)
    ∧ (∀ code msg, ResponseWrite.error code msg ∈ rpc.Relay envR r → code = 400)
    ∧ (∀ code msg, ResponseWrite.error code msg ∈ rpc.Challenge envC r → code = 400) := by
  refine ⟨(rpc.Dispatch_cases envD r hD).2.1, (rpc.Relay_cases envR r hR).2.1,
    (rpc.Challenge_cases envC r hC).2.1, ?_, ?_, ?_⟩
  · intro code msg hmem
    unfold rpc.Dispatch at hmem
    revert hmem
    repeat' split
    all_goals simp
    all_goals (intro h _; exact h)
  · intro code msg hmem
    unfold rpc.Relay at hmem
    revert hmem
    repeat' split
    all_goals simp
    all_goals (intro h _; exact h)
  · intro code msg hmem
    unfold rpc.Challenge at hmem
    revert hmem
    repeat' split
    all_goals simp
    all_goals (intro h _; exact h)

/-- Witness of C24 (amended) on the handler `Relay`: the query fails with
`HTTPStatusCode 500`, and the response written has status 400. -/
theorem C24_query_errors_are_answered_400_witness :
    rpc.Relay { Scenario.failingRelaySteps with
        Query := fun _ => Except.error (Error.HTTPStatusCode 500) } Scenario.relayRequest
      = [ResponseWrite.error 400 "error"] :=
  (C24_query_errors_are_answered_400
    Scenario.undecodableDispatchSteps
    { Scenario.failingRelaySteps with
        Query := fun _ => Except.error (Error.HTTPStatusCode 500) }
    Scenario.answeringRelaySteps Scenario.relayRequest rfl rfl rfl).2.1 (Scenario.relay 1)
    (Error.HTTPStatusCode 500) rfl rfl

/-- C25 (divergence): with the session key `0` and the two peers `10000000000000000`
(hexadecimal, 2^64) and `1`, `Find` returns the node of the peer at distance 2^64 before the
node of the peer at distance 1, in whichever order the loop visits the peers: the nodes are
ordered by the low 64 bits of the absolute difference, not by the absolute difference. -/
theorem C25_find_orders_by_low_64_bits (undefinedInt : String → Int) :
    proximity undefinedInt "0" "10000000000000000" = 2 ^ 64
    ∧ proximity undefinedInt "0" "1" = 1
    ∧ dispatch.Find undefinedInt "0" [("10000000000000000", "far"), ("1", "near")]
      = ["far", "near"]
    ∧ dispatch.Find undefinedInt "0" [("1", "near"), ("10000000000000000", "far")]
      = ["far", "near"] := by
  obtain ⟨h0, h1, -, -, h64⟩ := SetString_scenarios undefinedInt
  have hfar : proximity undefinedInt "0" "10000000000000000" = 2 ^ 64 := by
    simp only [proximity, h0, h64]
    rfl
  have hnear : proximity undefinedInt "0" "1" = 1 := by
    simp only [proximity, h0, h1]
    rfl
  refine ⟨hfar, hnear, ?_, ?_⟩
  · rw [dispatch.Find_pair, hfar, hnear]
    rfl
  · rw [dispatch.Find_pair, hfar, hnear]
    rfl

/-- C29 (divergence): with the session key `3` and the two peers `5` and `1`, both at
distance 2, `Find` returns the node visited last twice and the other node not at all, so
the result is not a permutation of the nodes of the peer list. -/
theorem C29_find_drops_peer_at_equal_distance (undefinedInt : String → Int) :
    proximity undefinedInt "3" "5" = 2
    ∧ proximity undefinedInt "3" "1" = 2
    ∧ dispatch.Find undefinedInt "3" [("5", "a"), ("1", "b")] = ["b", "b"]
    ∧ dispatch.Find undefinedInt "3" [("1", "b"), ("5", "a")] = ["a", "a"]
    ∧ ¬ List.Perm (dispatch.Find undefinedInt "3" [("5", "a"), ("1", "b")]) ["a", "b"]
    ∧ ¬ List.Perm (dispatch.Find undefinedInt "3" [("1", "b"), ("5", "a")]) ["b", "a"] := by
  obtain ⟨-, h1, h3, h5, -⟩ := SetString_scenarios undefinedInt
  have hfive : proximity undefinedInt "3" "5" = 2 := by
    simp only [proximity, h3, h5]
    rfl
  have hone : proximity undefinedInt "3" "1" = 2 := by
    simp only [proximity, h3, h1]
    rfl
  have hab : dispatch.Find undefinedInt "3" [("5", "a"), ("1", "b")] = ["b", "b"] := by
    rw [dispatch.Find_pair, hfive, hone]
    rfl
  have hba : dispatch.Find undefinedInt "3" [("1", "b"), ("5", "a")] = ["a", "a"] := by
    rw [dispatch.Find_pair, hfive, hone]
    rfl
  refine ⟨hfive, hone, hab, hba, ?_, ?_⟩
  · rw [hab]
    decide
  · rw [hba]
    decide

/-- C15 (counterexample): for the header map with the two entries `a: 1` and `A: 2`
the request carries one header, `A`, with the value of the entry that the loop visits last,
and no header `a`; for the map with the entry `content-type: text/plain` the request
carries the header `Content-Type`. The headers of the request are not the entries of the
map. -/
theorem C15_colliding_keys_counterexample :
    (executeHTTPRequest (Scenario.execEnv 200 "bar") "foo" "https://server.com/relay/" "POST"
        (some [("a", "1"), ("A", "2")])).sent.map HTTPRequest.Header
      = some [("A", ["2"])]
    ∧ (executeHTTPRequest (Scenario.execEnv 200 "bar") "foo" "https://server.com/relay/" "POST"
        (some [("A", "2"), ("a", "1")])).sent.map HTTPRequest.Header
      = some [("A", ["1"])]
    ∧ (executeHTTPRequest (Scenario.execEnv 200 "bar") "foo" "https://server.com/relay/" "POST"
        (some [("content-type", "text/plain")])).sent.map HTTPRequest.Header
      = some [("Content-Type", ["text/plain"])] := by
  refine ⟨?_, ?_, ?_⟩ <;> decide

/-- C15 (amended): the header map of the upstream request built by
`executeHTTPRequest` is `Content-Type: application/json` alone when the payload header map
is nil or empty. When the map is non-empty, the request has no key twice and the values of
a key `k` are the value of the last entry visited whose key has the canonical form `k`, and
none when there is no such entry, so that no `Content-Type` default is added; when the keys
of the map are in canonical form, the headers of the request are the entries of the map. -/
theorem C15_request_headers_are_canonical {F : Type} (env : ExecEnv F)
    (payload url method : String) (headers : Option (List (String × String)))
    (hreq : env.NewRequestError method url = none) :
    ∃ req, (executeHTTPRequest env payload url method headers).sent = some req
      ∧ ((headers = none ∨ headers = some []) →
          req.Header = [("Content-Type", ["application/json"])])
      ∧ (∀ l, headers = some l → l ≠ [] →
          (req.Header.map Prod.fst).Nodup
          ∧ (∀ k, List.lookup k req.Header
              = (l.reverse.find? fun e => CanonicalMIMEHeaderKey e.1 = k).map fun e => [e.2])
          ∧ ((∀ e ∈ l, CanonicalMIMEHeaderKey e.1 ≠ "Content-Type") →
              List.lookup "Content-Type" req.Header = none)
          ∧ ((l.map Prod.fst).Nodup → (∀ e ∈ l, CanonicalMIMEHeaderKey e.1 = e.1) →
              req.Header = l.map fun e => (e.1, [e.2]))) := by
  refine ⟨_, executeHTTPRequest_sent env payload url method headers hreq, ?_, ?_⟩
  · intro h
    rcases h with h | h <;> subst h <;> rfl
  · intro l hl hne
    subst hl
    have hlen : ¬ l.length = 0 := by
      simpa using hne
    have hlookup : ∀ k, List.lookup k (l.foldl (fun h e => Header.Set h e.1 e.2) [])
        = (l.reverse.find? fun e => CanonicalMIMEHeaderKey e.1 = k).map fun e => [e.2] := by
      intro k
      rw [Header.foldl_Set_lookup]
      cases List.find? (fun e => decide (CanonicalMIMEHeaderKey e.1 = k)) l.reverse <;> rfl
    simp only [if_neg hlen, Option.getD_some]
    refine ⟨Header.foldl_Set_nodup l [] (by simp), hlookup, ?_, ?_⟩
    · intro hct
      rw [hlookup, Option.map_eq_none', List.find?_eq_none]
      intro e he
      simpa using hct e (List.mem_reverse.1 he)
    · intro hn hc
      rw [Header.foldl_Set_canonical l [] hn hc (fun _ _ _ hx => absurd hx (List.not_mem_nil _)),
        List.nil_append]

/-- Witness of C15 (amended): the header map with the entries
`Content-Type: text/plain` and `Accept: */*`, whose keys are in canonical form, gives a
request with these two headers. -/
theorem C15_request_headers_are_canonical_witness :
    ∃ req, (executeHTTPRequest (Scenario.execEnv 200 "bar") "foo"
          "https://server.com/relay/" "POST"
          (some [("Content-Type", "text/plain"), ("Accept", "*/*")])).sent = some req
      ∧ req.Header = [("Content-Type", ["text/plain"]), ("Accept", ["*/*"])] := by
  obtain ⟨req, hsent, -, h⟩ := C15_request_headers_are_canonical (Scenario.execEnv 200 "bar")
    "foo" "https://server.com/relay/" "POST"
    (some [("Content-Type", "text/plain"), ("Accept", "*/*")]) rfl
  exact ⟨req, hsent, (h _ rfl (by simp)).2.2.2 (by decide) (by decide)⟩

set_option maxRecDepth 1000000 in
/-- C20 (counterexample): the relay of `TestRelay_Validate` with the single byte `0xFF`
as payload data, which is not valid UTF-8. `json.Marshal` writes the data as the escape of
U+FFFD, and `json.Unmarshal` of the text yields a relay whose data are the three bytes of
U+FFFD, not the byte `0xFF`: decoding the encoding does not give the relay back. -/
theorem C20_invalid_utf8_data_counterexample :
    (Scenario.relay 1).Payload.MarshalJSONOfData [255]
      = "\x7b\"data\":\"\\ufffd\",\"method\":\"\",\"path\":\"\",\"headers\":null\x7d"
    ∧ (Relay.Unmarshal (RelayProof.codec Scenario.proofKeys)
        (Relay.MarshalOfData (RelayProof.codec Scenario.proofKeys) [255]
          (Scenario.relay 1))).map (fun r => utf8Bytes r.Payload.Data)
      = some [239, 191, 189]
    ∧ ([239, 191, 189] : List Nat) ≠ [255] := by
  refine ⟨by decide, by decide, by decide⟩

/-- C20 (amended): JSON round trip of a relay whose strings hold valid UTF-8. The
fields of `RelayProof` and `AAT` have JSON names that differ from each other, the header
map has distinct keys, and the block height, the entropy and the session block height are
`int64` values. Then the text that `json.Marshal` writes for the relay, data given by their
bytes, is the text of the relay of the model; `json.Unmarshal` of that text succeeds and
yields a relay with the same data, method, path, meta and proof, with the nil header map
when the headers were nil and with a map holding the same entries otherwise (listed in
ascending key order: the very same relay when the entries were listed in that order), and
with the same `RequestHashString`. -/
theorem C20_valid_utf8_relay_round_trip (keys : ProofKeys) (r : Relay)
    (hkeys : keys.Distinct)
    (hk : ∀ l, r.Payload.Headers = some l → (l.map Prod.fst).Nodup)
    (hb : inInt64 r.Meta.BlockHeight)
    (he : inInt64 r.Proof.Entropy) (hs : inInt64 r.Proof.SessionBlockHeight) :
    Relay.MarshalOfData (RelayProof.codec keys) (utf8Bytes r.Payload.Data) r
      = Relay.Marshal (RelayProof.codec keys) r
    ∧ ∃ r2 : Relay,
      Relay.Unmarshal (RelayProof.codec keys) (Relay.Marshal (RelayProof.codec keys) r)
        = some r2
      ∧ r2.Payload.Data = r.Payload.Data
      ∧ r2.Payload.Method = r.Payload.Method
      ∧ r2.Payload.Path = r.Payload.Path
      ∧ (r.Payload.Headers = none → r2.Payload.Headers = none)
      ∧ (∀ l, r.Payload.Headers = some l →
          ∃ l2, r2.Payload.Headers = some l2 ∧ l2.Perm l)
      ∧ r2.Meta = r.Meta
      ∧ r2.Proof = r.Proof
      ∧ r2.RequestHashString = r.RequestHashString
      ∧ ((∀ l, r.Payload.Headers = some l →
            l.Sorted (fun (a b : String × String) => a.1 ≤ b.1)) → r2 = r) := by
  refine ⟨Relay.MarshalOfData_utf8Bytes _ r, _,
    Relay.Unmarshal_Marshal (RelayProof.codec keys) r hk hb
      (RelayProof.codec_round_trip keys hkeys _ r.Proof he hs),
    rfl, rfl, rfl, ?_, ?_, rfl, rfl, ?_, ?_⟩
  · intro h
    simp only [h, Option.map_none']
  · intro l h
    refine ⟨l.insertionSort (fun (a b : String × String) => a.1 ≤ b.1), ?_,
      List.perm_insertionSort _ l⟩
    simp only [h, Option.map_some']
  · simp only [Relay.RequestHashString, Relay.RequestHash, Payload.MarshalJSON,
      jsonStringMap_sorted]
  · intro hs
    obtain ⟨p, m, q⟩ := r
    obtain ⟨d, me, pa, h⟩ := p
    cases h with
    | none => rfl
    | some l =>
      simp only [Option.map_some']
      rw [List.Sorted.insertionSort_eq (hs l rfl)]

/-- Witness of C20 (amended): the relay of `TestRelay_Validate` with two headers is
read back from its text with the same data, meta and proof, and the same request hash. -/
theorem C20_valid_utf8_relay_round_trip_witness :
    ∃ r2 : Relay,
      Relay.Unmarshal (RelayProof.codec Scenario.proofKeys)
        (Relay.Marshal (RelayProof.codec Scenario.proofKeys) Scenario.relayWithHeaders)
        = some r2
      ∧ r2.Payload.Data = Scenario.relayWithHeaders.Payload.Data
      ∧ r2.Meta = Scenario.relayWithHeaders.Meta
      ∧ r2.Proof = Scenario.relayWithHeaders.Proof
      ∧ r2.RequestHashString = Scenario.relayWithHeaders.RequestHashString := by
  obtain ⟨-, r2, h1, h2, -, -, -, -, h7, h8, h9, -⟩ :=
    C20_valid_utf8_relay_round_trip Scenario.proofKeys Scenario.relayWithHeaders
      Scenario.proofKeys_distinct
      (fun l h => by
        have hl : l = [("Content-Type", "text/plain"), ("Accept", "*/*")] :=
          (Option.some.inj h).symm
        rw [hl]
        decide)
      (by decide) (by decide) (by decide)
  exact ⟨r2, h1, h2, h7, h8, h9⟩

end Pocket
